import Mathlib

/-!
Verification of the `slabs` text-chunking library.

Texts are modelled as `List Char`; byte offsets are modelled through
`Char.utf8Size`, matching Rust's `str` byte-offset semantics.  Rust `panic!`
and divergence are modelled by `Option`-valued functions returning `none`.
Loops over byte positions are modelled with explicit fuel; the top-level
wrappers supply fuel that is sufficient whenever the Rust loop terminates.
-/

namespace Slabs

/-- Total number of UTF-8 bytes of a character list (Rust `str::len`). -/
def utf8Len (s : List Char) : Nat := (s.map Char.utf8Size).sum

/-- Greedily take characters filling at most `n` bytes (floor semantics). -/
def takeBytes : List Char → Nat → List Char
  | [], _ => []
  | c :: cs, n => if c.utf8Size ≤ n then c :: takeBytes cs (n - c.utf8Size) else []

/-- Drop the characters occupying the first `n` bytes (floor semantics). -/
def dropBytes : List Char → Nat → List Char
  | [], _ => []
  | c :: cs, n => if c.utf8Size ≤ n then dropBytes cs (n - c.utf8Size) else c :: cs

/-- The characters of `s` between byte offsets `a` and `b` (Rust `&s[a..b]`,
assuming `a` and `b` are char boundaries). -/
def byteSlice (s : List Char) (a b : Nat) : List Char :=
  takeBytes (dropBytes s a) (b - a)

/-- Rust `str::is_char_boundary`: `i` is `0`, the total byte length, or the
byte offset of the start of some character (and `i ≤ utf8Len s`). -/
def isBoundary (s : List Char) (i : Nat) : Bool :=
  utf8Len (takeBytes s i) == i

/-- The loop `while !s.is_char_boundary(i) { i -= 1 }` (also used with the
redundant extra guard `i > 0`, since offset `0` is always a boundary). -/
def snapDown (s : List Char) : Nat → Nat
  | 0 => 0
  | i + 1 => if isBoundary s (i + 1) then i + 1 else snapDown s i

/-- The loop `while i < s.len() && !s.is_char_boundary(i) { i += 1 }`,
written with the explicit iteration bound `utf8Len s - i`. -/
def snapUpGo (s : List Char) : Nat → Nat → Nat
  | 0, i => i
  | fuel + 1, i => if isBoundary s i then i else snapUpGo s fuel (i + 1)

def snapUp (s : List Char) (i : Nat) : Nat :=
  snapUpGo s (utf8Len s - i) i

/- ### Basic facts about the byte model -/

theorem utf8Size_pos (c : Char) : 0 < c.utf8Size := by
  simp [Char.utf8Size]
  repeat' split
  all_goals simp

theorem utf8Size_le_four (c : Char) : c.utf8Size ≤ 4 := by
  simp [Char.utf8Size]
  repeat' split
  all_goals simp

theorem utf8Len_nil : utf8Len [] = 0 := rfl

theorem utf8Len_cons (c : Char) (s : List Char) :
    utf8Len (c :: s) = c.utf8Size + utf8Len s := by
  simp [utf8Len]

theorem utf8Len_append (a b : List Char) :
    utf8Len (a ++ b) = utf8Len a + utf8Len b := by
  simp [utf8Len]

theorem utf8Len_pos_of_ne_nil {s : List Char} (h : s ≠ []) : 0 < utf8Len s := by
  cases s with
  | nil => exact absurd rfl h
  | cons c cs =>
      have := utf8Size_pos c
      simp [utf8Len_cons]
      omega

theorem eq_nil_of_utf8Len_eq_zero {s : List Char} (h : utf8Len s = 0) : s = [] := by
  by_contra hne
  have := utf8Len_pos_of_ne_nil hne
  omega

theorem utf8Len_takeBytes_le (s : List Char) (n : Nat) :
    utf8Len (takeBytes s n) ≤ n := by
  induction s generalizing n with
  | nil => simp [takeBytes, utf8Len_nil]
  | cons c cs ih =>
      simp only [takeBytes]
      split
      · rename_i h
        have := ih (n - c.utf8Size)
        simp [utf8Len_cons]
        omega
      · simp [utf8Len_nil]

theorem takeBytes_append_dropBytes (s : List Char) (n : Nat) :
    takeBytes s n ++ dropBytes s n = s := by
  induction s generalizing n with
  | nil => simp [takeBytes, dropBytes]
  | cons c cs ih =>
      simp only [takeBytes, dropBytes]
      split
      · simp [ih]
      · simp

theorem takeBytes_full {s : List Char} {n : Nat} (h : utf8Len s ≤ n) :
    takeBytes s n = s := by
  induction s generalizing n with
  | nil => simp [takeBytes]
  | cons c cs ih =>
      simp only [utf8Len_cons] at h
      have h1 : c.utf8Size ≤ n := by omega
      simp only [takeBytes, if_pos h1]
      rw [ih (by omega)]

theorem dropBytes_full {s : List Char} {n : Nat} (h : utf8Len s ≤ n) :
    dropBytes s n = [] := by
  induction s generalizing n with
  | nil => simp [dropBytes]
  | cons c cs ih =>
      simp only [utf8Len_cons] at h
      have h1 : c.utf8Size ≤ n := by omega
      simp only [dropBytes, if_pos h1]
      exact ih (by omega)

/-- Taking exactly the bytes of a prefix recovers the prefix. -/
theorem takeBytes_append_exact (a b : List Char) :
    takeBytes (a ++ b) (utf8Len a) = a := by
  induction a with
  | nil =>
      cases b with
      | nil => simp [takeBytes]
      | cons c cs =>
          have := utf8Size_pos c
          simp [takeBytes, utf8Len_nil]
          omega
  | cons c cs ih =>
      simp only [List.cons_append, takeBytes, utf8Len_cons]
      have : c.utf8Size ≤ c.utf8Size + utf8Len cs := by omega
      rw [if_pos this]
      simp [ih]

theorem dropBytes_append_exact (a b : List Char) :
    dropBytes (a ++ b) (utf8Len a) = b := by
  have h := takeBytes_append_dropBytes (a ++ b) (utf8Len a)
  rw [takeBytes_append_exact] at h
  exact (List.append_cancel_left h)

theorem takeBytes_zero (s : List Char) : takeBytes s 0 = [] := by
  cases s with
  | nil => rfl
  | cons c cs =>
      have := utf8Size_pos c
      simp [takeBytes]
      omega

theorem isBoundary_zero (s : List Char) : isBoundary s 0 = true := by
  simp [isBoundary, takeBytes_zero, utf8Len_nil]

theorem isBoundary_utf8Len (s : List Char) : isBoundary s (utf8Len s) = true := by
  simp [isBoundary, takeBytes_full (Nat.le_refl _)]

/-- A byte offset that is the length of a prefix is a boundary. -/
theorem isBoundary_append_left (a b : List Char) :
    isBoundary (a ++ b) (utf8Len a) = true := by
  simp [isBoundary, takeBytes_append_exact]

theorem isBoundary_le {s : List Char} {i : Nat} (h : isBoundary s i = true) :
    i ≤ utf8Len s := by
  simp only [isBoundary, beq_iff_eq] at h
  have h2 : utf8Len (takeBytes s i) ≤ utf8Len s := by
    conv_rhs => rw [← takeBytes_append_dropBytes s i]
    rw [utf8Len_append]
    omega
  omega

theorem takeBytes_of_isBoundary {s : List Char} {i : Nat}
    (h : isBoundary s i = true) : utf8Len (takeBytes s i) = i := by
  simpa [isBoundary] using h

theorem utf8Len_dropBytes_of_isBoundary {s : List Char} {i : Nat}
    (h : isBoundary s i = true) : utf8Len (dropBytes s i) = utf8Len s - i := by
  have h2 := takeBytes_append_dropBytes s i
  have h3 := takeBytes_of_isBoundary h
  have h4 : utf8Len (takeBytes s i ++ dropBytes s i) = utf8Len s := by rw [h2]
  rw [utf8Len_append, h3] at h4
  omega

/-- Taking a prefix's bytes plus `k` more passes over the prefix. -/
theorem takeBytes_append_add (a b : List Char) (k : Nat) :
    takeBytes (a ++ b) (utf8Len a + k) = a ++ takeBytes b k := by
  induction a with
  | nil => simp [utf8Len_nil]
  | cons c cs ih =>
      simp only [List.cons_append, takeBytes, utf8Len_cons]
      rw [if_pos (by omega)]
      have harg : c.utf8Size + utf8Len cs + k - c.utf8Size = utf8Len cs + k := by
        omega
      rw [harg]
      simp [ih]

/-- A boundary of `s` beyond a prefix `a` of `s` is a boundary of the rest. -/
theorem isBoundary_append_iff (a b : List Char) (k : Nat) :
    isBoundary (a ++ b) (utf8Len a + k) = isBoundary b k := by
  simp only [isBoundary, takeBytes_append_add, utf8Len_append]
  by_cases hx : utf8Len (takeBytes b k) = k
  · simp [hx]
  · have h1 : utf8Len a + utf8Len (takeBytes b k) ≠ utf8Len a + k := by omega
    simp [hx, h1]

/-- `takeBytes` is unchanged as the budget moves down from a non-boundary. -/
theorem takeBytes_pred_of_not_boundary {s : List Char} {i : Nat}
    (h : isBoundary s (i + 1) = false) : takeBytes s (i + 1) = takeBytes s i := by
  induction s generalizing i with
  | nil => simp [takeBytes]
  | cons c cs ih =>
      simp only [takeBytes]
      by_cases h1 : c.utf8Size ≤ i + 1
      · by_cases h2 : c.utf8Size = i + 1
        · exfalso
          have : isBoundary (c :: cs) (i + 1) = true := by
            simp only [isBoundary, takeBytes, if_pos h1, h2, Nat.sub_self,
              takeBytes_zero]
            simp [utf8Len_cons, utf8Len_nil, h2]
          rw [this] at h
          exact Bool.noConfusion h
        · have h3 : c.utf8Size ≤ i := by omega
          rw [if_pos h1, if_pos h3]
          have hb : isBoundary cs (i + 1 - c.utf8Size) = false := by
            by_contra hb
            have hb2 : isBoundary cs (i + 1 - c.utf8Size) = true := by
              cases hx : isBoundary cs (i + 1 - c.utf8Size) with
              | true => rfl
              | false => exact absurd hx hb
            have : isBoundary (c :: cs) (i + 1) = true := by
              simp only [isBoundary, takeBytes, if_pos h1, utf8Len_cons]
              have := takeBytes_of_isBoundary hb2
              rw [this]
              have : c.utf8Size + (i + 1 - c.utf8Size) = i + 1 := by omega
              simp [this]
            rw [this] at h
            exact Bool.noConfusion h
          have hstep : i + 1 - c.utf8Size = (i - c.utf8Size) + 1 := by omega
          rw [hstep] at hb ⊢
          rw [ih hb]
      · have h3 : ¬ c.utf8Size ≤ i := by omega
        rw [if_neg h1, if_neg h3]

/-- `snapDown` computes the floor boundary: the byte length of `takeBytes`. -/
theorem snapDown_eq_floor (s : List Char) (i : Nat) :
    snapDown s i = utf8Len (takeBytes s i) := by
  induction i with
  | zero => simp [snapDown, takeBytes_zero, utf8Len_nil]
  | succ j ih =>
      simp only [snapDown]
      cases h : isBoundary s (j + 1) with
      | true => rw [if_pos rfl, takeBytes_of_isBoundary h]
      | false =>
          rw [if_neg (by simp)]
          rw [ih, takeBytes_pred_of_not_boundary h]

theorem snapDown_le (s : List Char) (i : Nat) : snapDown s i ≤ i := by
  rw [snapDown_eq_floor]; exact utf8Len_takeBytes_le s i

theorem isBoundary_snapDown (s : List Char) (i : Nat) :
    isBoundary s (snapDown s i) = true := by
  induction i with
  | zero => simpa [snapDown] using isBoundary_zero s
  | succ j ih =>
      simp only [snapDown]
      cases h : isBoundary s (j + 1) with
      | true => simpa using h
      | false => simpa using ih

/-- The floor snap moves back by fewer bytes than one character's width:
at most 3 bytes, provided the offset is within the text. -/
theorem snapDown_ge (s : List Char) (i : Nat) (h : i ≤ utf8Len s) :
    i ≤ snapDown s i + 3 := by
  rw [snapDown_eq_floor]
  induction s generalizing i with
  | nil => simp [utf8Len_nil] at h; omega
  | cons c cs ih =>
      simp only [takeBytes]
      by_cases h1 : c.utf8Size ≤ i
      · simp only [if_pos h1, utf8Len_cons]
        have h2 : i - c.utf8Size ≤ utf8Len cs := by
          simp only [utf8Len_cons] at h; omega
        have := ih (i - c.utf8Size) h2
        omega
      · simp only [if_neg h1, utf8Len_nil]
        have := utf8Size_le_four c
        omega

theorem snapDown_boundary_fix {s : List Char} {i : Nat}
    (h : isBoundary s i = true) : snapDown s i = i := by
  rw [snapDown_eq_floor, takeBytes_of_isBoundary h]

theorem snapUpGo_ge (s : List Char) (fuel i : Nat) : i ≤ snapUpGo s fuel i := by
  induction fuel generalizing i with
  | zero => simp [snapUpGo]
  | succ f ih =>
      simp only [snapUpGo]
      split
      · exact Nat.le_refl i
      · have := ih (i + 1); omega

theorem snapUp_ge (s : List Char) (i : Nat) : i ≤ snapUp s i :=
  snapUpGo_ge s _ i

/-- When started within the text, the ceiling snap ends on a boundary. -/
theorem isBoundary_snapUpGo (s : List Char) (fuel i : Nat)
    (h : utf8Len s ≤ i + fuel) (hle : i ≤ utf8Len s) :
    isBoundary s (snapUpGo s fuel i) = true := by
  induction fuel generalizing i with
  | zero =>
      have : i = utf8Len s := by omega
      simpa [snapUpGo, this] using isBoundary_utf8Len s
  | succ f ih =>
      simp only [snapUpGo]
      cases hb : isBoundary s i with
      | true => simpa using hb
      | false =>
          rw [if_neg (by simp)]
          have hlt : i < utf8Len s := by
            rcases Nat.lt_or_ge i (utf8Len s) with h1 | h1
            · exact h1
            · have : i = utf8Len s := by omega
              rw [this, isBoundary_utf8Len] at hb
              exact Bool.noConfusion hb
          exact ih (i + 1) (by omega) (by omega)

theorem isBoundary_snapUp (s : List Char) (i : Nat) (hle : i ≤ utf8Len s) :
    isBoundary s (snapUp s i) = true :=
  isBoundary_snapUpGo s _ i (by omega) hle

theorem snapUpGo_le (s : List Char) (fuel i : Nat) (h : i ≤ utf8Len s)
    (hf : utf8Len s ≤ i + fuel) : snapUpGo s fuel i ≤ utf8Len s := by
  induction fuel generalizing i with
  | zero => simpa [snapUpGo] using h
  | succ f ih =>
      simp only [snapUpGo]
      split
      · exact h
      · rename_i hb
        have hlt : i < utf8Len s := by
          rcases Nat.lt_or_ge i (utf8Len s) with h1 | h1
          · exact h1
          · have : i = utf8Len s := by omega
            rw [this, isBoundary_utf8Len] at hb
            simp at hb
        exact ih (i + 1) (by omega) (by omega)

theorem snapUp_le (s : List Char) (i : Nat) (h : i ≤ utf8Len s) :
    snapUp s i ≤ utf8Len s :=
  snapUpGo_le s _ i h (by omega)

/- ### Byte-slice algebra -/

theorem byteSlice_zero_len (s : List Char) : byteSlice s 0 (utf8Len s) = s := by
  simp only [byteSlice, Nat.sub_zero]
  cases s with
  | nil => simp [dropBytes, takeBytes]
  | cons c cs =>
      have h0 : dropBytes (c :: cs) 0 = c :: cs := by
        have := utf8Size_pos c
        simp [dropBytes]
        omega
      rw [h0, takeBytes_full (Nat.le_refl _)]

/-- Slicing out the middle of a three-way decomposition. -/
theorem byteSlice_middle (a b c : List Char) :
    byteSlice (a ++ b ++ c) (utf8Len a) (utf8Len a + utf8Len b) = b := by
  simp only [byteSlice]
  rw [List.append_assoc, dropBytes_append_exact]
  have : utf8Len a + utf8Len b - utf8Len a = utf8Len b := by omega
  rw [this, takeBytes_append_exact]

theorem byteSlice_append_left (a b : List Char) :
    byteSlice (a ++ b) 0 (utf8Len a) = a := by
  have := byteSlice_middle [] a b
  simpa [utf8Len_nil] using this

/-- Two boundaries `a ≤ b` of `s` decompose `s` into three layers, with the
middle layer being the byte slice `[a, b)`. -/
theorem slice_decomp {s : List Char} {a b : Nat}
    (ha : isBoundary s a = true) (hb : isBoundary s b = true) (hab : a ≤ b) :
    ∃ x w v, s = x ++ w ++ v ∧ utf8Len x = a ∧ utf8Len w = b - a ∧
      byteSlice s a b = w ∧ dropBytes s a = w ++ v ∧ dropBytes s b = v := by
  have hxa : utf8Len (takeBytes s a) = a := takeBytes_of_isBoundary ha
  have hsa := takeBytes_append_dropBytes s a
  have hmid : isBoundary (dropBytes s a) (b - a) = true := by
    have h6 : isBoundary (takeBytes s a ++ dropBytes s a) b = true := by
      rw [hsa]; exact hb
    have h7 : b = utf8Len (takeBytes s a) + (b - a) := by rw [hxa]; omega
    rw [h7, isBoundary_append_iff] at h6
    exact h6
  have hw : utf8Len (takeBytes (dropBytes s a) (b - a)) = b - a :=
    takeBytes_of_isBoundary hmid
  have hra := takeBytes_append_dropBytes (dropBytes s a) (b - a)
  refine ⟨takeBytes s a, takeBytes (dropBytes s a) (b - a),
    dropBytes (dropBytes s a) (b - a), ?_, hxa, hw, ?_, ?_, ?_⟩
  · rw [List.append_assoc, hra, hsa]
  · simp only [byteSlice]
  · rw [hra]
  · have h11 : utf8Len (takeBytes s a ++ takeBytes (dropBytes s a) (b - a)) = b := by
      rw [utf8Len_append, hxa, hw]; omega
    have h12 : s = (takeBytes s a ++ takeBytes (dropBytes s a) (b - a)) ++
        dropBytes (dropBytes s a) (b - a) := by
      rw [List.append_assoc, hra, hsa]
    have h13 := dropBytes_append_exact
      (takeBytes s a ++ takeBytes (dropBytes s a) (b - a))
      (dropBytes (dropBytes s a) (b - a))
    rw [h11] at h13
    rw [← h12] at h13
    exact h13

theorem utf8Len_byteSlice_of_boundaries {s : List Char} {a b : Nat}
    (ha : isBoundary s a = true) (hb : isBoundary s b = true) (hab : a ≤ b) :
    utf8Len (byteSlice s a b) = b - a := by
  obtain ⟨x, w, v, _, _, hw, hsl, _, _⟩ := slice_decomp ha hb hab
  rw [hsl, hw]

/-- Adjacent byte slices concatenate (the upper endpoint `c` may be
arbitrary; the two cut points must be boundaries). -/
theorem byteSlice_append_byteSlice {s : List Char} {a b c : Nat}
    (ha : isBoundary s a = true) (hb : isBoundary s b = true)
    (hab : a ≤ b) (hbc : b ≤ c) :
    byteSlice s a b ++ byteSlice s b c = byteSlice s a c := by
  obtain ⟨x, w, v, hdecomp, hx, hw, hsl, hda, hdb⟩ := slice_decomp ha hb hab
  rw [hsl]
  simp only [byteSlice, hda, hdb]
  have harg : c - a = utf8Len w + (c - b) := by omega
  rw [harg, takeBytes_append_add]

/- ### The chunk record (src/slab.rs)

`Slab { text, start, end, index }`.  The Rust field `end` is a Lean keyword,
so it is called `stop` here. -/

structure Slab where
  text : List Char
  start : Nat
  stop : Nat
  index : Nat
deriving Repr, DecidableEq

/-- Concatenation of a list of fragments (`Vec<String>` joined in order). -/
def concatAll : List (List Char) → List Char
  | [] => []
  | x :: xs => x ++ concatAll xs

theorem concatAll_append (a b : List (List Char)) :
    concatAll (a ++ b) = concatAll a ++ concatAll b := by
  induction a with
  | nil => simp [concatAll]
  | cons x xs ih => simp [concatAll, ih]

/- ### Rust `str::split` on a pattern (used by the recursive splitter)

For a non-empty separator, `split` yields the segments between successive
leftmost non-overlapping occurrences; for the empty separator it yields an
empty string, every character, and an empty string. -/

/-- Position of the leftmost occurrence of `sep` in `s`, if any
(Rust `str::find`, as a character index). -/
def findSub (sep : List Char) : List Char → Option Nat
  | [] => if sep.isPrefixOf [] then some 0 else none
  | c :: s2 =>
    if sep.isPrefixOf (c :: s2) then some 0
    else (findSub sep s2).map (· + 1)

/-- One `split` step per fuel unit; `s.length + 1` is always enough fuel
for a non-empty separator. -/
def splitGo (sep : List Char) : Nat → List Char → List (List Char)
  | 0, s => [s]
  | fuel + 1, s =>
    match findSub sep s with
    | none => [s]
    | some i => s.take i :: splitGo sep fuel (s.drop (i + sep.length))

/-- Rust `text.split(sep).collect::<Vec<_>>()`. -/
def splitOnSep (sep s : List Char) : List (List Char) :=
  match sep with
  | [] => [] :: (s.map (fun c => [c]) ++ [[]])
  | _ :: _ => splitGo sep (s.length + 1) s

/-- Re-suffix each part with the separator, except the final part
(the `with_sep` values of the loop in `split_recursive`). -/
def withSeps (sep : List Char) : List (List Char) → List (List Char)
  | [] => []
  | [p] => [p]
  | p :: q :: ps => (p ++ sep) :: withSeps sep (q :: ps)

/-- Parts interleaved with the separator (what `split` decomposed). -/
def interSep (sep : List Char) : List (List Char) → List Char
  | [] => []
  | [p] => p
  | p :: q :: ps => p ++ sep ++ interSep sep (q :: ps)

/- ### RecursiveChunker (src/recursive.rs) -/

structure RecursiveChunker where
  maxSize : Nat
  overlap : Nat
  separators : List (List Char)
deriving Repr, DecidableEq

/-- `RecursiveChunker::new`; the two `assert!`s are modelled as `none`. -/
def RecursiveChunker.new (maxSize : Nat) (separators : List (List Char)) :
    Option RecursiveChunker :=
  if maxSize = 0 then none
  else if separators = [] then none
  else some ⟨maxSize, 0, separators⟩

/-- `RecursiveChunker::with_overlap` — performs no validation. -/
def RecursiveChunker.withOverlap (c : RecursiveChunker) (overlap : Nat) :
    RecursiveChunker :=
  { c with overlap := overlap }

/-- `RecursiveChunker::force_split`'s `while start < text.len()` loop.  When
the snapped `end` comes back to `start` (a character wider than `max_size`),
the Rust loop pushes nothing and leaves `start` unchanged, so it never
terminates; with any amount of fuel this is `none`. -/
def forceSplitGo (maxSize : Nat) (t : List Char) : Nat → Nat → Option (List (List Char))
  | 0, _ => none
  | fuel + 1, start =>
    if start < utf8Len t then
      let e := snapDown t (min (start + maxSize) (utf8Len t))
      let piece : List (List Char) := if start < e then [byteSlice t start e] else []
      (forceSplitGo maxSize t fuel e).map (fun r => piece ++ r)
    else some []

/-- `RecursiveChunker::force_split`. -/
def forceSplit (maxSize : Nat) (t : List Char) : Option (List (List Char)) :=
  forceSplitGo maxSize t (t.length + 1) 0

/-- The "current chunk is full, process it" arm of `split_recursive`:
push it if it fits, otherwise recurse with the next separator (`r` is
`split_recursive` at `sep_index + 1`). -/
def flushF (maxSize : Nat) (r : List Char → Option (List (List Char)))
    (cur : List Char) : Option (List (List Char)) :=
  if utf8Len cur ≤ maxSize then some [cur] else r cur

/-- One iteration of the accumulation loop of `split_recursive`, over the
state `(result, current)`. -/
def stepF (maxSize : Nat) (r : List Char → Option (List (List Char)))
    (acc : Option (List (List Char) × List Char)) (w : List Char) :
    Option (List (List Char) × List Char) :=
  match acc with
  | none => none
  | some (res, cur) =>
    if cur = [] then some (res, w)
    else if utf8Len cur + utf8Len w ≤ maxSize then some (res, cur ++ w)
    else
      match flushF maxSize r cur with
      | none => none
      | some fl => some (res ++ fl, w)

/-- `RecursiveChunker::split_recursive`, structurally recursive over the
remaining separators (`sep_index` advances through `self.separators`).  The
accumulation loop over the `with_sep` parts is the `foldl` of `stepF`. -/
def splitRec (maxSize : Nat) : List (List Char) → List Char → Option (List (List Char))
  | [], t =>
    if utf8Len t ≤ maxSize then some [t] else forceSplit maxSize t
  | sep :: rest, t =>
    if utf8Len t ≤ maxSize then some [t]
    else
      let parts := splitOnSep sep t
      if parts.length = 1 then splitRec maxSize rest t
      else
        match (withSeps sep parts).foldl
            (stepF maxSize (splitRec maxSize rest)) (some ([], [])) with
        | none => none
        | some (res, cur) =>
          if cur = [] then some res
          else
            match flushF maxSize (splitRec maxSize rest) cur with
            | none => none
            | some fl => some (res ++ fl)

/-- The overlap-adjusted start of one chunk in `RecursiveChunker::chunk`:
`start.saturating_sub(overlap)`, clamped up to `end.saturating_sub(max_size)`
when the chunk would exceed `max_size`, then snapped down to a boundary. -/
def adjStart (c : RecursiveChunker) (t : List Char) (start e : Nat) : Nat :=
  snapDown t
    (if e - (start - c.overlap) > c.maxSize then e - c.maxSize
     else start - c.overlap)

/-- The offset walk in `RecursiveChunker::chunk`: cumulative cursor, overlap
pull-back (`adjStart`), and emission of one `Slab` per raw fragment. -/
def buildGo (c : RecursiveChunker) (t : List Char) :
    List (List Char) → Nat → Nat → List Slab
  | [], _, _ => []
  | f :: fs, cursor, index =>
    ⟨byteSlice t (adjStart c t cursor (cursor + utf8Len f)) (cursor + utf8Len f),
      adjStart c t cursor (cursor + utf8Len f), cursor + utf8Len f, index⟩ ::
      buildGo c t fs (cursor + utf8Len f) (index + 1)

/-- `RecursiveChunker::chunk` (`<RecursiveChunker as Chunker>::chunk`). -/
def RecursiveChunker.chunk (c : RecursiveChunker) (t : List Char) :
    Option (List Slab) :=
  if t = [] then some []
  else (splitRec c.maxSize c.separators t).map (fun frags => buildGo c t frags 0 0)

/- ### FixedChunker (src/fixed.rs) -/

structure FixedChunker where
  size : Nat
  overlap : Nat
deriving Repr, DecidableEq

/-- `FixedChunker::new`; the two `assert!`s are modelled as `none`. -/
def FixedChunker.new (size overlap : Nat) : Option FixedChunker :=
  if size = 0 then none
  else if size ≤ overlap then none
  else some ⟨size, overlap⟩

def FixedChunker.step (c : FixedChunker) : Nat := c.size - c.overlap

/-- The `while start < text.len()` loop of `FixedChunker::chunk`; the loop
always terminates (it breaks when the next start does not advance), and
`utf8Len t + 1` fuel is always sufficient. -/
def fixedGo (c : FixedChunker) (t : List Char) : Nat → Nat → Nat → Option (List Slab)
  | 0, _, _ => none
  | fuel + 1, start, index =>
    if start < utf8Len t then
      let e := snapDown t (min (start + c.size) (utf8Len t))
      let pushed : List Slab :=
        if start < e then [⟨byteSlice t start e, start, e, index⟩] else []
      let index2 := if start < e then index + 1 else index
      let ns := start + c.step
      if utf8Len t ≤ ns ∨ ns ≤ start then some pushed
      else (fixedGo c t fuel (snapUp t ns) index2).map (fun r => pushed ++ r)
    else some []

/-- `FixedChunker::chunk` (`<FixedChunker as Chunker>::chunk`). -/
def FixedChunker.chunk (c : FixedChunker) (t : List Char) : Option (List Slab) :=
  if t = [] then some [] else fixedGo c t (utf8Len t + 1) 0 0

/- ### Reconstruction: `split` inverts to `interSep` -/

theorem findSub_some {sep : List Char} :
    ∀ {s : List Char} {i : Nat}, findSub sep s = some i →
      i ≤ s.length ∧ sep <+: s.drop i := by
  intro s
  induction s with
  | nil =>
      intro i h
      simp only [findSub] at h
      split at h
      · rename_i hp
        simp only [Option.some.injEq] at h
        subst h
        exact ⟨by omega, List.isPrefixOf_iff_prefix.mp hp⟩
      · exact absurd h (by simp)
  | cons c s2 ih =>
      intro i h
      simp only [findSub] at h
      split at h
      · rename_i hp
        simp only [Option.some.injEq] at h
        subst h
        exact ⟨by omega, List.isPrefixOf_iff_prefix.mp hp⟩
      · cases hrec : findSub sep s2 with
        | none => rw [hrec] at h; exact absurd h (by simp)
        | some j =>
            rw [hrec] at h
            simp only [Option.map_some', Option.some.injEq] at h
            subst h
            obtain ⟨hle, hpre⟩ := ih hrec
            exact ⟨by simp; omega, by simpa using hpre⟩

/-- `findSub` finds the leftmost occurrence: any occurrence bounds it. -/
theorem findSub_min {sep : List Char} :
    ∀ {s : List Char} {q : Nat}, sep <+: s.drop q →
      ∃ p, findSub sep s = some p ∧ p ≤ q := by
  intro s
  induction s with
  | nil =>
      intro q hq
      simp only [List.drop_nil] at hq
      refine ⟨0, ?_, by omega⟩
      simp only [findSub]
      rw [if_pos (List.isPrefixOf_iff_prefix.mpr hq)]
  | cons c s2 ih =>
      intro q hq
      by_cases hp : sep.isPrefixOf (c :: s2)
      · exact ⟨0, by simp only [findSub]; rw [if_pos hp], by omega⟩
      · cases q with
        | zero =>
            rw [List.drop_zero] at hq
            exact absurd (List.isPrefixOf_iff_prefix.mpr hq) hp
        | succ q2 =>
            rw [List.drop_succ_cons] at hq
            obtain ⟨p, hp2, hple⟩ := ih hq
            refine ⟨p + 1, ?_, by omega⟩
            simp only [findSub]
            rw [if_neg hp, hp2]
            rfl

theorem splitGo_ne_nil (sep : List Char) (fuel : Nat) (s : List Char) :
    splitGo sep fuel s ≠ [] := by
  cases fuel with
  | zero => simp [splitGo]
  | succ f =>
      simp only [splitGo]
      cases findSub sep s <;> simp

theorem interSep_cons_of_ne_nil (sep p : List Char) {l : List (List Char)}
    (h : l ≠ []) : interSep sep (p :: l) = p ++ sep ++ interSep sep l := by
  cases l with
  | nil => exact absurd rfl h
  | cons q ps => rfl

theorem splitGo_reconstruct (sep : List Char) (hsep : sep ≠ []) :
    ∀ (fuel : Nat) (s : List Char), s.length < fuel →
      interSep sep (splitGo sep fuel s) = s := by
  intro fuel
  induction fuel with
  | zero => intro s h; omega
  | succ f ih =>
      intro s h
      simp only [splitGo]
      cases hf : findSub sep s with
      | none => rfl
      | some i =>
          obtain ⟨hile, hpre⟩ := findSub_some hf
          obtain ⟨tl, htl⟩ := hpre
          have hseplen : 1 ≤ sep.length := by
            cases sep with
            | nil => exact absurd rfl hsep
            | cons a as => simp
          have hslen : 1 ≤ s.length := by
            by_contra hc
            have hs0 : s = [] := by
              cases s with
              | nil => rfl
              | cons a as => simp at hc
            subst hs0
            simp at htl
            exact hsep htl.1
          have hdroplen : (s.drop i).length = s.length - i := by
            simp
          have hlen2 : sep.length + tl.length = s.length - i := by
            have := congrArg List.length htl
            simp at this
            omega
          have htdrop : s.drop (i + sep.length) = tl := by
            have h1 : s.drop (i + sep.length) = (s.drop i).drop sep.length := by
              rw [List.drop_drop]
            rw [h1, ← htl, List.drop_left]
          rw [interSep_cons_of_ne_nil sep _ (splitGo_ne_nil sep f _)]
          have hrec : interSep sep (splitGo sep f (s.drop (i + sep.length))) =
              s.drop (i + sep.length) := by
            apply ih
            simp
            omega
          rw [hrec, htdrop]
          have : s = s.take i ++ s.drop i := (List.take_append_drop i s).symm
          rw [← htl] at this
          conv_rhs => rw [this]
          simp

theorem interSep_nil_sep (l : List (List Char)) : interSep [] l = concatAll l := by
  induction l with
  | nil => rfl
  | cons p ps ih =>
      cases ps with
      | nil => simp [interSep, concatAll]
      | cons q ps2 => simp [interSep, concatAll, ih]

theorem concatAll_map_singleton (s : List Char) :
    concatAll (s.map (fun c => [c])) = s := by
  induction s with
  | nil => rfl
  | cons c cs ih => simp [concatAll, ih]

/-- `split` reconstructs: the parts interleaved with the separator are the
original text, for every separator (including the empty one). -/
theorem splitOnSep_reconstruct (sep s : List Char) :
    interSep sep (splitOnSep sep s) = s := by
  cases sep with
  | nil =>
      simp only [splitOnSep, interSep_nil_sep]
      simp [concatAll, concatAll_append, concatAll_map_singleton]
  | cons c cs =>
      exact splitGo_reconstruct (c :: cs) (by simp) (s.length + 1) s (by omega)

theorem concatAll_withSeps (sep : List Char) (parts : List (List Char)) :
    concatAll (withSeps sep parts) = interSep sep parts := by
  induction parts with
  | nil => rfl
  | cons p ps ih =>
      cases ps with
      | nil => simp [withSeps, interSep, concatAll]
      | cons q ps2 =>
          simp only [withSeps, interSep, concatAll, ih]

/- ### The force-split fallback -/

theorem utf8Len_takeBytes_mono (s : List Char) {m n : Nat} (h : m ≤ n) :
    utf8Len (takeBytes s m) ≤ utf8Len (takeBytes s n) := by
  induction s generalizing m n with
  | nil => simp [takeBytes]
  | cons c cs ih =>
      simp only [takeBytes]
      by_cases h1 : c.utf8Size ≤ m
      · rw [if_pos h1, if_pos (by omega)]
        simp only [utf8Len_cons]
        have := ih (show m - c.utf8Size ≤ n - c.utf8Size by omega)
        omega
      · rw [if_neg h1]
        simp [utf8Len_nil]

/-- Snapping down cannot go below a boundary that is below the target. -/
theorem snapDown_ge_boundary {s : List Char} {a i : Nat}
    (ha : isBoundary s a = true) (h : a ≤ i) : a ≤ snapDown s i := by
  rw [snapDown_eq_floor]
  have := utf8Len_takeBytes_mono s h
  rw [takeBytes_of_isBoundary ha] at this
  exact this

theorem byteSlice_self_le {s : List Char} {a b : Nat} (h : b ≤ a) :
    byteSlice s a b = [] := by
  simp [byteSlice, Nat.sub_eq_zero_of_le h, takeBytes_zero]

/-- Everything the loop of `force_split` guarantees when it terminates:
the pieces concatenate to the remaining text, and each piece is a
non-empty fragment of at most `max_size` bytes. -/
theorem forceSplitGo_spec (maxSize : Nat) (t : List Char) :
    ∀ (fuel start : Nat) (r : List (List Char)),
      isBoundary t start = true →
      forceSplitGo maxSize t fuel start = some r →
      concatAll r = byteSlice t start (utf8Len t) ∧
      ∀ f ∈ r, f ≠ [] ∧ utf8Len f ≤ maxSize := by
  intro fuel
  induction fuel with
  | zero => intro start r _ h; simp [forceSplitGo] at h
  | succ f ih =>
      intro start r hb h
      simp only [forceSplitGo] at h
      by_cases hlt : start < utf8Len t
      · rw [if_pos hlt] at h
        set e := snapDown t (min (start + maxSize) (utf8Len t)) with he
        have hbe : isBoundary t e = true := isBoundary_snapDown t _
        have hele : e ≤ utf8Len t := by
          have h1 := snapDown_le t (min (start + maxSize) (utf8Len t))
          omega
        have hemax : e ≤ start + maxSize := by
          have h1 := snapDown_le t (min (start + maxSize) (utf8Len t))
          omega
        have hge : start ≤ e :=
          snapDown_ge_boundary hb (by omega)
        cases hrec : forceSplitGo maxSize t f e with
        | none => rw [hrec] at h; simp at h
        | some r2 =>
            rw [hrec] at h
            simp only [Option.map_some', Option.some.injEq] at h
            obtain ⟨hcat, hall⟩ := ih e r2 hbe hrec
            by_cases hse : start < e
            · rw [if_pos hse] at h
              subst h
              constructor
              · show byteSlice t start e ++ concatAll r2 = _
                rw [hcat]
                exact byteSlice_append_byteSlice hb hbe (by omega)
                  (by omega)
              · intro g hg
                rcases List.mem_cons.mp hg with hg1 | hg2
                · subst hg1
                  have hlen : utf8Len (byteSlice t start e) = e - start :=
                    utf8Len_byteSlice_of_boundaries hb hbe (by omega)
                  constructor
                  · intro hnil
                    rw [hnil, utf8Len_nil] at hlen
                    omega
                  · omega
                · exact hall g hg2
            · rw [if_neg hse] at h
              subst h
              have heq : e = start := by omega
              rw [List.nil_append, hcat, heq]
              exact ⟨rfl, hall⟩
      · rw [if_neg hlt] at h
        simp only [Option.some.injEq] at h
        subst h
        constructor
        · rw [byteSlice_self_le (by omega)]
          rfl
        · intro g hg
          simp at hg

theorem forceSplit_spec {maxSize : Nat} {t : List Char} {r : List (List Char)}
    (h : forceSplit maxSize t = some r) :
    concatAll r = t ∧ ∀ f ∈ r, f ≠ [] ∧ utf8Len f ≤ maxSize := by
  have := forceSplitGo_spec maxSize t (t.length + 1) 0 r (isBoundary_zero t) h
  rwa [byteSlice_zero_len] at this

/- ### Invariants of the accumulation loop of `split_recursive` -/

theorem flushF_concat {maxSize : Nat} {r : List Char → Option (List (List Char))}
    (hr : ∀ u fl, r u = some fl → concatAll fl = u)
    {cur : List Char} {fl : List (List Char)}
    (h : flushF maxSize r cur = some fl) : concatAll fl = cur := by
  unfold flushF at h
  split at h
  · simp only [Option.some.injEq] at h
    subst h
    simp [concatAll]
  · exact hr cur fl h

theorem flushF_bounds {maxSize : Nat} {r : List Char → Option (List (List Char))}
    (hr : ∀ u fl, u ≠ [] → r u = some fl →
      ∀ f ∈ fl, f ≠ [] ∧ utf8Len f ≤ maxSize)
    {cur : List Char} {fl : List (List Char)} (hcur : cur ≠ [])
    (h : flushF maxSize r cur = some fl) :
    ∀ f ∈ fl, f ≠ [] ∧ utf8Len f ≤ maxSize := by
  unfold flushF at h
  split at h
  · rename_i hfit
    simp only [Option.some.injEq] at h
    subst h
    intro f hf
    simp only [List.mem_singleton] at hf
    subst hf
    exact ⟨hcur, hfit⟩
  · exact hr cur fl hcur h

theorem foldl_stepF_none (maxSize : Nat) (r : List Char → Option (List (List Char)))
    (pieces : List (List Char)) :
    pieces.foldl (stepF maxSize r) none = none := by
  induction pieces with
  | nil => rfl
  | cons w ws ih => simpa [stepF] using ih

theorem foldl_stepF_concat {maxSize : Nat} {r : List Char → Option (List (List Char))}
    (hr : ∀ u fl, r u = some fl → concatAll fl = u) :
    ∀ (pieces res : List (List Char)) (cur : List Char)
      (res' : List (List Char)) (cur' : List Char),
      pieces.foldl (stepF maxSize r) (some (res, cur)) = some (res', cur') →
      concatAll res' ++ cur' = concatAll res ++ cur ++ concatAll pieces := by
  intro pieces
  induction pieces with
  | nil =>
      intro res cur res' cur' h
      simp only [List.foldl_nil, Option.some.injEq, Prod.mk.injEq] at h
      obtain ⟨h1, h2⟩ := h
      subst h1; subst h2
      simp [concatAll]
  | cons w ws ih =>
      intro res cur res' cur' h
      rw [List.foldl_cons] at h
      show _ = concatAll res ++ cur ++ concatAll (w :: ws)
      by_cases hcur : cur = []
      · rw [show stepF maxSize r (some (res, cur)) w = some (res, w) by
          simp [stepF, hcur]] at h
        have := ih res w res' cur' h
        rw [this, hcur]
        simp [concatAll]
      · by_cases hfit : utf8Len cur + utf8Len w ≤ maxSize
        · rw [show stepF maxSize r (some (res, cur)) w = some (res, cur ++ w) by
            simp [stepF, hcur, hfit]] at h
          have := ih res (cur ++ w) res' cur' h
          rw [this]
          simp [concatAll]
        · cases hfl : flushF maxSize r cur with
          | none =>
              rw [show stepF maxSize r (some (res, cur)) w = none by
                simp [stepF, hcur, hfit, hfl]] at h
              rw [foldl_stepF_none] at h
              exact absurd h (by simp)
          | some fl =>
              rw [show stepF maxSize r (some (res, cur)) w = some (res ++ fl, w) by
                simp [stepF, hcur, hfit, hfl]] at h
              have := ih (res ++ fl) w res' cur' h
              rw [this, concatAll_append, flushF_concat hr hfl]
              simp [concatAll]

theorem foldl_stepF_bounds {maxSize : Nat} {r : List Char → Option (List (List Char))}
    (hr : ∀ u fl, u ≠ [] → r u = some fl →
      ∀ f ∈ fl, f ≠ [] ∧ utf8Len f ≤ maxSize) :
    ∀ (pieces res : List (List Char)) (cur : List Char)
      (res' : List (List Char)) (cur' : List Char),
      (∀ f ∈ res, f ≠ [] ∧ utf8Len f ≤ maxSize) →
      pieces.foldl (stepF maxSize r) (some (res, cur)) = some (res', cur') →
      ∀ f ∈ res', f ≠ [] ∧ utf8Len f ≤ maxSize := by
  intro pieces
  induction pieces with
  | nil =>
      intro res cur res' cur' hres h
      simp only [List.foldl_nil, Option.some.injEq, Prod.mk.injEq] at h
      obtain ⟨h1, _⟩ := h
      subst h1
      exact hres
  | cons w ws ih =>
      intro res cur res' cur' hres h
      rw [List.foldl_cons] at h
      by_cases hcur : cur = []
      · rw [show stepF maxSize r (some (res, cur)) w = some (res, w) by
          simp [stepF, hcur]] at h
        exact ih res w res' cur' hres h
      · by_cases hfit : utf8Len cur + utf8Len w ≤ maxSize
        · rw [show stepF maxSize r (some (res, cur)) w = some (res, cur ++ w) by
            simp [stepF, hcur, hfit]] at h
          exact ih res (cur ++ w) res' cur' hres h
        · cases hfl : flushF maxSize r cur with
          | none =>
              rw [show stepF maxSize r (some (res, cur)) w = none by
                simp [stepF, hcur, hfit, hfl]] at h
              rw [foldl_stepF_none] at h
              exact absurd h (by simp)
          | some fl =>
              rw [show stepF maxSize r (some (res, cur)) w = some (res ++ fl, w) by
                simp [stepF, hcur, hfit, hfl]] at h
              refine ih (res ++ fl) w res' cur' ?_ h
              intro f hf
              rcases List.mem_append.mp hf with hf1 | hf2
              · exact hres f hf1
              · exact flushF_bounds hr hcur hfl f hf2

/-- `split_recursive` reconstructs: its fragments concatenate to the input. -/
theorem splitRec_concat {maxSize : Nat} :
    ∀ (seps : List (List Char)) (t : List Char) (frags : List (List Char)),
      splitRec maxSize seps t = some frags → concatAll frags = t := by
  intro seps
  induction seps with
  | nil =>
      intro t frags h
      simp only [splitRec] at h
      split at h
      · simp only [Option.some.injEq] at h
        subst h
        simp [concatAll]
      · exact (forceSplit_spec h).1
  | cons sep rest ih =>
      intro t frags h
      simp only [splitRec] at h
      split at h
      · simp only [Option.some.injEq] at h
        subst h
        simp [concatAll]
      · split at h
        · exact ih t frags h
        · cases hfold : (withSeps sep (splitOnSep sep t)).foldl
              (stepF maxSize (splitRec maxSize rest)) (some ([], [])) with
          | none => rw [hfold] at h; exact absurd h (by simp)
          | some st =>
              obtain ⟨res, cur⟩ := st
              rw [hfold] at h
              have hfc := foldl_stepF_concat (fun u fl hu => ih u fl hu)
                (withSeps sep (splitOnSep sep t)) [] [] res cur hfold
              rw [concatAll_withSeps, splitOnSep_reconstruct] at hfc
              simp only [concatAll, List.nil_append] at hfc
              simp only at h
              split at h
              · rename_i hcur
                simp only [Option.some.injEq] at h
                subst h
                rw [hcur] at hfc
                simpa using hfc
              · cases hfl : flushF maxSize (splitRec maxSize rest) cur with
                | none => rw [hfl] at h; exact absurd h (by simp)
                | some fl =>
                    rw [hfl] at h
                    simp only [Option.some.injEq] at h
                    subst h
                    rw [concatAll_append,
                      flushF_concat (fun u fl2 hu => ih u fl2 hu) hfl]
                    exact hfc

/-- Every fragment of `split_recursive` is non-empty and, when the call
terminates, of at most `max_size` bytes. -/
theorem splitRec_bounds {maxSize : Nat} :
    ∀ (seps : List (List Char)) (t : List Char) (frags : List (List Char)),
      t ≠ [] → splitRec maxSize seps t = some frags →
      ∀ f ∈ frags, f ≠ [] ∧ utf8Len f ≤ maxSize := by
  intro seps
  induction seps with
  | nil =>
      intro t frags ht h
      simp only [splitRec] at h
      split at h
      · rename_i hfit
        simp only [Option.some.injEq] at h
        subst h
        intro f hf
        simp only [List.mem_singleton] at hf
        subst hf
        exact ⟨ht, hfit⟩
      · exact (forceSplit_spec h).2
  | cons sep rest ih =>
      intro t frags ht h
      simp only [splitRec] at h
      split at h
      · rename_i hfit
        simp only [Option.some.injEq] at h
        subst h
        intro f hf
        simp only [List.mem_singleton] at hf
        subst hf
        exact ⟨ht, hfit⟩
      · split at h
        · exact ih t frags ht h
        · cases hfold : (withSeps sep (splitOnSep sep t)).foldl
              (stepF maxSize (splitRec maxSize rest)) (some ([], [])) with
          | none => rw [hfold] at h; exact absurd h (by simp)
          | some st =>
              obtain ⟨res, cur⟩ := st
              rw [hfold] at h
              have hfb := foldl_stepF_bounds
                (fun u fl hu hru => ih u fl hu hru)
                (withSeps sep (splitOnSep sep t)) [] [] res cur
                (by intro f hf; simp at hf) hfold
              simp only at h
              split at h
              · simp only [Option.some.injEq] at h
                subst h
                exact hfb
              · rename_i hcur
                cases hfl : flushF maxSize (splitRec maxSize rest) cur with
                | none => rw [hfl] at h; exact absurd h (by simp)
                | some fl =>
                    rw [hfl] at h
                    simp only [Option.some.injEq] at h
                    subst h
                    intro f hf
                    rcases List.mem_append.mp hf with hf1 | hf2
                    · exact hfb f hf1
                    · exact flushF_bounds
                        (fun u fl2 hu hru => ih u fl2 hu hru) hcur hfl f hf2

/- ### The cumulative offset walk of `RecursiveChunker::chunk` -/

/-- The raw (pre-overlap) spans assigned by the cursor walk in `chunk`. -/
def rawWalk : List (List Char) → Nat → List (Nat × Nat)
  | [], _ => []
  | f :: fs, cursor => (cursor, cursor + utf8Len f) :: rawWalk fs (cursor + utf8Len f)

theorem rawWalk_chain (frags : List (List Char)) (cursor : Nat) :
    List.Chain' (fun a b : Nat × Nat => a.2 = b.1) (rawWalk frags cursor) := by
  induction frags generalizing cursor with
  | nil => simp [rawWalk]
  | cons f fs ih =>
      cases fs with
      | nil => simp [rawWalk]
      | cons g gs =>
          rw [rawWalk, rawWalk]
          rw [List.chain'_cons]
          exact ⟨rfl, by rw [← rawWalk]; exact ih _⟩

theorem rawWalk_head (frags : List (List Char)) (cursor : Nat) :
    ∀ p ∈ (rawWalk frags cursor).head?, p.1 = cursor := by
  cases frags with
  | nil => simp [rawWalk]
  | cons f fs => simp [rawWalk]

theorem rawWalk_last (frags : List (List Char)) (cursor : Nat) :
    ∀ p ∈ (rawWalk frags cursor).getLast?, p.2 = cursor + utf8Len (concatAll frags) := by
  induction frags generalizing cursor with
  | nil => simp [rawWalk]
  | cons f fs ih =>
      cases fs with
      | nil => simp [rawWalk, concatAll, utf8Len_append, utf8Len_nil]
      | cons g gs =>
          intro p hp
          have hstep : rawWalk (g :: gs) (cursor + utf8Len f) =
              (cursor + utf8Len f, cursor + utf8Len f + utf8Len g) ::
                rawWalk gs (cursor + utf8Len f + utf8Len g) := rfl
          rw [show rawWalk (f :: g :: gs) cursor =
              (cursor, cursor + utf8Len f) :: rawWalk (g :: gs) (cursor + utf8Len f)
              from rfl, hstep, List.getLast?_cons_cons] at hp
          have := ih (cursor + utf8Len f) p (by rw [hstep]; exact hp)
          rw [this]
          simp [concatAll, utf8Len_append]
          omega

/-- What the overlap pull-back guarantees for a single chunk: the adjusted
start never passes the raw start, stays within `overlap + 3` bytes of it
(up to 3 extra from boundary snapping), keeps the chunk within
`max_size + 3` bytes, and lands on a character boundary. -/
theorem adjStart_spec (c : RecursiveChunker) (t : List Char) (start e : Nat)
    (hse : start ≤ e) (hmax : e - start ≤ c.maxSize) (hlen : e ≤ utf8Len t) :
    adjStart c t start e ≤ start ∧
    start ≤ adjStart c t start e + c.overlap + 3 ∧
    e - adjStart c t start e ≤ c.maxSize + 3 ∧
    isBoundary t (adjStart c t start e) = true := by
  unfold adjStart
  split
  · rename_i hbr
    have h1 := snapDown_le t (e - c.maxSize)
    have h2 := snapDown_ge t (e - c.maxSize) (by omega)
    have h3 := isBoundary_snapDown t (e - c.maxSize)
    exact ⟨by omega, by omega, by omega, h3⟩
  · rename_i hbr
    have h1 := snapDown_le t (start - c.overlap)
    have h2 := snapDown_ge t (start - c.overlap) (by omega)
    have h3 := isBoundary_snapDown t (start - c.overlap)
    exact ⟨by omega, by omega, by omega, h3⟩

/-- All invariants of the slab-building walk of `RecursiveChunker::chunk`:
span validity and text fidelity; the overlap-adjusted start stays within
`overlap + 3` bytes of the raw start (3 extra from boundary snapping) and
never beyond it; the adjusted length stays within `max_size + 3`. -/
theorem buildGo_spec (c : RecursiveChunker) (t : List Char) :
    ∀ (frags : List (List Char)) (pre : List Char) (cursor index : Nat),
      cursor = utf8Len pre →
      t = pre ++ concatAll frags →
      (∀ f ∈ frags, f ≠ [] ∧ utf8Len f ≤ c.maxSize) →
      (∀ sl ∈ buildGo c t frags cursor index,
        sl.text = byteSlice t sl.start sl.stop ∧
        isBoundary t sl.start = true ∧ isBoundary t sl.stop = true ∧
        sl.start ≤ sl.stop ∧ sl.stop ≤ utf8Len t ∧
        sl.text ≠ [] ∧
        sl.stop - sl.start ≤ c.maxSize + 3) ∧
      List.Chain' (fun a b => b.start ≤ a.stop ∧ a.stop ≤ b.start + c.overlap + 3)
        (buildGo c t frags cursor index) ∧
      (∀ sl ∈ (buildGo c t frags cursor index).head?,
        sl.start ≤ cursor ∧ cursor ≤ sl.start + c.overlap + 3 ∧
        sl.stop = cursor + utf8Len (frags.headI)) := by
  intro frags
  induction frags with
  | nil =>
      intro pre cursor index _ _ _
      refine ⟨?_, ?_, ?_⟩ <;> simp [buildGo]
  | cons f fs ih =>
      intro pre cursor index hcur hdec hfr
      have hf := hfr f (List.mem_cons_self f fs)
      have hflen : 0 < utf8Len f := utf8Len_pos_of_ne_nil hf.1
      have hfmax : utf8Len f ≤ c.maxSize := hf.2
      have hdec2 : t = (pre ++ f) ++ concatAll fs := by
        rw [hdec]; simp [concatAll]
      have hbe : isBoundary t (cursor + utf8Len f) = true := by
        rw [hdec2]
        have h0 : cursor + utf8Len f = utf8Len (pre ++ f) := by
          rw [utf8Len_append, hcur]
        rw [h0]
        exact isBoundary_append_left (pre ++ f) _
      have hlen : utf8Len t = utf8Len pre + utf8Len f + utf8Len (concatAll fs) := by
        rw [hdec]
        simp [utf8Len_append, concatAll]
        omega
      have helen : cursor + utf8Len f ≤ utf8Len t := by omega
      obtain ⟨ha1, ha2, ha3, ha4⟩ := adjStart_spec c t cursor (cursor + utf8Len f)
        (by omega) (by omega) helen
      have hslice : utf8Len (byteSlice t (adjStart c t cursor (cursor + utf8Len f))
          (cursor + utf8Len f)) = (cursor + utf8Len f) -
            adjStart c t cursor (cursor + utf8Len f) :=
        utf8Len_byteSlice_of_boundaries ha4 hbe (by omega)
      obtain ⟨hrall, hrchain, hrhead⟩ := ih (pre ++ f) (cursor + utf8Len f) (index + 1)
        (by rw [utf8Len_append, hcur]) hdec2
        (fun g hg => hfr g (List.mem_cons_of_mem f hg))
      have hgo : buildGo c t (f :: fs) cursor index =
          ⟨byteSlice t (adjStart c t cursor (cursor + utf8Len f)) (cursor + utf8Len f),
            adjStart c t cursor (cursor + utf8Len f), cursor + utf8Len f, index⟩ ::
            buildGo c t fs (cursor + utf8Len f) (index + 1) := rfl
      refine ⟨?_, ?_, ?_⟩
      · intro sl hsl
        rw [hgo] at hsl
        rcases List.mem_cons.mp hsl with h1 | h2
        · subst h1
          dsimp only
          refine ⟨rfl, ha4, hbe, by omega, by omega, ?_, by omega⟩
          intro hnil
          rw [hnil, utf8Len_nil] at hslice
          omega
        · exact hrall sl h2
      · rw [hgo]
        cases hh : buildGo c t fs (cursor + utf8Len f) (index + 1) with
        | nil => simp
        | cons y ys =>
            rw [List.chain'_cons]
            constructor
            · obtain ⟨hy1, hy2, _⟩ := hrhead y (by rw [hh]; rfl)
              dsimp only
              exact ⟨by omega, by omega⟩
            · rw [← hh]
              exact hrchain
      · intro sl hsl
        rw [hgo] at hsl
        simp only [List.head?_cons, Option.mem_def, Option.some.injEq] at hsl
        subst hsl
        dsimp only
        exact ⟨by omega, by omega, rfl⟩

/- ### Claim theorems for the recursive splitter -/

/-- C1: for every input text and every valid configuration (`max_size > 0`,
non-empty separator list), whenever `split_recursive` terminates,
concatenating its raw fragments in emission order reconstructs the original
text exactly, and the spans of the cumulative walk satisfy
`start_0 = 0`, `start_{i+1} = end_i` and `end_last = utf8Len t`. -/
theorem recursive_raw_reconstruction (c : RecursiveChunker) (t : List Char)
    (frags : List (List Char))
    (hmax : 0 < c.maxSize) (hseps : c.separators ≠ [])
    (h : splitRec c.maxSize c.separators t = some frags) :
    concatAll frags = t ∧
    (∀ p ∈ (rawWalk frags 0).head?, p.1 = 0) ∧
    List.Chain' (fun a b : Nat × Nat => a.2 = b.1) (rawWalk frags 0) ∧
    (∀ p ∈ (rawWalk frags 0).getLast?, p.2 = utf8Len t) := by
  have hcat := splitRec_concat c.separators t frags h
  refine ⟨hcat, rawWalk_head frags 0, rawWalk_chain frags 0, ?_⟩
  intro p hp
  have h2 := rawWalk_last frags 0 p hp
  rw [hcat] at h2
  omega

/-- Witness for C1 at a concrete input: splitting `"ab cd ef"` at
`max_size = 5` over the separator `" "` yields `["ab ", "cd ef"]`. -/
theorem recursive_raw_reconstruction_witness :
    concatAll ["ab ".toList, "cd ef".toList] = "ab cd ef".toList ∧
    (∀ p ∈ (rawWalk ["ab ".toList, "cd ef".toList] 0).head?, p.1 = 0) ∧
    List.Chain' (fun a b : Nat × Nat => a.2 = b.1)
      (rawWalk ["ab ".toList, "cd ef".toList] 0) ∧
    (∀ p ∈ (rawWalk ["ab ".toList, "cd ef".toList] 0).getLast?,
      p.2 = utf8Len ("ab cd ef".toList)) :=
  recursive_raw_reconstruction ⟨5, 0, [[' ']]⟩ ("ab cd ef".toList)
    ["ab ".toList, "cd ef".toList] (by decide) (by decide) (by decide)

/-- C4: the claim says `chunk` always terminates, in particular when
`max_size` is smaller than a single multi-byte character; in fact the
`force_split` loop then never advances (`end` snaps back to `start`,
nothing is pushed, `start` is left unchanged), so `chunk` loops forever.
Divergence is modelled by fuel: no amount of fuel completes the loop on
`"€"` with `max_size = 1`, and `chunk` returns `none` (its fuel choice
exhausted) on that input. -/
theorem force_split_divergence :
    (∀ fuel : Nat, forceSplitGo 1 ("€".toList) fuel 0 = none) ∧
    RecursiveChunker.chunk ⟨1, 0, [['\n', '\n']]⟩ ("€".toList) = none := by
  constructor
  · intro fuel
    induction fuel with
    | zero => rfl
    | succ f ih =>
        have hsnap : snapDown ("€".toList) (min (0 + 1) (utf8Len ("€".toList))) = 0 := by
          decide
        simp only [forceSplitGo, hsnap]
        rw [if_pos (by decide), if_neg (by decide)]
        rw [ih]
        rfl
  · decide

/-- C5 counterexample: with `max_size = 6`, `overlap = 5`, separator `" "`
and input `"€€ abcd"`, the middle chunk (raw span `[6, 7)`) is emitted with
adjusted span `[0, 7)`: its start is pulled back 6 bytes (more than
`overlap = 5`), lands before the previous chunk's raw end (6), and the
chunk is 7 bytes long (more than `max_size = 6`). -/
theorem recursive_overlap_counterexample :
    RecursiveChunker.chunk ⟨6, 5, [[' ']]⟩ ("€€ abcd".toList) =
      some [⟨"€€".toList, 0, 6, 0⟩, ⟨"€€ ".toList, 0, 7, 1⟩,
        ⟨"€ abcd".toList, 3, 11, 2⟩] ∧
    -- the middle chunk: raw start 6 (= previous raw end), adjusted start 0
    (6 - 0 > 5 ∧ (0 : Nat) < 6 ∧ 7 - 0 > 6) := by
  constructor
  · decide
  · omega

/-- C5 amended: each chunk's adjusted start never passes its raw start, is
pulled back at most `overlap + 3` bytes (3 extra possible from snapping the
start down to a character boundary), and the adjusted chunk length is at
most `max_size + 3` bytes; the adjusted start lands on a character
boundary.  (The raw start of a chunk is the previous chunk's `stop`, and
`0` for the first chunk.) -/
theorem recursive_overlap_bounds_amended (c : RecursiveChunker) (t : List Char)
    (slabs : List Slab) (ht : t ≠ [])
    (h : RecursiveChunker.chunk c t = some slabs) :
    (∀ sl ∈ slabs, isBoundary t sl.start = true ∧ sl.start ≤ sl.stop ∧
      sl.stop - sl.start ≤ c.maxSize + 3) ∧
    List.Chain' (fun a b => b.start ≤ a.stop ∧ a.stop ≤ b.start + c.overlap + 3)
      slabs ∧
    (∀ sl ∈ slabs.head?, sl.start = 0) := by
  unfold RecursiveChunker.chunk at h
  rw [if_neg ht] at h
  cases hsp : splitRec c.maxSize c.separators t with
  | none => rw [hsp] at h; exact absurd h (by simp)
  | some frags =>
      rw [hsp] at h
      simp only [Option.map_some', Option.some.injEq] at h
      subst h
      have hcat := splitRec_concat c.separators t frags hsp
      have hbounds := splitRec_bounds c.separators t frags ht hsp
      obtain ⟨hall, hchain, hhead⟩ := buildGo_spec c t frags [] 0 0
        (by simp [utf8Len_nil]) (by simp [hcat]) hbounds
      refine ⟨?_, hchain, ?_⟩
      · intro sl hsl
        obtain ⟨_, hb, _, hse, _, _, hlen⟩ := hall sl hsl
        exact ⟨hb, hse, hlen⟩
      · intro sl hsl
        have := hhead sl hsl
        omega

/-- Witness for C5's amended theorem at the counterexample input. -/
theorem recursive_overlap_bounds_amended_witness :
    (∀ sl ∈ [Slab.mk ("€€".toList) 0 6 0, Slab.mk ("€€ ".toList) 0 7 1,
        Slab.mk ("€ abcd".toList) 3 11 2],
      isBoundary ("€€ abcd".toList) sl.start = true ∧ sl.start ≤ sl.stop ∧
      sl.stop - sl.start ≤ 6 + 3) ∧
    List.Chain' (fun a b => b.start ≤ a.stop ∧ a.stop ≤ b.start + 5 + 3)
      [Slab.mk ("€€".toList) 0 6 0, Slab.mk ("€€ ".toList) 0 7 1,
        Slab.mk ("€ abcd".toList) 3 11 2] ∧
    (∀ sl ∈ [Slab.mk ("€€".toList) 0 6 0, Slab.mk ("€€ ".toList) 0 7 1,
        Slab.mk ("€ abcd".toList) 3 11 2].head?, sl.start = 0) :=
  recursive_overlap_bounds_amended ⟨6, 5, [[' ']]⟩ ("€€ abcd".toList)
    [Slab.mk ("€€".toList) 0 6 0, Slab.mk ("€€ ".toList) 0 7 1,
      Slab.mk ("€ abcd".toList) 3 11 2] (by decide) (by decide)

/- ### The fixed splitter on single-byte text -/

theorem ascii_isBoundary {t : List Char} (hascii : ∀ ch ∈ t, ch.utf8Size = 1) :
    ∀ i ≤ utf8Len t, isBoundary t i = true := by
  induction t with
  | nil =>
      intro i hi
      simp [utf8Len_nil] at hi
      subst hi
      exact isBoundary_zero []
  | cons c cs ih =>
      intro i hi
      have hc : c.utf8Size = 1 := hascii c (List.mem_cons_self c cs)
      cases i with
      | zero => exact isBoundary_zero _
      | succ j =>
          have h1 : isBoundary ([c] ++ cs) (utf8Len [c] + j) = isBoundary cs j :=
            isBoundary_append_iff [c] cs j
          have h2 : utf8Len [c] = 1 := by simp [utf8Len_cons, utf8Len_nil, hc]
          rw [h2] at h1
          simp only [List.singleton_append] at h1
          rw [show j + 1 = 1 + j by omega, h1]
          apply ih (fun ch hch => hascii ch (List.mem_cons_of_mem c hch))
          rw [utf8Len_cons, hc] at hi
          omega

theorem snapUp_boundary_fix {t : List Char} {i : Nat}
    (h : isBoundary t i = true) : snapUp t i = i := by
  unfold snapUp
  cases utf8Len t - i with
  | zero => rfl
  | succ f => simp [snapUpGo, h]

/-- Invariants of the fixed-splitter loop on single-byte (ASCII-width)
text with zero overlap: the emitted chunks tile `[start, utf8Len t)`. -/
theorem fixedGo_ascii (c : FixedChunker) (t : List Char)
    (hascii : ∀ ch ∈ t, ch.utf8Size = 1) (hz : c.overlap = 0) (hs : 0 < c.size) :
    ∀ (fuel start index : Nat), start < utf8Len t → utf8Len t ≤ start + fuel →
      ∃ slabs,
        fixedGo c t fuel start index = some slabs ∧
        (∀ p ∈ slabs.head?, p.start = start) ∧
        List.Chain' (fun a b => a.stop = b.start) slabs ∧
        (∀ p ∈ slabs.getLast?, p.stop = utf8Len t) ∧
        (slabs.map (fun sl => utf8Len sl.text)).sum = utf8Len t - start ∧
        slabs ≠ [] := by
  intro fuel
  induction fuel with
  | zero => intro start index h1 h2; omega
  | succ f ih =>
      intro start index h1 h2
      have hstep : c.step = c.size := by simp [FixedChunker.step, hz]
      have hmin : min (start + c.size) (utf8Len t) ≤ utf8Len t := by omega
      have hbmin : isBoundary t (min (start + c.size) (utf8Len t)) = true :=
        ascii_isBoundary hascii _ hmin
      have he : snapDown t (min (start + c.size) (utf8Len t)) =
          min (start + c.size) (utf8Len t) := snapDown_boundary_fix hbmin
      have hegt : start < min (start + c.size) (utf8Len t) := by omega
      have hbs : isBoundary t start = true := ascii_isBoundary hascii _ (by omega)
      have hslice : utf8Len (byteSlice t start (min (start + c.size) (utf8Len t))) =
          min (start + c.size) (utf8Len t) - start :=
        utf8Len_byteSlice_of_boundaries hbs hbmin (by omega)
      by_cases hbrk : utf8Len t ≤ start + c.step ∨ start + c.step ≤ start
      · -- last iteration
        have hlen : utf8Len t ≤ start + c.size := by
          rcases hbrk with hb1 | hb2
          · omega
          · omega
        have hmineq : min (start + c.size) (utf8Len t) = utf8Len t := by omega
        refine ⟨[⟨byteSlice t start (min (start + c.size) (utf8Len t)),
          start, min (start + c.size) (utf8Len t), index⟩], ?_, ?_, ?_, ?_, ?_, by simp⟩
        · simp only [fixedGo]
          rw [if_pos h1, if_pos hbrk, he, if_pos hegt]
        · intro p hp
          simp only [List.head?_cons, Option.mem_def, Option.some.injEq] at hp
          subst hp
          rfl
        · simp
        · intro p hp
          simp only [List.getLast?_singleton, Option.mem_def, Option.some.injEq] at hp
          subst hp
          show min (start + c.size) (utf8Len t) = utf8Len t
          omega
        · simp only [List.map_cons, List.map_nil, List.sum_cons, List.sum_nil]
          show utf8Len (byteSlice t start (min (start + c.size) (utf8Len t))) + 0 = _
          omega
      · -- the loop continues
        push_neg at hbrk
        have hns : start + c.step < utf8Len t := hbrk.1
        have hnsgt : start < start + c.step := hbrk.2
        have hmineq : min (start + c.size) (utf8Len t) = start + c.size := by
          rw [hstep] at hns
          omega
        have hsnapup : snapUp t (start + c.step) = start + c.step :=
          snapUp_boundary_fix (ascii_isBoundary hascii _ (by omega))
        obtain ⟨slabs2, hgo2, hhead2, hchain2, hlast2, hsum2, hne2⟩ :=
          ih (start + c.step) (index + 1) hns (by omega)
        refine ⟨⟨byteSlice t start (min (start + c.size) (utf8Len t)),
          start, min (start + c.size) (utf8Len t), index⟩ :: slabs2,
          ?_, ?_, ?_, ?_, ?_, by simp⟩
        · simp only [fixedGo]
          rw [if_pos h1, if_neg (by omega : ¬ (utf8Len t ≤ start + c.step ∨
            start + c.step ≤ start)), he]
          simp only [if_pos hegt]
          rw [hsnapup, hgo2]
          rfl
        · intro p hp
          simp only [List.head?_cons, Option.mem_def, Option.some.injEq] at hp
          subst hp
          rfl
        · cases hsl2 : slabs2 with
          | nil => exact absurd hsl2 hne2
          | cons y ys =>
              rw [List.chain'_cons]
              constructor
              · have hy := hhead2 y (by rw [hsl2]; rfl)
                show min (start + c.size) (utf8Len t) = y.start
                omega
              · rw [← hsl2]
                exact hchain2
        · intro p hp
          cases hsl2 : slabs2 with
          | nil => exact absurd hsl2 hne2
          | cons y ys =>
              rw [hsl2, List.getLast?_cons_cons] at hp
              apply hlast2
              rw [hsl2]
              exact hp
        · simp only [List.map_cons, List.sum_cons]
          show utf8Len (byteSlice t start (min (start + c.size) (utf8Len t))) + _ = _
          omega

/-- C2 counterexample: on `"é"` (one 2-byte character) with `size = 1`
and `overlap = 0`, the fixed splitter emits no chunks at all — the
non-empty document is not covered and the chunk lengths sum to 0 ≠ 2. -/
theorem fixed_zero_overlap_counterexample :
    FixedChunker.chunk ⟨1, 0⟩ ("é".toList) = some [] ∧
    "é".toList ≠ [] ∧ utf8Len ("é".toList) = 2 := by
  refine ⟨by decide, by decide, by decide⟩

/-- C2 amended: for non-empty text in which every character is one byte
wide (so no boundary snap can fire), with `overlap = 0` and `size > 0`, the
fixed splitter's chunks are exactly adjacent, cover `[0, utf8Len t)`, and
their lengths sum to the document length.  (On multi-byte text a character
that straddles a window boundary is silently skipped, as the
counterexample shows.) -/
theorem fixed_zero_overlap_ascii (c : FixedChunker) (t : List Char)
    (hascii : ∀ ch ∈ t, ch.utf8Size = 1) (hz : c.overlap = 0) (hs : 0 < c.size)
    (ht : t ≠ []) :
    ∃ slabs,
      FixedChunker.chunk c t = some slabs ∧
      (∀ p ∈ slabs.head?, p.start = 0) ∧
      List.Chain' (fun a b => a.stop = b.start) slabs ∧
      (∀ p ∈ slabs.getLast?, p.stop = utf8Len t) ∧
      (slabs.map (fun sl => utf8Len sl.text)).sum = utf8Len t ∧
      slabs ≠ [] := by
  obtain ⟨slabs, hgo, hh, hc2, hl, hsum, hne⟩ :=
    fixedGo_ascii c t hascii hz hs (utf8Len t + 1) 0 0
      (utf8Len_pos_of_ne_nil ht) (by omega)
  refine ⟨slabs, ?_, hh, hc2, hl, by omega, hne⟩
  unfold FixedChunker.chunk
  rw [if_neg ht]
  exact hgo

/-- Witness for C2's amended theorem: `"abc"` with `size = 2`. -/
theorem fixed_zero_overlap_ascii_witness :
    ∃ slabs,
      FixedChunker.chunk ⟨2, 0⟩ ("abc".toList) = some slabs ∧
      (∀ p ∈ slabs.head?, p.start = 0) ∧
      List.Chain' (fun a b => a.stop = b.start) slabs ∧
      (∀ p ∈ slabs.getLast?, p.stop = utf8Len ("abc".toList)) ∧
      (slabs.map (fun sl => utf8Len sl.text)).sum = utf8Len ("abc".toList) ∧
      slabs ≠ [] :=
  fixed_zero_overlap_ascii ⟨2, 0⟩ ("abc".toList) (by decide) (by decide)
    (by decide) (by decide)

/- ### Span validity -/

/-- The per-chunk invariant of §3 of the specification: the span is a valid
character-boundary pair within the document and the stored text is exactly
the source slice. -/
def ValidSlab (t : List Char) (sl : Slab) : Prop :=
  sl.text = byteSlice t sl.start sl.stop ∧
  isBoundary t sl.start = true ∧ isBoundary t sl.stop = true ∧
  sl.start ≤ sl.stop ∧ sl.stop ≤ utf8Len t

/-- Validity of every chunk the fixed splitter emits, for any
configuration and any input. -/
theorem fixedGo_valid (c : FixedChunker) (t : List Char) :
    ∀ (fuel start index : Nat) (slabs : List Slab),
      isBoundary t start = true →
      fixedGo c t fuel start index = some slabs →
      ∀ sl ∈ slabs, ValidSlab t sl ∧ sl.text ≠ [] := by
  intro fuel
  induction fuel with
  | zero => intro start index slabs _ h; simp [fixedGo] at h
  | succ f ih =>
      intro start index slabs hb h
      simp only [fixedGo] at h
      by_cases h1 : start < utf8Len t
      · rw [if_pos h1] at h
        have hbe : isBoundary t (snapDown t (min (start + c.size) (utf8Len t))) = true :=
          isBoundary_snapDown t _
        have hele : snapDown t (min (start + c.size) (utf8Len t)) ≤ utf8Len t := by
          have := snapDown_le t (min (start + c.size) (utf8Len t))
          omega
        have hvalid : ∀ sl ∈ (if start < snapDown t (min (start + c.size) (utf8Len t))
            then [Slab.mk (byteSlice t start (snapDown t (min (start + c.size) (utf8Len t))))
              start (snapDown t (min (start + c.size) (utf8Len t))) index] else []),
            ValidSlab t sl ∧ sl.text ≠ [] := by
          split
          · rename_i hse
            intro sl hsl
            simp only [List.mem_singleton] at hsl
            subst hsl
            have hlen : utf8Len (byteSlice t start
                (snapDown t (min (start + c.size) (utf8Len t)))) =
                snapDown t (min (start + c.size) (utf8Len t)) - start :=
              utf8Len_byteSlice_of_boundaries hb hbe (by omega)
            refine ⟨⟨rfl, hb, hbe, Nat.le_of_lt hse, hele⟩, ?_⟩
            intro hnil
            have hnil2 : byteSlice t start
                (snapDown t (min (start + c.size) (utf8Len t))) = [] := hnil
            rw [hnil2, utf8Len_nil] at hlen
            omega
          · intro sl hsl
            simp at hsl
        split at h
        · simp only [Option.some.injEq] at h
          subst h
          exact hvalid
        · rename_i hcont
          cases hrec : fixedGo c t f (snapUp t (start + c.step))
              (if start < snapDown t (min (start + c.size) (utf8Len t))
               then index + 1 else index) with
          | none => rw [hrec] at h; exact absurd h (by simp)
          | some slabs2 =>
              rw [hrec] at h
              simp only [Option.map_some', Option.some.injEq] at h
              subst h
              have hnslen : start + c.step ≤ utf8Len t := by
                push_neg at hcont
                omega
              have hbns : isBoundary t (snapUp t (start + c.step)) = true :=
                isBoundary_snapUp t _ hnslen
              intro sl hsl
              rcases List.mem_append.mp hsl with h2 | h3
              · exact hvalid sl h2
              · exact ih (snapUp t (start + c.step)) _ slabs2 hbns hrec sl h3
      · rw [if_neg h1] at h
        simp only [Option.some.injEq] at h
        subst h
        intro sl hsl
        simp at hsl

theorem fixed_chunk_valid {c : FixedChunker} {t : List Char} {slabs : List Slab}
    (h : FixedChunker.chunk c t = some slabs) :
    ∀ sl ∈ slabs, ValidSlab t sl ∧ sl.text ≠ [] := by
  unfold FixedChunker.chunk at h
  split at h
  · simp only [Option.some.injEq] at h
    subst h
    intro sl hsl
    simp at hsl
  · exact fixedGo_valid c t (utf8Len t + 1) 0 0 slabs (isBoundary_zero t) h

/- ### ModelChunker (src/model.rs) -/

/-- Rust string slicing `&text[a..b]`: panics (modelled `none`) unless both
offsets are character boundaries with `a ≤ b`. -/
def sliceCk (s : List Char) (a b : Nat) : Option (List Char) :=
  if a ≤ b ∧ isBoundary s a = true ∧ isBoundary s b = true then
    some (byteSlice s a b)
  else none

/-- The loop of `ModelChunker::chunk` over the enumerated predicted split
points: a cut is accepted only if it advances the cursor and does not
exceed the document length; the slab index is the cut's position in the
prediction list. -/
def modelGo (t : List Char) :
    List (Nat × Nat) → Nat → List Slab → Option (Nat × List Slab)
  | [], start, slabs => some (start, slabs)
  | (i, e) :: rest, start, slabs =>
    if start < e ∧ e ≤ utf8Len t then
      match sliceCk t start e with
      | none => none
      | some txt => modelGo t rest e (slabs ++ [⟨txt, start, e, i⟩])
    else modelGo t rest start slabs

/-- `ModelChunker::chunk`, with the injected model's output
(`predict_splits`) passed as the `splits` argument. -/
def ModelChunker.chunk (t : List Char) (splits : List Nat) : Option (List Slab) :=
  if t = [] then some []
  else
    match modelGo t splits.enum 0 [] with
    | none => none
    | some (start, slabs) =>
      if start < utf8Len t then
        match sliceCk t start (utf8Len t) with
        | none => none
        | some txt => some (slabs ++ [⟨txt, start, utf8Len t, slabs.length⟩])
      else some slabs

theorem sliceCk_some {s : List Char} {a b : Nat} {txt : List Char}
    (h : sliceCk s a b = some txt) :
    txt = byteSlice s a b ∧ a ≤ b ∧ isBoundary s a = true ∧
    isBoundary s b = true := by
  unfold sliceCk at h
  split at h
  · rename_i hcond
    simp only [Option.some.injEq] at h
    exact ⟨h.symm, hcond.1, hcond.2.1, hcond.2.2⟩
  · exact absurd h (by simp)

theorem modelGo_valid (t : List Char) :
    ∀ (ps : List (Nat × Nat)) (start : Nat) (slabs : List Slab)
      (start' : Nat) (slabs' : List Slab),
      (∀ sl ∈ slabs, ValidSlab t sl ∧ sl.text ≠ []) →
      modelGo t ps start slabs = some (start', slabs') →
      ∀ sl ∈ slabs', ValidSlab t sl ∧ sl.text ≠ [] := by
  intro ps
  induction ps with
  | nil =>
      intro start slabs start' slabs' hinv h
      simp only [modelGo, Option.some.injEq, Prod.mk.injEq] at h
      rw [← h.2]
      exact hinv
  | cons p rest ih =>
      intro start slabs start' slabs' hinv h
      obtain ⟨i, e⟩ := p
      simp only [modelGo] at h
      split at h
      · rename_i hcond
        cases hck : sliceCk t start e with
        | none => rw [hck] at h; exact absurd h (by simp)
        | some txt =>
            rw [hck] at h
            refine ih e (slabs ++ [⟨txt, start, e, i⟩]) start' slabs' ?_ h
            intro sl hsl
            rcases List.mem_append.mp hsl with h2 | h3
            · exact hinv sl h2
            · simp only [List.mem_singleton] at h3
              subst h3
              obtain ⟨htxt, hab, hba, hbb⟩ := sliceCk_some hck
              have hlen : utf8Len (byteSlice t start e) = e - start :=
                utf8Len_byteSlice_of_boundaries hba hbb hab
              refine ⟨⟨htxt, hba, hbb, hab, isBoundary_le hbb⟩, ?_⟩
              intro hnil
              have hnil2 : txt = [] := hnil
              rw [hnil2] at htxt
              rw [← htxt, utf8Len_nil] at hlen
              omega
      · exact ih start slabs start' slabs' hinv h

theorem model_chunk_valid {t : List Char} {splits : List Nat} {slabs : List Slab}
    (h : ModelChunker.chunk t splits = some slabs) :
    ∀ sl ∈ slabs, ValidSlab t sl ∧ sl.text ≠ [] := by
  unfold ModelChunker.chunk at h
  split at h
  · simp only [Option.some.injEq] at h
    subst h
    intro sl hsl
    simp at hsl
  · rename_i ht
    cases hgo : modelGo t splits.enum 0 [] with
    | none => rw [hgo] at h; exact absurd h (by simp)
    | some st =>
        obtain ⟨start, slabs0⟩ := st
        rw [hgo] at h
        have hval0 := modelGo_valid t splits.enum 0 [] start slabs0
          (by intro sl hsl; simp at hsl) hgo
        simp only at h
        split at h
        · rename_i hlt
          cases hck : sliceCk t start (utf8Len t) with
          | none => rw [hck] at h; exact absurd h (by simp)
          | some txt =>
              rw [hck] at h
              simp only [Option.some.injEq] at h
              subst h
              intro sl hsl
              rcases List.mem_append.mp hsl with h2 | h3
              · exact hval0 sl h2
              · simp only [List.mem_singleton] at h3
                subst h3
                obtain ⟨htxt, hab, hba, hbb⟩ := sliceCk_some hck
                have hlen : utf8Len (byteSlice t start (utf8Len t)) =
                    utf8Len t - start :=
                  utf8Len_byteSlice_of_boundaries hba hbb hab
                refine ⟨⟨htxt, hba, hbb, hab, Nat.le_refl _⟩, ?_⟩
                intro hnil
                have hnil2 : txt = [] := hnil
                rw [hnil2] at htxt
                rw [← htxt, utf8Len_nil] at hlen
                omega
        · simp only [Option.some.injEq] at h
          subst h
          exact hval0

/-- C8: the spec says the model-based splitter defensively ignores bad
cut-points and never panics on well-formed UTF-8; in fact a predicted
cut-point that falls strictly inside a multi-byte character passes the
`end > start && end <= text.len()` filter and then panics when slicing
`&text[start..end]`.  On `"é"` with predicted splits `[1]` the code
panics (modelled as `none`). -/
theorem model_chunker_panic :
    ModelChunker.chunk ("é".toList) [1] = none ∧
    (0 < 1 ∧ 1 ≤ utf8Len ("é".toList)) := by
  exact ⟨by decide, by decide⟩

/- ### SentenceChunker (src/sentence.rs) -/

/-- Rust `char::is_whitespace`: the Unicode White_Space code points. -/
def isWS (c : Char) : Bool :=
  [0x09, 0x0A, 0x0B, 0x0C, 0x0D, 0x20, 0x85, 0xA0, 0x1680,
   0x2000, 0x2001, 0x2002, 0x2003, 0x2004, 0x2005, 0x2006, 0x2007,
   0x2008, 0x2009, 0x200A, 0x2028, 0x2029, 0x202F, 0x205F, 0x3000].contains c.toNat

/-- Rust `str::trim_start`. -/
def trimStartL (l : List Char) : List Char := l.dropWhile isWS

/-- Rust `str::trim_end`. -/
def trimEndL (l : List Char) : List Char := (l.reverse.dropWhile isWS).reverse

/-- Rust `str::trim`. -/
def trimL (l : List Char) : List Char := trimEndL (trimStartL l)

/-- The `scan` in `SentenceChunker::chunk`: pair every sentence with its
cumulative byte offset. -/
def withOffsets : List (List Char) → Nat → List (Nat × List Char)
  | [], _ => []
  | s :: ss, off => (off, s) :: withOffsets ss (off + utf8Len s)

/-- Rust `slice::chunks(n)` (one fuel unit per group; `l.length + 1` is
always enough).  Rust panics on `n = 0`; the constructor rules that out. -/
def chunksOfGo (n : Nat) {α : Type} : Nat → List α → List (List α)
  | 0, _ => []
  | _ + 1, [] => []
  | fuel + 1, x :: xs => (x :: xs.take (n - 1)) :: chunksOfGo n fuel (xs.drop (n - 1))

def chunksOf (n : Nat) {α : Type} (l : List α) : List (List α) :=
  chunksOfGo n (l.length + 1) l

structure SentenceChunker where
  sentencesPerChunk : Nat
deriving Repr, DecidableEq

/-- `SentenceChunker::new`; the `assert!` is modelled as `none`. -/
def SentenceChunker.new (n : Nat) : Option SentenceChunker :=
  if n = 0 then none else some ⟨n⟩

/-- The loop over sentence windows in `SentenceChunker::chunk`: join the
window's sentences, trim, adjust the span by the leading/trailing
whitespace byte counts, and emit (skipping all-whitespace windows). -/
def sentenceSlabsGo : List (List (Nat × List Char)) → Nat → List Slab
  | [], _ => []
  | g :: gs, index =>
    let start := (g.head?.map Prod.fst).getD 0
    let e := (g.getLast?.map (fun p => p.1 + utf8Len p.2)).getD start
    let chunkText := concatAll (g.map Prod.snd)
    let trimmed := trimL chunkText
    if trimmed = [] then sentenceSlabsGo gs index
    else
      ⟨trimmed,
        start + (utf8Len chunkText - utf8Len (trimStartL chunkText)),
        e - (utf8Len chunkText - utf8Len (trimEndL chunkText)),
        index⟩ :: sentenceSlabsGo gs (index + 1)

/-- `SentenceChunker::chunk`; the segmenter is an external capability, so
its output (`split_sentence_bounds`) is the `segs` argument.  `sentences`
(the offset-paired, non-whitespace segments) is written out twice. -/
def SentenceChunker.chunk (c : SentenceChunker) (segs : List (List Char))
    (t : List Char) : List Slab :=
  if t = [] then []
  else if segs = [] then []
  else if (withOffsets segs 0).filter (fun p => !(trimL p.2).isEmpty) = [] then []
  else sentenceSlabsGo (chunksOf c.sentencesPerChunk
    ((withOffsets segs 0).filter (fun p => !(trimL p.2).isEmpty))) 0

/- ### Trim decomposition -/

theorem trimEndL_append {Y : List Char} (X : List Char) (hY : trimEndL Y ≠ []) :
    trimEndL (X ++ Y) = X ++ trimEndL Y := by
  unfold trimEndL at *
  rw [List.reverse_append, List.dropWhile_append]
  have hne : ¬ (Y.reverse.dropWhile isWS).isEmpty = true := by
    intro hc
    apply hY
    rw [List.isEmpty_iff] at hc
    rw [hc]
    rfl
  rw [if_neg hne, List.reverse_append, List.reverse_reverse]

/-- A list is its trimmed-end part followed by a whitespace suffix. -/
theorem trimEndL_decomp (Y : List Char) :
    ∃ S, Y = trimEndL Y ++ S := by
  refine ⟨(Y.reverse.takeWhile isWS).reverse, ?_⟩
  unfold trimEndL
  rw [← List.reverse_append, List.takeWhile_append_dropWhile, List.reverse_reverse]

/-- Non-empty trim result decomposes the text into leading whitespace, the
trimmed core, and trailing whitespace, with byte lengths matching the
`leading_ws`/`trailing_ws` computations of `SentenceChunker::chunk`. -/
theorem trim_decomp {A : List Char} (h : trimL A ≠ []) :
    ∃ P S, A = P ++ trimL A ++ S ∧
      utf8Len P = utf8Len A - utf8Len (trimStartL A) ∧
      utf8Len S = utf8Len A - utf8Len (trimEndL A) ∧
      utf8Len A = utf8Len P + utf8Len (trimL A) + utf8Len S := by
  have hPR : A = A.takeWhile isWS ++ trimStartL A := by
    unfold trimStartL
    rw [List.takeWhile_append_dropWhile]
  obtain ⟨S, hS⟩ := trimEndL_decomp (trimStartL A)
  have hA : A = A.takeWhile isWS ++ trimL A ++ S := by
    conv_lhs => rw [hPR, hS]
    simp [trimL, List.append_assoc]
  have htrimEndA : trimEndL A = A.takeWhile isWS ++ trimL A := by
    conv_lhs => rw [hPR]
    exact trimEndL_append _ h
  have hlen1 : utf8Len A = utf8Len (A.takeWhile isWS) + utf8Len (trimStartL A) := by
    conv_lhs => rw [hPR]
    rw [utf8Len_append]
  have hlen2 : utf8Len A =
      utf8Len (A.takeWhile isWS) + utf8Len (trimL A) + utf8Len S := by
    conv_lhs => rw [hA]
    simp only [utf8Len_append]
    try omega
  have hlen3 : utf8Len (trimEndL A) =
      utf8Len (A.takeWhile isWS) + utf8Len (trimL A) := by
    rw [htrimEndA, utf8Len_append]
  exact ⟨A.takeWhile isWS, S, hA, by omega, by omega, by omega⟩

/- ### Structure of the sentence windows -/

theorem withOffsets_map_snd (segs : List (List Char)) (off : Nat) :
    (withOffsets segs off).map Prod.snd = segs := by
  induction segs generalizing off with
  | nil => rfl
  | cons s ss ih => simp [withOffsets, ih]

theorem withOffsets_ne_nil {segs : List (List Char)} {off : Nat}
    (h : segs ≠ []) : withOffsets segs off ≠ [] := by
  cases segs with
  | nil => exact absurd rfl h
  | cons s ss => simp [withOffsets]

theorem withOffsets_head (segs : List (List Char)) (off : Nat) :
    ∀ p ∈ (withOffsets segs off).head?, p.1 = off := by
  cases segs with
  | nil => simp [withOffsets]
  | cons s ss => simp [withOffsets]

theorem withOffsets_last (segs : List (List Char)) (off : Nat) :
    ∀ p ∈ (withOffsets segs off).getLast?,
      p.1 + utf8Len p.2 = off + utf8Len (concatAll segs) := by
  induction segs generalizing off with
  | nil => simp [withOffsets]
  | cons s ss ih =>
      cases ss with
      | nil =>
          simp [withOffsets, concatAll, utf8Len_append, utf8Len_nil]
      | cons u us =>
          intro p hp
          have hstep : withOffsets (u :: us) (off + utf8Len s) =
              (off + utf8Len s, u) ::
                withOffsets us (off + utf8Len s + utf8Len u) := rfl
          rw [show withOffsets (s :: u :: us) off =
              (off, s) :: withOffsets (u :: us) (off + utf8Len s) from rfl,
            hstep, List.getLast?_cons_cons] at hp
          have := ih (off + utf8Len s) p (by rw [hstep]; exact hp)
          rw [this]
          simp [concatAll, utf8Len_append]
          omega

/-- Splitting a `withOffsets` list splits the segments, keeping track of
the cumulative offsets. -/
theorem withOffsets_split :
    ∀ (segs : List (List Char)) (off : Nat) (A rest : List (Nat × List Char)),
      withOffsets segs off = A ++ rest →
      ∃ sA sR, segs = sA ++ sR ∧ A = withOffsets sA off ∧
        rest = withOffsets sR (off + utf8Len (concatAll sA)) := by
  intro segs off A
  induction A generalizing segs off with
  | nil =>
      intro rest h
      refine ⟨[], segs, rfl, rfl, ?_⟩
      simp only [List.nil_append] at h
      simpa [concatAll, utf8Len_nil] using h.symm
  | cons x A2 ih =>
      intro rest h
      cases segs with
      | nil => simp [withOffsets] at h
      | cons s ss =>
          rw [show withOffsets (s :: ss) off =
            (off, s) :: withOffsets ss (off + utf8Len s) from rfl] at h
          simp only [List.cons_append, List.cons.injEq] at h
          obtain ⟨hx, h2⟩ := h
          obtain ⟨sA, sR, hseg, hA2, hrest⟩ := ih ss (off + utf8Len s) rest h2
          refine ⟨s :: sA, sR, by rw [hseg]; simp, ?_, ?_⟩
          · rw [show withOffsets (s :: sA) off =
              (off, s) :: withOffsets sA (off + utf8Len s) from rfl]
            rw [← hA2, ← hx]
          · rw [hrest]
            simp [concatAll, utf8Len_append]
            congr 1
            omega

theorem chunksOfGo_flatten {α : Type} (n : Nat) :
    ∀ (fuel : Nat) (l : List α), l.length < fuel →
      (chunksOfGo n fuel l).flatten = l := by
  intro fuel
  induction fuel with
  | zero => intro l h; omega
  | succ f ih =>
      intro l h
      cases l with
      | nil => simp [chunksOfGo]
      | cons x xs =>
          show ((x :: xs.take (n - 1)) :: chunksOfGo n f (xs.drop (n - 1))).flatten = _
          rw [List.flatten_cons]
          rw [ih (xs.drop (n - 1)) (by simp at h ⊢; omega)]
          simp

theorem chunksOf_flatten {α : Type} (n : Nat) (l : List α) :
    (chunksOf n l).flatten = l :=
  chunksOfGo_flatten n (l.length + 1) l (by omega)

theorem chunksOfGo_ne_nil {α : Type} (n : Nat) :
    ∀ (fuel : Nat) (l : List α), ∀ g ∈ chunksOfGo n fuel l, g ≠ [] := by
  intro fuel
  induction fuel with
  | zero => intro l g hg; simp [chunksOfGo] at hg
  | succ f ih =>
      intro l g hg
      cases l with
      | nil => simp [chunksOfGo] at hg
      | cons x xs =>
          rw [show chunksOfGo n (f + 1) (x :: xs) =
            (x :: xs.take (n - 1)) :: chunksOfGo n f (xs.drop (n - 1)) from rfl] at hg
          rcases List.mem_cons.mp hg with h1 | h2
          · subst h1; simp
          · exact ih (xs.drop (n - 1)) g h2

/-- Every window of kept sentences is itself a `withOffsets` run over a
contiguous block of the segments, positioned by the byte length of what
precedes it. -/
theorem sentence_group_ctx {segs : List (List Char)} {t : List Char} {n : Nat}
    (hjoin : concatAll segs = t) :
    ∀ g ∈ chunksOf n (withOffsets segs 0),
      ∃ sG preT postT, g = withOffsets sG (utf8Len preT) ∧
        t = preT ++ concatAll sG ++ postT ∧ sG ≠ [] := by
  intro g hg
  obtain ⟨X, Y, hXY⟩ := List.append_of_mem hg
  have hjoin2 : (chunksOf n (withOffsets segs 0)).flatten = withOffsets segs 0 :=
    chunksOf_flatten n _
  rw [hXY] at hjoin2
  rw [List.flatten_append, List.flatten_cons] at hjoin2
  obtain ⟨sA, sR, hseg, hA, hrest⟩ :=
    withOffsets_split segs 0 X.flatten (g ++ Y.flatten) hjoin2.symm
  obtain ⟨sG, sB, hseg2, hG, hB⟩ :=
    withOffsets_split sR (0 + utf8Len (concatAll sA)) g Y.flatten hrest.symm
  refine ⟨sG, concatAll sA, concatAll sB, ?_, ?_, ?_⟩
  · rw [hG]
    congr 1
    omega
  · rw [← hjoin, hseg, hseg2]
    simp [concatAll_append]
  · intro hnil
    subst hnil
    have : g = [] := by rw [hG]; rfl
    exact chunksOfGo_ne_nil n _ _ g hg this

/-- Validity of every slab the sentence-window loop emits, given that each
window is a contiguous, correctly positioned block of sentences. -/
theorem sentenceSlabsGo_valid (t : List Char) :
    ∀ (groups : List (List (Nat × List Char))) (index : Nat),
      (∀ g ∈ groups,
        ∃ sG preT postT, g = withOffsets sG (utf8Len preT) ∧
          t = preT ++ concatAll sG ++ postT ∧ sG ≠ []) →
      ∀ sl ∈ sentenceSlabsGo groups index, ValidSlab t sl ∧ sl.text ≠ [] := by
  intro groups
  induction groups with
  | nil => intro index _ sl hsl; simp [sentenceSlabsGo] at hsl
  | cons g gs ih =>
      intro index hctx sl hsl
      obtain ⟨sG, preT, postT, hG, hdec, hne⟩ := hctx g (List.mem_cons_self g gs)
      have hctx2 := fun g2 hg2 => hctx g2 (List.mem_cons_of_mem g hg2)
      rw [show sentenceSlabsGo (g :: gs) index =
        (let start := (g.head?.map Prod.fst).getD 0
         let e := (g.getLast?.map (fun p => p.1 + utf8Len p.2)).getD start
         let chunkText := concatAll (g.map Prod.snd)
         let trimmed := trimL chunkText
         if trimmed = [] then sentenceSlabsGo gs index
         else
           ⟨trimmed,
             start + (utf8Len chunkText - utf8Len (trimStartL chunkText)),
             e - (utf8Len chunkText - utf8Len (trimEndL chunkText)),
             index⟩ :: sentenceSlabsGo gs (index + 1)) from rfl] at hsl
      simp only at hsl
      -- identify start, end and the window text
      have hsnd : g.map Prod.snd = sG := by rw [hG]; exact withOffsets_map_snd _ _
      have hgne : g ≠ [] := by
        intro hnil
        rw [hnil] at hG
        cases sG with
        | nil => exact hne rfl
        | cons a as => exact absurd hG.symm (by simp [withOffsets])
      have hstart : (g.head?.map Prod.fst).getD 0 = utf8Len preT := by
        cases hh : g.head? with
        | none => rw [List.head?_eq_none_iff] at hh; exact absurd hh hgne
        | some p =>
            have := withOffsets_head sG (utf8Len preT) p (by rw [← hG]; exact hh)
            simp [hh, this]
      have hlast : ∀ p ∈ g.getLast?, p.1 + utf8Len p.2 =
          utf8Len preT + utf8Len (concatAll sG) := by
        intro p hp
        exact withOffsets_last sG (utf8Len preT) p (by rw [← hG]; exact hp)
      have hend : (g.getLast?.map (fun p => p.1 + utf8Len p.2)).getD
          ((g.head?.map Prod.fst).getD 0) = utf8Len preT + utf8Len (concatAll sG) := by
        cases hh : g.getLast? with
        | none => rw [List.getLast?_eq_none_iff] at hh; exact absurd hh hgne
        | some p =>
            have := hlast p (by rw [hh]; rfl)
            simp [hh, this]
      rw [hsnd] at hsl
      rw [hend] at hsl
      rw [hstart] at hsl
      by_cases htr : trimL (concatAll sG) = []
      · rw [if_pos htr] at hsl
        exact ih index hctx2 sl hsl
      · rw [if_neg htr] at hsl
        rcases List.mem_cons.mp hsl with h1 | h2
        · -- the emitted slab of this window
          obtain ⟨P, S, hPS, hPlen, hSlen, htot⟩ := trim_decomp htr
          subst h1
          have hdec4 : t = (preT ++ P) ++ trimL (concatAll sG) ++ (S ++ postT) := by
            rw [hdec]
            conv_lhs => rw [hPS]
            simp [List.append_assoc]
          have hstart2 : utf8Len preT +
              (utf8Len (concatAll sG) - utf8Len (trimStartL (concatAll sG))) =
              utf8Len (preT ++ P) := by
            rw [utf8Len_append]
            omega
          have hstop2 : utf8Len preT + utf8Len (concatAll sG) -
              (utf8Len (concatAll sG) - utf8Len (trimEndL (concatAll sG))) =
              utf8Len (preT ++ P) + utf8Len (trimL (concatAll sG)) := by
            rw [utf8Len_append]
            omega
          have hslice : byteSlice t (utf8Len (preT ++ P))
              (utf8Len (preT ++ P) + utf8Len (trimL (concatAll sG))) =
              trimL (concatAll sG) := by
            conv_lhs => rw [hdec4]
            exact byteSlice_middle _ _ _
          have hlenT : utf8Len t = utf8Len (preT ++ P) +
              utf8Len (trimL (concatAll sG)) + utf8Len (S ++ postT) := by
            conv_lhs => rw [hdec4]
            simp only [utf8Len_append]
            try omega
          constructor
          · refine ⟨?_, ?_, ?_, ?_, ?_⟩
            · show trimL (concatAll sG) = byteSlice t _ _
              rw [hstart2, hstop2, hslice]
            · show isBoundary t (utf8Len preT + _) = true
              rw [hstart2]
              have hdec5 : t = (preT ++ P) ++
                  (trimL (concatAll sG) ++ (S ++ postT)) := by
                rw [hdec4, List.append_assoc]
              conv_lhs => rw [hdec5]
              exact isBoundary_append_left _ _
            · show isBoundary t (utf8Len preT + utf8Len (concatAll sG) - _) = true
              rw [hstop2, ← utf8Len_append]
              conv_lhs => rw [hdec4]
              exact isBoundary_append_left _ _
            · show utf8Len preT + _ ≤ utf8Len preT + utf8Len (concatAll sG) - _
              omega
            · show utf8Len preT + utf8Len (concatAll sG) - _ ≤ utf8Len t
              omega
          · exact htr
        · exact ih (index + 1) hctx2 sl h2

/-- Span validity and text fidelity for `SentenceChunker::chunk`, under
the capability assumptions on the external segmenter: its segments
concatenate to the input, and no segment is whitespace-only (per UAX #29
trailing whitespace is attached to the preceding sentence). -/
theorem sentence_chunk_valid (c : SentenceChunker) (segs : List (List Char))
    (t : List Char) (hjoin : concatAll segs = t)
    (hsegs : ∀ s ∈ segs, trimL s ≠ []) :
    ∀ sl ∈ SentenceChunker.chunk c segs t, ValidSlab t sl ∧ sl.text ≠ [] := by
  intro sl hsl
  unfold SentenceChunker.chunk at hsl
  split at hsl
  · simp at hsl
  · split at hsl
    · simp at hsl
    · have hfilter : (withOffsets segs 0).filter (fun p => !(trimL p.2).isEmpty) =
          withOffsets segs 0 := by
        apply List.filter_eq_self.mpr
        intro p hp
        have hp2 : p.2 ∈ segs := by
          have hm := withOffsets_map_snd segs 0
          rw [← hm]
          exact List.mem_map_of_mem Prod.snd hp
        have hne := hsegs p.2 hp2
        simp only [Bool.not_eq_true']
        cases hh : trimL p.2 with
        | nil => exact absurd hh hne
        | cons a as => rfl
      rw [hfilter] at hsl
      split at hsl
      · simp at hsl
      · exact sentenceSlabsGo_valid t _ 0 (sentence_group_ctx hjoin) sl hsl

/- ### SemanticChunker (src/semantic.rs)

The two injected capabilities are abstracted: the segmenter's output is the
`segs` argument (as for the sentence splitter), and the embedding model is
reduced to what the code observes of it — whether the batch embedding call
succeeded (`embedOk`) and, per adjacent sentence pair, whether the cosine
similarity fell below the threshold (`drops`, one `Bool` per pair, since
the `f32` comparison outcome is all `find_split_points` uses). -/

/-- `SemanticChunker::extract_sentences`: per segment, trim; if non-empty,
locate the trimmed text in the remaining document (`text[offset..]`,
Rust `str::find`) and record its byte position. -/
def extractGo (t : List Char) : List (List Char) → Nat → List (Nat × List Char)
  | [], _ => []
  | seg :: rest, off =>
    if trimL seg = [] then extractGo t rest (off + utf8Len seg)
    else
      match findSub (trimL seg) (dropBytes t off) with
      | none => extractGo t rest (off + utf8Len seg)
      | some p =>
          (off + utf8Len ((dropBytes t off).take p), trimL seg) ::
            extractGo t rest (off + utf8Len seg)

def extractSentences (t : List Char) (segs : List (List Char)) :
    List (Nat × List Char) :=
  extractGo t segs 0

/-- `SemanticChunker::find_split_points` with the per-pair similarity
comparison outcomes supplied as `drops`; the last split point is carried
as `last` instead of re-reading `split_points.last()`. -/
def findSplitsGo (minS : Nat) : List Bool → Nat → Nat → List Nat
  | [], _, _ => []
  | d :: ds, i, last =>
    if d ∧ minS ≤ i - last then i :: findSplitsGo minS ds (i + 1) i
    else findSplitsGo minS ds (i + 1) last

def findSplitPoints (minS : Nat) (drops : List Bool) : List Nat :=
  findSplitsGo minS drops 1 0

/-- Rust slice indexing `&l[a..b]`: panics (modelled `none`) unless
`a ≤ b ≤ l.length`. -/
def sliceRange {α : Type} (l : List α) (a b : Nat) : Option (List α) :=
  if a ≤ b ∧ b ≤ l.length then some ((l.drop a).take (b - a)) else none

/-- One semantic chunk from a group of located sentences: texts joined
with a single space; span from the first sentence's start to the last
sentence's end. -/
def semanticSlab (g : List (Nat × List Char)) (index : Nat) : Slab :=
  ⟨interSep [' '] (g.map Prod.snd),
    (g.head?.map Prod.fst).getD 0,
    (g.getLast?.map (fun p => p.1 + utf8Len p.2)).getD
      ((g.head?.map Prod.fst).getD 0),
    index⟩

/-- The chunk-building loop of `SemanticChunker::chunk` over the split
points (`chunk_start_idx` / `chunk_idx` walk), plus the final chunk. -/
def semanticGo (sentences : List (Nat × List Char)) :
    List Nat → Nat → Nat → List Slab → Option (List Slab)
  | [], start, _, slabs =>
    if start < sentences.length then
      match sliceRange sentences start sentences.length with
      | none => none
      | some g => some (slabs ++ [semanticSlab g slabs.length])
    else some slabs
  | sp :: sps, start, cidx, slabs =>
    match sliceRange sentences start sp with
    | none => none
    | some g =>
        if g = [] then semanticGo sentences sps sp (cidx + 1) slabs
        else semanticGo sentences sps sp (cidx + 1) (slabs ++ [semanticSlab g cidx])

structure SemanticChunker where
  minChunkSentences : Nat
deriving Repr, DecidableEq

/-- `SemanticChunker::chunk`.  On embedding failure (`embedOk = false`)
the whole trimmed document is returned as a single chunk spanning
`[0, len)`. -/
def SemanticChunker.chunk (c : SemanticChunker) (t : List Char)
    (segs : List (List Char)) (embedOk : Bool) (drops : List Bool) :
    Option (List Slab) :=
  if t = [] then some []
  else if extractSentences t segs = [] then some []
  else if embedOk = false then some [⟨trimL t, 0, utf8Len t, 0⟩]
  else
    semanticGo (extractSentences t segs)
      (findSplitPoints c.minChunkSentences drops) 0 0 []

/- ### Span validity for the semantic splitter -/

/-- The span part of the §3 invariant (the semantic splitter's stored text
is exempt from the slice-equality, §7). -/
def ValidSpan (t : List Char) (sl : Slab) : Prop :=
  isBoundary t sl.start = true ∧ isBoundary t sl.stop = true ∧
  sl.start ≤ sl.stop ∧ sl.stop ≤ utf8Len t

theorem utf8Len_prefix_le {x y : List Char} (h : x <+: y) :
    utf8Len x ≤ utf8Len y := by
  obtain ⟨r, hr⟩ := h
  rw [← hr, utf8Len_append]
  omega

theorem utf8Len_take_mono (l : List Char) {m n : Nat} (h : m ≤ n) :
    utf8Len (l.take m) ≤ utf8Len (l.take n) := by
  apply utf8Len_prefix_le
  have h1 : (l.take n).take m = l.take m := by
    rw [List.take_take, Nat.min_eq_left h]
  rw [← h1]
  exact List.take_prefix m (l.take n)

/-- Facts about an occurrence of `pat` at character index `p` of the
suffix `R` of `t`: the byte position and its end are boundaries of `t`
within the document. -/
theorem occurrence_facts {t pre R pat : List Char} {p : Nat}
    (htR : t = pre ++ R) (hpre : pat <+: R.drop p) :
    isBoundary t (utf8Len pre + utf8Len (R.take p)) = true ∧
    isBoundary t (utf8Len pre + utf8Len (R.take p) + utf8Len pat) = true ∧
    utf8Len pre + utf8Len (R.take p) + utf8Len pat ≤ utf8Len t := by
  obtain ⟨rem, hrem⟩ := hpre
  have hRsplit : R = R.take p ++ (pat ++ rem) := by
    conv_lhs => rw [← List.take_append_drop p R, ← hrem]
  have htdec : t = (pre ++ R.take p) ++ (pat ++ rem) := by
    rw [htR]
    conv_lhs => rw [hRsplit]
    simp [List.append_assoc]
  have htdec2 : t = ((pre ++ R.take p) ++ pat) ++ rem := by
    rw [htdec]
    simp [List.append_assoc]
  have hlenT : utf8Len t =
      utf8Len pre + utf8Len (R.take p) + utf8Len pat + utf8Len rem := by
    conv_lhs => rw [htdec2]
    simp only [utf8Len_append]
    try omega
  refine ⟨?_, ?_, by omega⟩
  · rw [← utf8Len_append]
    conv_lhs => rw [htdec]
    exact isBoundary_append_left _ _
  · rw [← utf8Len_append, ← utf8Len_append]
    conv_lhs => rw [htdec2]
    exact isBoundary_append_left _ _

/-- The leftmost occurrence of a pattern that is known to occur at
character index `P.length` starts no later, so its bytes end within
`P ++ pat`. -/
theorem occurrence_within {R P pat X : List Char} {p : Nat}
    (hform : R = P ++ (pat ++ X)) (hfind : findSub pat R = some p) :
    utf8Len (R.take p) ≤ utf8Len P := by
  have hoccur : pat <+: R.drop P.length := by
    rw [hform, List.drop_left]
    exact ⟨X, rfl⟩
  obtain ⟨p2, hp2, hp2le⟩ := findSub_min hoccur
  have hpeq : p = p2 := by
    rw [hfind] at hp2
    exact Option.some_inj.mp hp2
  have hPtake : R.take P.length = P := by
    rw [hform, List.take_left]
  have := utf8Len_take_mono R (show p ≤ P.length by omega)
  rwa [hPtake] at this

/-- Every located sentence of `extract_sentences` lies within the document,
on character boundaries, at or after the running offset, and consecutive
located sentences do not overlap. -/
theorem extractGo_spec (t : List Char) :
    ∀ (segs : List (List Char)) (pre : List Char),
      t = pre ++ concatAll segs →
      (∀ q ∈ extractGo t segs (utf8Len pre),
        isBoundary t q.1 = true ∧ isBoundary t (q.1 + utf8Len q.2) = true ∧
        q.1 + utf8Len q.2 ≤ utf8Len t ∧ utf8Len pre ≤ q.1) ∧
      List.Chain' (fun a b : Nat × List Char => a.1 + utf8Len a.2 ≤ b.1)
        (extractGo t segs (utf8Len pre)) := by
  intro segs
  induction segs with
  | nil =>
      intro pre _
      constructor
      · intro q hq; simp [extractGo] at hq
      · simp [extractGo]
  | cons seg rest ih =>
      intro pre hdec
      have hdec2 : t = (pre ++ seg) ++ concatAll rest := by
        rw [hdec]; simp [concatAll]
      have hoff2 : utf8Len pre + utf8Len seg = utf8Len (pre ++ seg) := by
        rw [utf8Len_append]
      obtain ⟨ihall, ihchain⟩ := ih (pre ++ seg) hdec2
      rw [← hoff2] at ihall ihchain
      have hweak : ∀ q ∈ extractGo t rest (utf8Len pre + utf8Len seg),
          isBoundary t q.1 = true ∧ isBoundary t (q.1 + utf8Len q.2) = true ∧
          q.1 + utf8Len q.2 ≤ utf8Len t ∧ utf8Len pre ≤ q.1 := by
        intro q hq
        obtain ⟨h1, h2, h3, h4⟩ := ihall q hq
        exact ⟨h1, h2, h3, by omega⟩
      by_cases htrim : trimL seg = []
      · rw [show extractGo t (seg :: rest) (utf8Len pre) =
          extractGo t rest (utf8Len pre + utf8Len seg) by
            simp [extractGo, htrim]]
        exact ⟨hweak, ihchain⟩
      · have hdrop : dropBytes t (utf8Len pre) = seg ++ concatAll rest := by
          rw [hdec]; exact dropBytes_append_exact pre _
        have htR : t = pre ++ dropBytes t (utf8Len pre) := by
          rw [hdrop, hdec]; rfl
        cases hfind : findSub (trimL seg) (dropBytes t (utf8Len pre)) with
        | none =>
            rw [show extractGo t (seg :: rest) (utf8Len pre) =
              extractGo t rest (utf8Len pre + utf8Len seg) by
                simp [extractGo, htrim, hfind]]
            exact ⟨hweak, ihchain⟩
        | some p =>
            rw [show extractGo t (seg :: rest) (utf8Len pre) =
              (utf8Len pre + utf8Len ((dropBytes t (utf8Len pre)).take p),
                trimL seg) ::
                extractGo t rest (utf8Len pre + utf8Len seg) by
                  simp [extractGo, htrim, hfind]]
            obtain ⟨hple, hpre2⟩ := findSub_some hfind
            obtain ⟨hb1, hb2, hb3⟩ := occurrence_facts htR hpre2
            obtain ⟨P, S, hPS, hP1, hS1, htot⟩ := trim_decomp htrim
            have hform : dropBytes t (utf8Len pre) =
                P ++ (trimL seg ++ (S ++ concatAll rest)) := by
              rw [hdrop]
              conv_lhs => rw [hPS]
              simp [List.append_assoc]
            have hwithin :
                utf8Len ((dropBytes t (utf8Len pre)).take p) ≤ utf8Len P :=
              occurrence_within hform hfind
            constructor
            · intro q hq
              rcases List.mem_cons.mp hq with h1 | h2
              · subst h1
                exact ⟨hb1, hb2, hb3, by omega⟩
              · exact hweak q h2
            · rw [List.chain'_cons']
              constructor
              · intro y hy
                have hyfacts := ihall y (List.mem_of_mem_head? hy)
                have hyoff : utf8Len pre + utf8Len seg ≤ y.1 := hyfacts.2.2.2
                show utf8Len pre + utf8Len ((dropBytes t (utf8Len pre)).take p) +
                  utf8Len (trimL seg) ≤ y.1
                omega
              · exact ihchain

/-- Heads relate to lasts along a transitive chain. -/
theorem chain_head_getLast {α : Type} {R : α → α → Prop}
    (htr : ∀ a b c, R a b → R b c → R a c) :
    ∀ {l : List α}, List.Chain' R l →
      ∀ x ∈ l.head?, ∀ y ∈ l.getLast?, x = y ∨ R x y := by
  intro l
  induction l with
  | nil => intro _ x hx; simp at hx
  | cons a l2 ih =>
      intro hch x hx y hy
      simp only [List.head?_cons, Option.mem_def, Option.some.injEq] at hx
      subst hx
      cases l2 with
      | nil =>
          simp only [List.getLast?_singleton, Option.mem_def,
            Option.some.injEq] at hy
          exact Or.inl hy
      | cons b l3 =>
          rw [List.getLast?_cons_cons] at hy
          rw [List.chain'_cons] at hch
          obtain ⟨hab, hch2⟩ := hch
          have := ih hch2 b (by rfl) y hy
          rcases this with h1 | h2
          · subst h1; exact Or.inr hab
          · exact Or.inr (htr _ _ _ hab h2)

theorem mem_of_getLast_opt {α : Type} :
    ∀ {l : List α} {y : α}, l.getLast? = some y → y ∈ l := by
  intro l
  induction l with
  | nil => intro y h; simp at h
  | cons a l2 ih =>
      intro y h
      cases l2 with
      | nil =>
          simp only [List.getLast?_singleton, Option.some.injEq] at h
          subst h
          exact List.mem_cons_self a _
      | cons b l3 =>
          rw [List.getLast?_cons_cons] at h
          exact List.mem_cons_of_mem a (ih h)

/-- Validity of the span of one semantic chunk built from a contiguous
group of located sentences. -/
theorem semanticSlab_valid {t : List Char} {sentences : List (Nat × List Char)}
    (hfacts : ∀ q ∈ sentences,
      isBoundary t q.1 = true ∧ isBoundary t (q.1 + utf8Len q.2) = true ∧
      q.1 + utf8Len q.2 ≤ utf8Len t)
    (hchain : List.Chain' (fun a b : Nat × List Char => a.1 + utf8Len a.2 ≤ b.1)
      sentences)
    {g : List (Nat × List Char)} (hsub : g.Sublist sentences)
    (hgch : List.Chain' (fun a b : Nat × List Char => a.1 + utf8Len a.2 ≤ b.1) g)
    (hne : g ≠ []) (index : Nat) :
    ValidSpan t (semanticSlab g index) := by
  cases hhd : g.head? with
  | none => rw [List.head?_eq_none_iff] at hhd; exact absurd hhd hne
  | some hd =>
      cases hlst : g.getLast? with
      | none => rw [List.getLast?_eq_none_iff] at hlst; exact absurd hlst hne
      | some lst =>
          have hhdmem : hd ∈ sentences :=
            hsub.mem (List.mem_of_mem_head? hhd)
          have hlstmem : lst ∈ sentences := hsub.mem (mem_of_getLast_opt hlst)
          have hrel := chain_head_getLast
            (fun a b c hab hbc => by omega)
            hgch hd (by rw [hhd]; rfl) lst (by rw [hlst]; rfl)
          obtain ⟨hb1, _, _⟩ := hfacts hd hhdmem
          obtain ⟨_, hb2, hle2⟩ := hfacts lst hlstmem
          have hstart : (semanticSlab g index).start = hd.1 := by
            unfold semanticSlab
            rw [hhd]
            rfl
          have hstop : (semanticSlab g index).stop = lst.1 + utf8Len lst.2 := by
            unfold semanticSlab
            rw [hlst]
            rfl
          refine ⟨by rw [hstart]; exact hb1, by rw [hstop]; exact hb2, ?_,
            by rw [hstop]; exact hle2⟩
          rw [hstart, hstop]
          rcases hrel with h1 | h2
          · rw [h1]; omega
          · omega

theorem semanticGo_valid {t : List Char} {sentences : List (Nat × List Char)}
    (hfacts : ∀ q ∈ sentences,
      isBoundary t q.1 = true ∧ isBoundary t (q.1 + utf8Len q.2) = true ∧
      q.1 + utf8Len q.2 ≤ utf8Len t)
    (hchain : List.Chain' (fun a b : Nat × List Char => a.1 + utf8Len a.2 ≤ b.1)
      sentences) :
    ∀ (splits : List Nat) (start cidx : Nat) (acc out : List Slab),
      (∀ sl ∈ acc, ValidSpan t sl) →
      semanticGo sentences splits start cidx acc = some out →
      ∀ sl ∈ out, ValidSpan t sl := by
  have hgroup : ∀ (a b index : Nat), a ≤ b → b ≤ sentences.length →
      (sentences.drop a).take (b - a) ≠ [] →
      ValidSpan t (semanticSlab ((sentences.drop a).take (b - a)) index) := by
    intro a b index hab hble hne
    apply semanticSlab_valid hfacts hchain
    · exact ((sentences.drop a).take_sublist _).trans (sentences.drop_sublist a)
    · exact (hchain.drop a).take _
    · exact hne
  intro splits
  induction splits with
  | nil =>
      intro start cidx acc out hacc h
      simp only [semanticGo] at h
      split at h
      · rename_i hlt
        cases hsr : sliceRange sentences start sentences.length with
        | none => rw [hsr] at h; exact absurd h (by simp)
        | some g =>
            rw [hsr] at h
            simp only [Option.some.injEq] at h
            subst h
            unfold sliceRange at hsr
            rw [if_pos ⟨by omega, by omega⟩] at hsr
            simp only [Option.some.injEq] at hsr
            intro sl hsl
            rcases List.mem_append.mp hsl with h1 | h2
            · exact hacc sl h1
            · simp only [List.mem_singleton] at h2
              subst h2
              rw [← hsr]
              apply hgroup start sentences.length _ (by omega) (by omega)
              rw [hsr]
              intro hgnil
              rw [hgnil] at hsr
              have : (sentences.drop start).length = 0 := by
                have := congrArg List.length hsr
                simp at this
                omega
              simp at this
              omega
      · simp only [Option.some.injEq] at h
        subst h
        exact hacc
  | cons sp sps ih =>
      intro start cidx acc out hacc h
      simp only [semanticGo] at h
      cases hsr : sliceRange sentences start sp with
      | none => rw [hsr] at h; exact absurd h (by simp)
      | some g =>
          rw [hsr] at h
          have h2 : (if g = [] then semanticGo sentences sps sp (cidx + 1) acc
              else semanticGo sentences sps sp (cidx + 1)
                (acc ++ [semanticSlab g cidx])) = some out := h
          unfold sliceRange at hsr
          split at hsr
          · rename_i hcond
            simp only [Option.some.injEq] at hsr
            split at h2
            · exact ih sp (cidx + 1) acc out hacc h2
            · rename_i hgne
              refine ih sp (cidx + 1) _ out ?_ h2
              intro sl hsl
              rcases List.mem_append.mp hsl with h1 | hmem2
              · exact hacc sl h1
              · simp only [List.mem_singleton] at hmem2
                subst hmem2
                rw [← hsr]
                apply hgroup start sp cidx hcond.1 hcond.2
                rw [hsr]
                exact hgne
          · exact absurd hsr (by simp)

/-- Span validity for `SemanticChunker::chunk` (its stored text is the
documented deviation of §3/§7 and is not claimed). -/
theorem semantic_chunk_valid (c : SemanticChunker) (t : List Char)
    (segs : List (List Char)) (embedOk : Bool) (drops : List Bool)
    (slabs : List Slab) (hjoin : concatAll segs = t)
    (h : SemanticChunker.chunk c t segs embedOk drops = some slabs) :
    ∀ sl ∈ slabs, ValidSpan t sl := by
  unfold SemanticChunker.chunk at h
  split at h
  · simp only [Option.some.injEq] at h
    subst h
    intro sl hsl
    simp at hsl
  · split at h
    · simp only [Option.some.injEq] at h
      subst h
      intro sl hsl
      simp at hsl
    · obtain ⟨hfacts0, hchain0⟩ := extractGo_spec t segs []
        (by rw [hjoin]; rfl)
      have hpre0 : utf8Len ([] : List Char) = 0 := rfl
      rw [hpre0] at hfacts0 hchain0
      have hfacts : ∀ q ∈ extractSentences t segs,
          isBoundary t q.1 = true ∧ isBoundary t (q.1 + utf8Len q.2) = true ∧
          q.1 + utf8Len q.2 ≤ utf8Len t := by
        intro q hq
        obtain ⟨h1, h2, h3, _⟩ := hfacts0 q hq
        exact ⟨h1, h2, h3⟩
      split at h
      · simp only [Option.some.injEq] at h
        subst h
        intro sl hsl
        simp only [List.mem_singleton] at hsl
        subst hsl
        exact ⟨isBoundary_zero t, isBoundary_utf8Len t, Nat.zero_le _, Nat.le_refl _⟩
      · exact semanticGo_valid hfacts hchain0 _ 0 0 [] slabs
          (by intro sl hsl; simp at hsl) h

/- ### Claim theorem C10 -/

/-- Validity (span and text fidelity) of every chunk `RecursiveChunker::chunk`
emits, plus non-emptiness. -/
theorem recursive_chunk_valid {c : RecursiveChunker} {t : List Char}
    {slabs : List Slab} (h : RecursiveChunker.chunk c t = some slabs) :
    ∀ sl ∈ slabs, (ValidSlab t sl) ∧ sl.text ≠ [] := by
  unfold RecursiveChunker.chunk at h
  by_cases ht : t = []
  · rw [if_pos ht] at h
    simp only [Option.some.injEq] at h
    subst h
    intro sl hsl
    simp at hsl
  · rw [if_neg ht] at h
    cases hsp : splitRec c.maxSize c.separators t with
    | none => rw [hsp] at h; exact absurd h (by simp)
    | some frags =>
        rw [hsp] at h
        simp only [Option.map_some', Option.some.injEq] at h
        subst h
        have hcat := splitRec_concat c.separators t frags hsp
        have hbounds := splitRec_bounds c.separators t frags ht hsp
        obtain ⟨hall, _, _⟩ := buildGo_spec c t frags [] 0 0
          (by simp [utf8Len_nil]) (by simp [hcat]) hbounds
        intro sl hsl
        obtain ⟨h1, h2, h3, h4, h5, h6, _⟩ := hall sl hsl
        exact ⟨⟨h1, h2, h3, h4, h5⟩, h6⟩

/-- The sentence-window loop only ever emits non-empty trimmed text. -/
theorem sentenceSlabsGo_nonempty :
    ∀ (groups : List (List (Nat × List Char))) (index : Nat),
      ∀ sl ∈ sentenceSlabsGo groups index, sl.text ≠ [] := by
  intro groups
  induction groups with
  | nil => intro index sl hsl; simp [sentenceSlabsGo] at hsl
  | cons g gs ih =>
      intro index sl hsl
      rw [show sentenceSlabsGo (g :: gs) index =
        (if trimL (concatAll (g.map Prod.snd)) = [] then sentenceSlabsGo gs index
         else
           ⟨trimL (concatAll (g.map Prod.snd)),
             ((g.head?.map Prod.fst).getD 0) +
               (utf8Len (concatAll (g.map Prod.snd)) -
                utf8Len (trimStartL (concatAll (g.map Prod.snd)))),
             ((g.getLast?.map (fun p => p.1 + utf8Len p.2)).getD
               ((g.head?.map Prod.fst).getD 0)) -
               (utf8Len (concatAll (g.map Prod.snd)) -
                utf8Len (trimEndL (concatAll (g.map Prod.snd)))),
             index⟩ :: sentenceSlabsGo gs (index + 1)) from rfl] at hsl
      split at hsl
      · exact ih index sl hsl
      · rename_i htr
        rcases List.mem_cons.mp hsl with h1 | h2
        · subst h1; exact htr
        · exact ih (index + 1) sl h2

/-- C10: no splitter emits an empty chunk — the fixed splitter pushes only
when `end > start`, the sentence splitter only pushes non-empty trimmed
text, the recursive splitter never produces an empty fragment, and the
model splitter requires `end > start`. -/
theorem no_empty_chunks :
    (∀ (c : FixedChunker) (t : List Char) (slabs : List Slab),
      FixedChunker.chunk c t = some slabs → ∀ sl ∈ slabs, sl.text ≠ []) ∧
    (∀ (c : SentenceChunker) (segs : List (List Char)) (t : List Char),
      ∀ sl ∈ SentenceChunker.chunk c segs t, sl.text ≠ []) ∧
    (∀ (c : RecursiveChunker) (t : List Char) (slabs : List Slab),
      RecursiveChunker.chunk c t = some slabs → ∀ sl ∈ slabs, sl.text ≠ []) ∧
    (∀ (t : List Char) (splits : List Nat) (slabs : List Slab),
      ModelChunker.chunk t splits = some slabs → ∀ sl ∈ slabs, sl.text ≠ []) := by
  refine ⟨?_, ?_, ?_, ?_⟩
  · intro c t slabs h sl hsl
    exact (fixed_chunk_valid h sl hsl).2
  · intro c segs t sl hsl
    unfold SentenceChunker.chunk at hsl
    split at hsl
    · simp at hsl
    · split at hsl
      · simp at hsl
      · split at hsl
        · simp at hsl
        · exact sentenceSlabsGo_nonempty _ 0 sl hsl
  · intro c t slabs h sl hsl
    exact (recursive_chunk_valid h sl hsl).2
  · intro t splits slabs h sl hsl
    exact (model_chunk_valid h sl hsl).2

/-- Witness for C10 at concrete inputs, one chunk per splitter. -/
theorem no_empty_chunks_witness :
    ("ab".toList ≠ ([] : List Char)) ∧
    ("Hi. Yo.".toList ≠ ([] : List Char)) ∧
    ("ab ".toList ≠ ([] : List Char)) ∧
    ("a".toList ≠ ([] : List Char)) := by
  refine ⟨?_, ?_, ?_, ?_⟩
  · exact no_empty_chunks.1 ⟨2, 0⟩ ("ab".toList) [⟨"ab".toList, 0, 2, 0⟩]
      (by decide) ⟨"ab".toList, 0, 2, 0⟩ (by decide)
  · exact no_empty_chunks.2.1 ⟨2⟩ ["Hi. ".toList, "Yo.".toList]
      ("Hi. Yo.".toList) ⟨"Hi. Yo.".toList, 0, 7, 0⟩ (by decide)
  · exact no_empty_chunks.2.2.1 ⟨5, 0, [[' ']]⟩ ("ab cd ef".toList)
      [⟨"ab ".toList, 0, 3, 0⟩, ⟨"cd ef".toList, 3, 8, 1⟩] (by decide)
      ⟨"ab ".toList, 0, 3, 0⟩ (by decide)
  · exact no_empty_chunks.2.2.2 ("ab".toList) [1]
      [⟨"a".toList, 0, 1, 0⟩, ⟨"b".toList, 1, 2, 1⟩] (by decide)
      ⟨"a".toList, 0, 1, 0⟩ (by decide)

/- ### CodeChunker construction (src/code.rs) -/

inductive CodeLanguage where
  | rust
  | python
  | typescript
  | go
deriving Repr, DecidableEq

structure CodeChunker where
  language : CodeLanguage
  maxChunkSize : Nat
  chunkOverlap : Nat
deriving Repr, DecidableEq

/-- `CodeChunker::new` — stores the fields with no validation of any kind. -/
def CodeChunker.new (language : CodeLanguage) (maxChunkSize chunkOverlap : Nat) :
    CodeChunker :=
  ⟨language, maxChunkSize, chunkOverlap⟩

/-- C6 counterexample: construction is not fail-fast across splitters.
`RecursiveChunker::with_overlap` accepts an overlap equal to (indeed, any
amount above) the max size without rejection, and `CodeChunker::new`
accepts a chunk size of zero (and an overlap above it); both invalid
configurations flow into the chunking call. -/
theorem construction_validation_counterexample :
    ((RecursiveChunker.new 10 [[' ']]).map
      (fun c => RecursiveChunker.withOverlap c 10)) =
      some ⟨10, 10, [[' ']]⟩ ∧
    ((RecursiveChunker.new 10 [[' ']]).map
      (fun c => RecursiveChunker.withOverlap c 99)) =
      some ⟨10, 99, [[' ']]⟩ ∧
    CodeChunker.new CodeLanguage.rust 0 5 =
      ⟨CodeLanguage.rust, 0, 5⟩ := by
  refine ⟨by decide, by decide, rfl⟩

/-- C6 amended: `FixedChunker::new`, `RecursiveChunker::new` and
`SentenceChunker::new` do fail fast (characterized exactly by their
asserts), but `RecursiveChunker::with_overlap` performs no validation at
all — it stores any overlap, including one at or above the max size — and
`CodeChunker::new` is total, accepting any size/overlap including zero
size. -/
theorem construction_validation_amended :
    (∀ size overlap : Nat,
      (FixedChunker.new size overlap).isSome ↔ (0 < size ∧ overlap < size)) ∧
    (∀ (m : Nat) (seps : List (List Char)),
      (RecursiveChunker.new m seps).isSome ↔ (0 < m ∧ seps ≠ [])) ∧
    (∀ n : Nat, (SentenceChunker.new n).isSome ↔ 0 < n) ∧
    (∀ (c : RecursiveChunker) (o : Nat),
      (RecursiveChunker.withOverlap c o).maxSize = c.maxSize ∧
      (RecursiveChunker.withOverlap c o).overlap = o ∧
      (RecursiveChunker.withOverlap c o).separators = c.separators) ∧
    (∀ (lang : CodeLanguage) (ms co : Nat),
      CodeChunker.new lang ms co = ⟨lang, ms, co⟩) := by
  refine ⟨?_, ?_, ?_, ?_, ?_⟩
  · intro size overlap
    unfold FixedChunker.new
    constructor
    · intro h
      by_cases h1 : size = 0
      · rw [if_pos h1] at h; simp at h
      · rw [if_neg h1] at h
        by_cases h2 : size ≤ overlap
        · rw [if_pos h2] at h; simp at h
        · exact ⟨Nat.pos_of_ne_zero h1, Nat.lt_of_not_le h2⟩
    · intro ⟨h1, h2⟩
      rw [if_neg (Nat.pos_iff_ne_zero.mp h1), if_neg (Nat.not_le_of_lt h2)]
      rfl
  · intro m seps
    unfold RecursiveChunker.new
    constructor
    · intro h
      by_cases h1 : m = 0
      · rw [if_pos h1] at h; simp at h
      · rw [if_neg h1] at h
        by_cases h2 : seps = []
        · rw [if_pos h2] at h; simp at h
        · exact ⟨Nat.pos_of_ne_zero h1, h2⟩
    · intro ⟨h1, h2⟩
      rw [if_neg (Nat.pos_iff_ne_zero.mp h1), if_neg h2]
      rfl
  · intro n
    unfold SentenceChunker.new
    constructor
    · intro h
      by_cases h1 : n = 0
      · rw [if_pos h1] at h; simp at h
      · exact Nat.pos_of_ne_zero h1
    · intro h1
      rw [if_neg (Nat.pos_iff_ne_zero.mp h1)]
      rfl
  · intro c o
    exact ⟨rfl, rfl, rfl⟩
  · intro lang ms co
    rfl

/- ### ChunkCapacity (src/capacity.rs) -/

structure ChunkCapacity where
  desired : Nat
  max : Nat
deriving Repr, DecidableEq

inductive ChunkCapacityError where
  | maxLessThanDesired (desired max : Nat)
deriving Repr, DecidableEq

/-- `ChunkCapacity::new` — fixed capacity, desired = max. -/
def ChunkCapacity.new (size : Nat) : ChunkCapacity :=
  ⟨size, size⟩

/-- `ChunkCapacity::with_max` — errors iff `max < desired`. -/
def ChunkCapacity.withMax (c : ChunkCapacity) (max : Nat) :
    Except ChunkCapacityError ChunkCapacity :=
  if max < c.desired then
    .error (.maxLessThanDesired c.desired max)
  else
    .ok ⟨c.desired, max⟩

/-- `From<Range<usize>> for ChunkCapacity`:
`desired = range.start`, `max = range.end.saturating_sub(1).max(range.start)`. -/
def ChunkCapacity.fromRange (start stop : Nat) : ChunkCapacity :=
  ⟨start, Nat.max (stop - 1) start⟩

/-- `From<RangeInclusive<usize>> for ChunkCapacity` — no check at all. -/
def ChunkCapacity.fromRangeInclusive (start stop : Nat) : ChunkCapacity :=
  ⟨start, stop⟩

/-- C7 counterexample: not every construction path rejects `max < desired`.
The `RangeInclusive` conversion happily builds `desired = 100, max = 50`
with no error, and the `Range` conversion for `5..3` silently clamps the
max up to the desired value instead of failing. -/
theorem capacity_range_counterexample :
    ChunkCapacity.fromRangeInclusive 100 50 = ⟨100, 50⟩ ∧
    (ChunkCapacity.fromRangeInclusive 100 50).max <
      (ChunkCapacity.fromRangeInclusive 100 50).desired ∧
    ChunkCapacity.fromRange 5 3 = ⟨5, 5⟩ ∧
    (⟨5, 5⟩ : ChunkCapacity).max = (⟨5, 5⟩ : ChunkCapacity).desired := by
  refine ⟨rfl, by decide, by decide, rfl⟩

/-- C7 amended: only `with_max` validates — it errors exactly when
`max < desired`.  The `Range` conversion never fails: it clamps the max up
to `desired` whenever the range would demand `max < desired`.  The
`RangeInclusive` conversion copies both endpoints unchecked, so it can
construct a capacity with `max < desired`. -/
theorem capacity_validation_amended :
    (∀ (c : ChunkCapacity) (m : Nat),
      (∃ e, ChunkCapacity.withMax c m = .error e) ↔ m < c.desired) ∧
    (∀ (c : ChunkCapacity) (m : Nat), c.desired ≤ m →
      ChunkCapacity.withMax c m = .ok ⟨c.desired, m⟩) ∧
    (∀ a b : Nat,
      (ChunkCapacity.fromRange a b).desired = a ∧
      (ChunkCapacity.fromRange a b).max = Nat.max (b - 1) a ∧
      (ChunkCapacity.fromRange a b).desired ≤ (ChunkCapacity.fromRange a b).max) ∧
    (∀ a b : Nat, ChunkCapacity.fromRangeInclusive a b = ⟨a, b⟩) := by
  refine ⟨?_, ?_, ?_, ?_⟩
  · intro c m
    unfold ChunkCapacity.withMax
    constructor
    · intro ⟨e, he⟩
      by_cases h : m < c.desired
      · exact h
      · rw [if_neg h] at he; exact absurd he (by simp)
    · intro h
      rw [if_pos h]
      exact ⟨_, rfl⟩
  · intro c m h
    unfold ChunkCapacity.withMax
    rw [if_neg (Nat.not_lt_of_le h)]
  · intro a b
    exact ⟨rfl, rfl, Nat.le_max_right _ _⟩
  · intro a b
    rfl

/-- Witness for the amended C7 theorem at concrete inputs. -/
theorem capacity_validation_amended_witness :
    ChunkCapacity.withMax ⟨500, 500⟩ 600 = .ok ⟨500, 600⟩ := by
  exact capacity_validation_amended.2.1 ⟨500, 500⟩ 600 (by decide)

/- ### LateChunkingPooler (src/late.rs) -/

structure LateChunkingPooler where
  dim : Nat
deriving Repr, DecidableEq

/-- `mean_pool` and `mean_pool_refs` (their bodies are identical): sum the
embeddings per dimension, divide by the count, then L2-normalize with the
division guarded by `norm > 1e-9`.  `f32` values are modelled as reals;
the embeddings are assumed dimension-consistent (the source documents a
panic otherwise). -/
noncomputable def LateChunkingPooler.meanPool (p : LateChunkingPooler)
    (embeddings : List (List ℝ)) : List ℝ :=
  match embeddings with
  | [] => List.replicate p.dim 0
  | e0 :: _ =>
    let summed := embeddings.foldl
      (fun acc emb => List.zipWith (fun a v => a + v) acc emb)
      (List.replicate e0.length 0)
    let result := summed.map (fun v => v / (embeddings.length : ℝ))
    let norm := Real.sqrt ((result.map (fun x => x * x)).sum)
    if norm > 1e-9 then result.map (fun v => v / norm) else result

/-- The index-carrying loop behind `pool_with_offsets`'s token selection
(`.iter().enumerate().filter(...).map(|(i, _)| i)`): the indices of the
tokens whose byte span overlaps the chunk
(`*start < chunk.end && *end > chunk.start`). -/
def overlapSelectionGo (tokenOffsets : List (Nat × Nat)) (i : Nat)
    (chunk : Slab) : List Nat :=
  match tokenOffsets with
  | [] => []
  | (s, e) :: rest =>
      if s < chunk.stop ∧ chunk.start < e then
        i :: overlapSelectionGo rest (i + 1) chunk
      else
        overlapSelectionGo rest (i + 1) chunk

def overlapSelection (tokenOffsets : List (Nat × Nat)) (chunk : Slab) :
    List Nat :=
  overlapSelectionGo tokenOffsets 0 chunk

/-- `LateChunkingPooler::pool_with_offsets`. -/
noncomputable def LateChunkingPooler.poolWithOffsets (p : LateChunkingPooler)
    (tokenEmbeddings : List (List ℝ)) (tokenOffsets : List (Nat × Nat))
    (chunks : List Slab) : List (List ℝ) :=
  if tokenEmbeddings = [] ∨ chunks = [] then
    List.replicate chunks.length (List.replicate p.dim 0)
  else
    chunks.map (fun chunk =>
      let tokenIndices := overlapSelection tokenOffsets chunk
      if tokenIndices = [] then p.meanPool tokenEmbeddings
      else p.meanPool (tokenIndices.filterMap (fun i => tokenEmbeddings[i]?)))

/-- Spec-side reading of C9's exact mode: for EVERY chunk — including one
that no token span overlaps — pool exactly the tokens whose span overlaps
the chunk, pairing each token's offset with its embedding. -/
noncomputable def specPoolExact (p : LateChunkingPooler)
    (tokenEmbeddings : List (List ℝ)) (tokenOffsets : List (Nat × Nat))
    (chunks : List Slab) : List (List ℝ) :=
  chunks.map (fun chunk =>
    p.meanPool ((tokenOffsets.zip tokenEmbeddings).filterMap
      (fun q => if q.1.1 < chunk.stop ∧ chunk.start < q.1.2 then some q.2
        else none)))

theorem overlapSelectionGo_succ (tokenOffsets : List (Nat × Nat)) (ch : Slab) :
    ∀ i : Nat, overlapSelectionGo tokenOffsets (i + 1) ch =
      (overlapSelectionGo tokenOffsets i ch).map (fun j => j + 1) := by
  induction tokenOffsets with
  | nil => intro i; rfl
  | cons o os ih =>
      intro i
      rcases o with ⟨s, e⟩
      show (if s < ch.stop ∧ ch.start < e then
          (i + 1) :: overlapSelectionGo os (i + 1 + 1) ch
        else overlapSelectionGo os (i + 1 + 1) ch) =
        (if s < ch.stop ∧ ch.start < e then
          i :: overlapSelectionGo os (i + 1) ch
        else overlapSelectionGo os (i + 1) ch).map (fun j => j + 1)
      by_cases h : s < ch.stop ∧ ch.start < e
      · rw [if_pos h, if_pos h, List.map_cons, ih (i + 1)]
      · rw [if_neg h, if_neg h, ih (i + 1)]

/-- The source's index-based selection (`filter_map(|&i| …get(i))`) agrees
with pairing offsets and embeddings directly: both skip positions past the
shorter list. -/
theorem overlapSelection_zip (tokenOffsets : List (Nat × Nat))
    (embs : List (List ℝ)) (ch : Slab) :
    (overlapSelection tokenOffsets ch).filterMap (fun i => embs[i]?) =
      (tokenOffsets.zip embs).filterMap
        (fun q => if q.1.1 < ch.stop ∧ ch.start < q.1.2 then some q.2
          else none) := by
  unfold overlapSelection
  induction tokenOffsets generalizing embs with
  | nil =>
      show List.filterMap _ [] = List.filterMap _ ([].zip embs)
      rw [List.zip_nil_left]
      rfl
  | cons o os ih =>
      rcases o with ⟨s, e⟩
      cases embs with
      | nil =>
          rw [List.zip_nil_right]
          simp [List.filterMap_eq_nil_iff]
      | cons v vs =>
          show ((if s < ch.stop ∧ ch.start < e then
              0 :: overlapSelectionGo os 1 ch
            else overlapSelectionGo os 1 ch).filterMap
              (fun i => (v :: vs)[i]?)) = _
          rw [List.zip_cons_cons]
          by_cases h : s < ch.stop ∧ ch.start < e
          · rw [if_pos h, List.filterMap_cons]
            have h0 : ((v :: vs)[(0 : Nat)]?) = some v := by simp
            rw [h0]
            rw [show overlapSelectionGo os 1 ch =
              (overlapSelectionGo os 0 ch).map (fun j => j + 1) from
              overlapSelectionGo_succ os ch 0]
            rw [List.filterMap_map]
            have hcomp :
                ((fun i => (v :: vs)[i]?) ∘ (fun j => j + 1)) =
                  (fun i => vs[i]?) := by
              funext j
              simp
            rw [hcomp, ih vs, List.filterMap_cons, if_pos h]
          · rw [if_neg h, List.filterMap_cons, if_neg h]
            rw [show overlapSelectionGo os 1 ch =
              (overlapSelectionGo os 0 ch).map (fun j => j + 1) from
              overlapSelectionGo_succ os ch 0]
            rw [List.filterMap_map]
            have hcomp :
                ((fun i => (v :: vs)[i]?) ∘ (fun j => j + 1)) =
                  (fun i => vs[i]?) := by
              funext j
              simp
            rw [hcomp, ih vs]

theorem meanPool_single_unit :
    LateChunkingPooler.meanPool ⟨2⟩ [[(1 : ℝ), 0]] = [1, 0] := by
  unfold LateChunkingPooler.meanPool
  norm_num [Real.sqrt_one, List.replicate_succ, List.replicate_zero,
    List.zipWith_cons_cons, List.map_cons, List.map_nil, List.sum_cons,
    List.sum_nil]

theorem meanPool_empty (p : LateChunkingPooler) :
    p.meanPool [] = List.replicate p.dim 0 := by
  unfold LateChunkingPooler.meanPool
  rfl

/-- C9 counterexample: a chunk that no token span overlaps is NOT pooled
from "exactly those tokens" (which would be the empty selection, giving
the zero vector): `pool_with_offsets` falls back to the L2-normalized mean
of ALL token embeddings.  One token at bytes `[0,1)`, one chunk at bytes
`[5,6)`: no overlap, yet the chunk's pooled vector equals the lone token's
embedding instead of the zero vector. -/
theorem pool_exact_fallback_counterexample :
    overlapSelection [(0, 1)] ⟨[], 5, 6, 0⟩ = [] ∧
    LateChunkingPooler.poolWithOffsets ⟨2⟩ [[(1 : ℝ), 0]] [(0, 1)]
      [⟨[], 5, 6, 0⟩] = [[1, 0]] ∧
    specPoolExact ⟨2⟩ [[(1 : ℝ), 0]] [(0, 1)] [⟨[], 5, 6, 0⟩] = [[0, 0]] ∧
    ([[(1 : ℝ), 0]] ≠ ([[0, 0]] : List (List ℝ))) := by
  have hsel : overlapSelection [(0, 1)] (⟨[], 5, 6, 0⟩ : Slab) = [] := by
    decide
  refine ⟨hsel, ?_, ?_, by norm_num⟩
  · unfold LateChunkingPooler.poolWithOffsets
    rw [if_neg (by simp)]
    rw [List.map_cons, List.map_nil]
    show (if overlapSelection [(0, 1)] (⟨[], 5, 6, 0⟩ : Slab) = [] then
        LateChunkingPooler.meanPool ⟨2⟩ [[(1 : ℝ), 0]]
      else LateChunkingPooler.meanPool ⟨2⟩
        ((overlapSelection [(0, 1)] (⟨[], 5, 6, 0⟩ : Slab)).filterMap
          (fun i => [[(1 : ℝ), 0]][i]?))) :: [] = [[1, 0]]
    rw [if_pos hsel, meanPool_single_unit]
  · unfold specPoolExact
    rw [List.map_cons, List.map_nil]
    show (LateChunkingPooler.meanPool ⟨2⟩
        (([(0, 1)].zip [[(1 : ℝ), 0]]).filterMap
          (fun q => if q.1.1 < (⟨[], 5, 6, 0⟩ : Slab).stop ∧
              (⟨[], 5, 6, 0⟩ : Slab).start < q.1.2 then some q.2
            else none))) :: [] = [[0, 0]]
    rw [show (([(0, 1)].zip [[(1 : ℝ), 0]]).filterMap
        (fun q => if q.1.1 < (⟨[], 5, 6, 0⟩ : Slab).stop ∧
            (⟨[], 5, 6, 0⟩ : Slab).start < q.1.2 then some q.2
          else none)) = ([] : List (List ℝ)) from by norm_num]
    rw [meanPool_empty]
    rfl

/-- C9 amended: when at least one token span overlaps the chunk, the pooled
vector is exactly the spec's — the L2-normalized per-dimension mean of
exactly the overlapping tokens' embeddings — but a chunk that NO token
span overlaps is instead pooled from ALL token embeddings (the
full-document mean fallback), not from the empty selection. -/
theorem pool_exact_amended (p : LateChunkingPooler)
    (tokenEmbeddings : List (List ℝ)) (tokenOffsets : List (Nat × Nat))
    (chunks : List Slab) (k : Nat) (chunk : Slab)
    (hne : tokenEmbeddings ≠ []) (hk : chunks[k]? = some chunk) :
    (overlapSelection tokenOffsets chunk ≠ [] →
      (p.poolWithOffsets tokenEmbeddings tokenOffsets chunks)[k]? =
        (specPoolExact p tokenEmbeddings tokenOffsets chunks)[k]?) ∧
    (overlapSelection tokenOffsets chunk = [] →
      (p.poolWithOffsets tokenEmbeddings tokenOffsets chunks)[k]? =
        some (p.meanPool tokenEmbeddings)) := by
  have hch : chunks ≠ [] := by
    intro h
    subst h
    simp at hk
  have hguard : ¬(tokenEmbeddings = [] ∨ chunks = []) := by
    push_neg
    exact ⟨hne, hch⟩
  constructor
  · intro hsel
    unfold LateChunkingPooler.poolWithOffsets specPoolExact
    rw [if_neg hguard, List.getElem?_map, List.getElem?_map, hk,
      Option.map_some', Option.map_some']
    congr 1
    show (if overlapSelection tokenOffsets chunk = [] then
        p.meanPool tokenEmbeddings
      else p.meanPool ((overlapSelection tokenOffsets chunk).filterMap
        (fun i => tokenEmbeddings[i]?))) =
      p.meanPool ((tokenOffsets.zip tokenEmbeddings).filterMap
        (fun q => if q.1.1 < chunk.stop ∧ chunk.start < q.1.2 then some q.2
          else none))
    rw [if_neg hsel, overlapSelection_zip]
  · intro hsel
    unfold LateChunkingPooler.poolWithOffsets
    rw [if_neg hguard, List.getElem?_map, hk, Option.map_some']
    congr 1
    show (if overlapSelection tokenOffsets chunk = [] then
        p.meanPool tokenEmbeddings
      else p.meanPool ((overlapSelection tokenOffsets chunk).filterMap
        (fun i => tokenEmbeddings[i]?))) = p.meanPool tokenEmbeddings
    rw [if_pos hsel]

/- ### Relocating byte slices (slices of slices) -/

/-- Dropping a prefix's bytes plus `k` more passes over the prefix. -/
theorem dropBytes_append_add (a b : List Char) (k : Nat) :
    dropBytes (a ++ b) (utf8Len a + k) = dropBytes b k := by
  induction a with
  | nil => simp [utf8Len_nil]
  | cons c cs ih =>
      simp only [List.cons_append, dropBytes, utf8Len_cons]
      rw [if_pos (by omega)]
      have harg : c.utf8Size + utf8Len cs + k - c.utf8Size = utf8Len cs + k := by
        omega
      rw [harg]
      exact ih

/-- A boundary of a middle layer, shifted by the prefix length, is a
boundary of the whole. -/
theorem isBoundary_shift {w : List Char} {a : Nat} (x v : List Char)
    (hw : isBoundary w a = true) :
    isBoundary (x ++ w ++ v) (utf8Len x + a) = true := by
  rw [List.append_assoc, isBoundary_append_iff]
  obtain ⟨p, q, hpq, hlen⟩ :
      ∃ p q, w = p ++ q ∧ utf8Len p = a :=
    ⟨takeBytes w a, dropBytes w a, (takeBytes_append_dropBytes w a).symm,
      takeBytes_of_isBoundary hw⟩
  rw [hpq, ← hlen, List.append_assoc]
  exact isBoundary_append_left p (q ++ v)

/-- A byte slice of a middle layer, relocated by the prefix length, is the
same slice of the whole. -/
theorem byteSlice_shift {w : List Char} {a b : Nat} (x v : List Char)
    (ha : isBoundary w a = true) (hb : isBoundary w b = true) (hab : a ≤ b) :
    byteSlice (x ++ w ++ v) (utf8Len x + a) (utf8Len x + b) = byteSlice w a b := by
  obtain ⟨p, q, r, hdec, hp, hq, hslice, hda, hdb⟩ := slice_decomp ha hb hab
  have hx : x ++ w ++ v = (x ++ p) ++ q ++ (r ++ v) := by
    rw [hdec]
    simp [List.append_assoc]
  have hxa : utf8Len x + a = utf8Len (x ++ p) := by
    rw [utf8Len_append, hp]
  have hxb : utf8Len x + b = utf8Len (x ++ p) + utf8Len q := by
    rw [utf8Len_append, hp, hq]
    omega
  rw [hx, hxa, hxb, byteSlice_middle, hslice]

/- ### Zero-overlap recursive chunks are exactly adjacent -/

/-- With `overlap = 0` and fragments within `max_size`, the overlap
adjustment in `RecursiveChunker::chunk` is the identity: the chunk starts
exactly at the cursor. -/
theorem adjStart_zero_overlap {c : RecursiveChunker} {t : List Char}
    {cursor L : Nat} (hov : c.overlap = 0) (hmax : L ≤ c.maxSize)
    (hcb : isBoundary t cursor = true) :
    adjStart c t cursor (cursor + L) = cursor := by
  unfold adjStart
  rw [hov]
  rw [if_neg (by omega)]
  simp only [Nat.sub_zero]
  exact snapDown_boundary_fix hcb

/-- With `overlap = 0`, consecutive chunks of `RecursiveChunker::chunk` are
exactly adjacent: each chunk starts at the cursor (the previous chunk's
end). -/
theorem buildGo_adjacent (c : RecursiveChunker) (t : List Char)
    (hov : c.overlap = 0) :
    ∀ (frags : List (List Char)) (pre : List Char) (cursor index : Nat),
      cursor = utf8Len pre →
      t = pre ++ concatAll frags →
      (∀ f ∈ frags, f ≠ [] ∧ utf8Len f ≤ c.maxSize) →
      List.Chain' (fun a b => a.stop = b.start) (buildGo c t frags cursor index) ∧
      (∀ sl ∈ (buildGo c t frags cursor index).head?, sl.start = cursor) := by
  intro frags
  induction frags with
  | nil =>
      intro pre cursor index _ _ _
      constructor <;> simp [buildGo]
  | cons f fs ih =>
      intro pre cursor index hcur hdec hfr
      have hf := hfr f (List.mem_cons_self f fs)
      have hcb : isBoundary t cursor = true := by
        rw [hdec, hcur]
        exact isBoundary_append_left pre _
      have hadj : adjStart c t cursor (cursor + utf8Len f) = cursor :=
        adjStart_zero_overlap hov hf.2 hcb
      have hdec2 : t = (pre ++ f) ++ concatAll fs := by
        rw [hdec]
        simp [concatAll]
      obtain ⟨ihc, ihh⟩ := ih (pre ++ f) (cursor + utf8Len f) (index + 1)
        (by rw [utf8Len_append, hcur]) hdec2
        (fun g hg => hfr g (List.mem_cons_of_mem f hg))
      rw [show buildGo c t (f :: fs) cursor index =
        ⟨byteSlice t (adjStart c t cursor (cursor + utf8Len f))
            (cursor + utf8Len f),
          adjStart c t cursor (cursor + utf8Len f), cursor + utf8Len f, index⟩ ::
          buildGo c t fs (cursor + utf8Len f) (index + 1) from rfl]
      constructor
      · rw [List.chain'_cons']
        refine ⟨?_, ihc⟩
        intro y hy
        have := ihh y hy
        simp only [this]
      · intro sl hsl
        simp only [List.head?_cons, Option.mem_def, Option.some.injEq] at hsl
        subst hsl
        simp only [hadj]

/-- With `overlap = 0`, `RecursiveChunker::chunk`'s slabs are exactly
adjacent and start at `0`. -/
theorem recursive_chunk_adjacent {c : RecursiveChunker} {t : List Char}
    {slabs : List Slab} (hov : c.overlap = 0)
    (h : RecursiveChunker.chunk c t = some slabs) :
    List.Chain' (fun a b => a.stop = b.start) slabs ∧
    (∀ sl ∈ slabs.head?, sl.start = 0) := by
  unfold RecursiveChunker.chunk at h
  by_cases ht : t = []
  · rw [if_pos ht] at h
    simp only [Option.some.injEq] at h
    subst h
    constructor <;> simp
  · rw [if_neg ht] at h
    cases hsp : splitRec c.maxSize c.separators t with
    | none => rw [hsp] at h; exact absurd h (by simp)
    | some frags =>
        rw [hsp] at h
        simp only [Option.map_some', Option.some.injEq] at h
        subst h
        have hcat := splitRec_concat c.separators t frags hsp
        have hbounds := splitRec_bounds c.separators t frags ht hsp
        exact buildGo_adjacent c t hov frags [] 0 0 (by simp [utf8Len_nil])
          (by simp [hcat]) hbounds

/-- Witness for the amended C9 theorem: one token at `[0,1)`, one chunk at
`[0,1)` — the selection is non-empty, and the pooled vector agrees with
the spec-side pooling. -/
theorem pool_exact_amended_witness :
    (overlapSelection [(0, 1)] ⟨[], 0, 1, 0⟩ ≠ [] →
      (LateChunkingPooler.poolWithOffsets ⟨2⟩ [[(1 : ℝ), 0]] [(0, 1)]
          [⟨[], 0, 1, 0⟩])[0]? =
        (specPoolExact ⟨2⟩ [[(1 : ℝ), 0]] [(0, 1)] [⟨[], 0, 1, 0⟩])[0]?) ∧
    (overlapSelection [(0, 1)] ⟨[], 0, 1, 0⟩ = [] →
      (LateChunkingPooler.poolWithOffsets ⟨2⟩ [[(1 : ℝ), 0]] [(0, 1)]
          [⟨[], 0, 1, 0⟩])[0]? =
        some (LateChunkingPooler.meanPool ⟨2⟩ [[(1 : ℝ), 0]])) :=
  pool_exact_amended ⟨2⟩ [[(1 : ℝ), 0]] [(0, 1)] [⟨[], 0, 1, 0⟩] 0
    ⟨[], 0, 1, 0⟩ (List.cons_ne_nil _ _) (by simp)

/- ### Sentence spans in the presence of whitespace-only segments

The segmenter may emit whitespace-only segments (UAX #29 rule SB4 breaks
after every line feed); `SentenceChunker::chunk` filters them out, which
makes the windows non-contiguous in the source.  The emitted spans are
still always valid; the stored text, in general, is not the source slice
(see the counterexample). -/

theorem trimStartL_ne_nil {X : List Char} (h : trimL X ≠ []) :
    trimStartL X ≠ [] := by
  intro hc
  apply h
  unfold trimL
  rw [hc]
  rfl

theorem trimEndL_ne_nil {X : List Char} (h : trimL X ≠ []) :
    trimEndL X ≠ [] := by
  intro hc
  apply h
  have h2 : X.reverse.dropWhile isWS = [] := by
    unfold trimEndL at hc
    have h3 := congrArg List.reverse hc
    rw [List.reverse_reverse] at h3
    simpa using h3
  have hall : ∀ c ∈ X, isWS c = true := by
    intro c hcX
    exact List.dropWhile_eq_nil_iff.mp h2 c (by simpa using hcX)
  have hstart : trimStartL X = [] := by
    unfold trimStartL
    exact List.dropWhile_eq_nil_iff.mpr hall
  unfold trimL
  rw [hstart]
  rfl

theorem trimStartL_append {X : List Char} (Y : List Char)
    (hX : trimStartL X ≠ []) :
    trimStartL (X ++ Y) = trimStartL X ++ Y := by
  unfold trimStartL at *
  rw [List.dropWhile_append]
  have hne : ¬ (X.dropWhile isWS).isEmpty = true := by
    intro hc
    exact hX (List.isEmpty_iff.mp hc)
  rw [if_neg hne]

/-- A list is a whitespace prefix followed by its trimmed-start part. -/
theorem trimStartL_decomp (X : List Char) :
    ∃ W, X = W ++ trimStartL X ∧
      utf8Len W = utf8Len X - utf8Len (trimStartL X) ∧
      utf8Len (trimStartL X) ≤ utf8Len X := by
  have hx : X = X.takeWhile isWS ++ trimStartL X := by
    unfold trimStartL
    rw [List.takeWhile_append_dropWhile]
  have hlen : utf8Len X =
      utf8Len (X.takeWhile isWS) + utf8Len (trimStartL X) := by
    conv_lhs => rw [hx]
    rw [utf8Len_append]
  exact ⟨X.takeWhile isWS, hx, by omega, by omega⟩

/-- Each offset-paired segment occurs in the concatenation at its offset. -/
theorem withOffsets_occ :
    ∀ (segs : List (List Char)) (off : Nat) (p : Nat × List Char),
      p ∈ withOffsets segs off →
      ∃ sA sB, segs = sA ++ p.2 :: sB ∧ p.1 = off + utf8Len (concatAll sA) := by
  intro segs
  induction segs with
  | nil => intro off p hp; simp [withOffsets] at hp
  | cons s ss ih =>
      intro off p hp
      rw [show withOffsets (s :: ss) off =
        (off, s) :: withOffsets ss (off + utf8Len s) from rfl] at hp
      rcases List.mem_cons.mp hp with h1 | h2
      · subst h1
        exact ⟨[], ss, rfl, by simp [concatAll, utf8Len_nil]⟩
      · obtain ⟨sA, sB, hseg, hoff⟩ := ih (off + utf8Len s) p h2
        refine ⟨s :: sA, sB, by rw [hseg]; rfl, ?_⟩
        rw [hoff]
        simp only [concatAll, utf8Len_append]
        omega

theorem withOffsets_lower :
    ∀ (segs : List (List Char)) (off : Nat) (p : Nat × List Char),
      p ∈ withOffsets segs off → off ≤ p.1 := by
  intro segs
  induction segs with
  | nil => intro off p hp; simp [withOffsets] at hp
  | cons s ss ih =>
      intro off p hp
      rw [show withOffsets (s :: ss) off =
        (off, s) :: withOffsets ss (off + utf8Len s) from rfl] at hp
      rcases List.mem_cons.mp hp with h1 | h2
      · subst h1; exact Nat.le_refl off
      · have := ih (off + utf8Len s) p h2
        omega

/-- The offset-paired segments are pairwise ordered: each segment ends at
or before any later segment's offset. -/
theorem withOffsets_pairwise (segs : List (List Char)) (off : Nat) :
    List.Pairwise (fun p q : Nat × List Char => p.1 + utf8Len p.2 ≤ q.1)
      (withOffsets segs off) := by
  induction segs generalizing off with
  | nil => exact List.Pairwise.nil
  | cons s ss ih =>
      rw [show withOffsets (s :: ss) off =
        (off, s) :: withOffsets ss (off + utf8Len s) from rfl]
      refine List.Pairwise.cons ?_ (ih (off + utf8Len s))
      intro q hq
      exact withOffsets_lower ss (off + utf8Len s) q hq

theorem getLast_opt_decomp {α : Type} :
    ∀ {l : List α} {a : α}, l.getLast? = some a → ∃ m, l = m ++ [a] := by
  intro l
  induction l with
  | nil => intro a h; simp at h
  | cons x l2 ih =>
      intro a h
      cases l2 with
      | nil =>
          simp only [List.getLast?_singleton, Option.some.injEq] at h
          exact ⟨[], by rw [h]; rfl⟩
      | cons y ys =>
          rw [List.getLast?_cons_cons] at h
          obtain ⟨m, hm⟩ := ih h
          exact ⟨x :: m, by rw [hm]; rfl⟩

/-- Span validity of each slab the sentence-window loop emits, when each
pair of each window is a correctly positioned occurrence with non-empty
trimmed text, and each window's pairs are in order; the windows need NOT
be contiguous in the source. -/
theorem sentenceSlabsGo_span (t : List Char) :
    ∀ (groups : List (List (Nat × List Char))) (index : Nat),
      (∀ g ∈ groups, ∀ p ∈ g,
        (∃ A B, t = A ++ p.2 ++ B ∧ utf8Len A = p.1) ∧ trimL p.2 ≠ []) →
      (∀ g ∈ groups,
        List.Pairwise (fun p q : Nat × List Char => p.1 + utf8Len p.2 ≤ q.1) g) →
      ∀ sl ∈ sentenceSlabsGo groups index, ValidSpan t sl := by
  intro groups
  induction groups with
  | nil => intro index _ _ sl hsl; simp [sentenceSlabsGo] at hsl
  | cons g gs ih =>
      intro index hocc hord sl hsl
      have hocc2 := fun g2 hg2 => hocc g2 (List.mem_cons_of_mem g hg2)
      have hord2 := fun g2 hg2 => hord g2 (List.mem_cons_of_mem g hg2)
      rw [show sentenceSlabsGo (g :: gs) index =
        (let start := (g.head?.map Prod.fst).getD 0
         let e := (g.getLast?.map (fun p => p.1 + utf8Len p.2)).getD start
         let chunkText := concatAll (g.map Prod.snd)
         let trimmed := trimL chunkText
         if trimmed = [] then sentenceSlabsGo gs index
         else
           ⟨trimmed,
             start + (utf8Len chunkText - utf8Len (trimStartL chunkText)),
             e - (utf8Len chunkText - utf8Len (trimEndL chunkText)),
             index⟩ :: sentenceSlabsGo gs (index + 1)) from rfl] at hsl
      simp only at hsl
      by_cases htr : trimL (concatAll (g.map Prod.snd)) = []
      · rw [if_pos htr] at hsl
        exact ih index hocc2 hord2 sl hsl
      · rw [if_neg htr] at hsl
        rcases List.mem_cons.mp hsl with h1 | h2
        · -- the emitted slab of this window
          subst h1
          cases g with
          | nil => exact absurd rfl htr
          | cons pf rest =>
            obtain ⟨⟨A, B, hAB, hAlen⟩, hkf⟩ :=
              hocc (pf :: rest) (List.mem_cons_self _ _) pf (List.mem_cons_self _ _)
            -- the head: start adjustment stays inside the first segment
            have hsf : trimStartL pf.2 ≠ [] := trimStartL_ne_nil hkf
            have hJ : concatAll ((pf :: rest).map Prod.snd) =
                pf.2 ++ concatAll (rest.map Prod.snd) := rfl
            have htsJ : trimStartL (concatAll ((pf :: rest).map Prod.snd)) =
                trimStartL pf.2 ++ concatAll (rest.map Prod.snd) := by
              rw [hJ]
              exact trimStartL_append _ hsf
            obtain ⟨W, hW, hWlen, hWle⟩ := trimStartL_decomp pf.2
            have hlead : utf8Len (concatAll ((pf :: rest).map Prod.snd)) -
                utf8Len (trimStartL (concatAll ((pf :: rest).map Prod.snd))) =
                utf8Len W := by
              rw [htsJ, hJ, utf8Len_append, utf8Len_append]
              omega
            have hstart0 : ((pf :: rest).head?.map Prod.fst).getD 0 = pf.1 := rfl
            -- the last pair
            obtain ⟨pl, hpl⟩ : ∃ pl, (pf :: rest).getLast? = some pl := by
              cases hc : (pf :: rest).getLast? with
              | none => rw [List.getLast?_eq_none_iff] at hc; exact absurd hc (by simp)
              | some q => exact ⟨q, rfl⟩
            have hplmem : pl ∈ pf :: rest := mem_of_getLast_opt hpl
            obtain ⟨⟨C, D, hCD, hClen⟩, hkl⟩ :=
              hocc (pf :: rest) (List.mem_cons_self _ _) pl hplmem
            have hel : trimEndL pl.2 ≠ [] := trimEndL_ne_nil hkl
            obtain ⟨minit, hminit⟩ := getLast_opt_decomp hpl
            have hJ2 : concatAll ((pf :: rest).map Prod.snd) =
                concatAll (minit.map Prod.snd) ++ pl.2 := by
              rw [hminit, List.map_append, concatAll_append]
              simp [concatAll]
            have hteJ : trimEndL (concatAll ((pf :: rest).map Prod.snd)) =
                concatAll (minit.map Prod.snd) ++ trimEndL pl.2 := by
              rw [hJ2]
              exact trimEndL_append _ hel
            obtain ⟨S, hS⟩ := trimEndL_decomp pl.2
            have hSlen : utf8Len pl.2 =
                utf8Len (trimEndL pl.2) + utf8Len S := by
              conv_lhs => rw [hS]
              rw [utf8Len_append]
            have htrail : utf8Len (concatAll ((pf :: rest).map Prod.snd)) -
                utf8Len (trimEndL (concatAll ((pf :: rest).map Prod.snd))) =
                utf8Len S := by
              rw [hteJ, hJ2, utf8Len_append, utf8Len_append]
              omega
            have hend0 : (((pf :: rest).getLast?.map
                (fun p => p.1 + utf8Len p.2)).getD pf.1) =
                pl.1 + utf8Len pl.2 := by
              rw [hpl]
              rfl
            rw [hstart0, hend0, hlead, htrail]
            -- the three span facts
            have hbs : isBoundary t (pf.1 + utf8Len W) = true := by
              have ht2 : t = (A ++ W) ++ (trimStartL pf.2 ++ B) := by
                rw [hAB]
                conv_lhs => rw [hW]
                simp [List.append_assoc]
              rw [ht2, show pf.1 + utf8Len W = utf8Len (A ++ W) from by
                rw [utf8Len_append, hAlen]]
              exact isBoundary_append_left _ _
            have hbe : isBoundary t (pl.1 + utf8Len pl.2 - utf8Len S) = true := by
              have ht3 : t = (C ++ trimEndL pl.2) ++ (S ++ D) := by
                rw [hCD]
                conv_lhs => rw [hS]
                simp [List.append_assoc]
              rw [show pl.1 + utf8Len pl.2 - utf8Len S =
                utf8Len (C ++ trimEndL pl.2) from by
                rw [utf8Len_append, hClen]
                omega]
              rw [ht3]
              exact isBoundary_append_left _ _
            have hstop_le : pl.1 + utf8Len pl.2 - utf8Len S ≤ utf8Len t := by
              have : utf8Len t = utf8Len C + utf8Len pl.2 + utf8Len D := by
                rw [hCD]
                simp [utf8Len_append]
                omega
              omega
            have hss : pf.1 + utf8Len W ≤ pl.1 + utf8Len pl.2 - utf8Len S := by
              cases rest with
              | nil =>
                  -- a single pair: pl = pf
                  have hpf : pl = pf := by
                    simp only [List.getLast?_singleton, Option.some.injEq] at hpl
                    exact hpl.symm
                  subst hpf
                  obtain ⟨P, S2, _, hP2, hS2, htot2⟩ := trim_decomp hkf
                  have hWP : utf8Len W = utf8Len pl.2 - utf8Len (trimStartL pl.2) :=
                    hWlen
                  have htrne : 0 < utf8Len (trimL pl.2) :=
                    utf8Len_pos_of_ne_nil hkf
                  omega
              | cons r rs =>
                  have hplrest : pl ∈ r :: rs := by
                    rw [List.getLast?_cons_cons] at hpl
                    exact mem_of_getLast_opt hpl
                  have hrel := (List.pairwise_cons.mp
                    (hord (pf :: r :: rs) (List.mem_cons_self _ _))).1 pl hplrest
                  omega
            exact ⟨hbs, hbe, hss, hstop_le⟩
        · exact ih (index + 1) hocc2 hord2 sl h2

/-- Span validity for `SentenceChunker::chunk` assuming only that the
segmenter's output concatenates to the input — whitespace-only segments
(which the chunker filters out) are allowed. -/
theorem sentence_chunk_span (c : SentenceChunker) (segs : List (List Char))
    (t : List Char) (hjoin : concatAll segs = t) :
    ∀ sl ∈ SentenceChunker.chunk c segs t, ValidSpan t sl := by
  intro sl hsl
  unfold SentenceChunker.chunk at hsl
  split at hsl
  · simp at hsl
  · split at hsl
    · simp at hsl
    · split at hsl
      · simp at hsl
      · refine sentenceSlabsGo_span t _ 0 ?_ ?_ sl hsl
        · intro g hg p hp
          have hpL : p ∈ (withOffsets segs 0).filter
              (fun p => !(trimL p.2).isEmpty) := by
            have := chunksOf_flatten c.sentencesPerChunk
              ((withOffsets segs 0).filter (fun p => !(trimL p.2).isEmpty))
            rw [← this]
            exact List.mem_flatten.mpr ⟨g, hg, hp⟩
          obtain ⟨hpw, hpk⟩ := List.mem_filter.mp hpL
          constructor
          · obtain ⟨sA, sB, hseg, hoff⟩ := withOffsets_occ segs 0 p hpw
            refine ⟨concatAll sA, concatAll sB, ?_, by omega⟩
            rw [← hjoin, hseg, concatAll_append]
            simp [concatAll]
          · intro hc
            rw [hc] at hpk
            simp at hpk
        · intro g hg
          obtain ⟨X, Y, hXY⟩ := List.append_of_mem hg
          have hflat := chunksOf_flatten c.sentencesPerChunk
            ((withOffsets segs 0).filter (fun p => !(trimL p.2).isEmpty))
          rw [hXY, List.flatten_append, List.flatten_cons] at hflat
          have hsub : List.Sublist g ((withOffsets segs 0).filter
              (fun p => !(trimL p.2).isEmpty)) := by
            rw [← hflat]
            exact (List.sublist_append_left g Y.flatten).trans
              (List.sublist_append_right X.flatten (g ++ Y.flatten))
          exact List.Pairwise.sublist hsub
            (List.Pairwise.filter _ (withOffsets_pairwise segs 0))

/- ### CodeChunker::chunk (src/code.rs)

The tree-sitter parse is the external capability: the tree is supplied as
an argument (a failed `set_language`/`parse` returns `vec![]` before any
of the code below runs).  Only the byte spans and the child lists of the
nodes are read by `collect_leafs`. -/

/-- A tree-sitter syntax node, abstracted to what `collect_leafs` reads:
the byte span and the children. -/
inductive TSTree where
  | node (startByte stopByte : Nat) (children : List TSTree)

def TSTree.startByte : TSTree → Nat
  | .node s _ _ => s

def TSTree.stopByte : TSTree → Nat
  | .node _ e _ => e

/-- A gap between consecutive children (or before/after them) becomes an
atomic chunk when its text is not whitespace-only. -/
def gapSlab (t : List Char) (a b : Nat) : List Slab :=
  if a < b ∧ trimL (byteSlice t a b) ≠ [] then [⟨byteSlice t a b, a, b, 0⟩]
  else []

/-- The child loop of `collect_leafs`: interleave each child's collected
chunks with the gap chunks, walking `last_end` through the child spans,
and close with the trailing gap up to the parent's end. -/
def assembleChildren (t : List Char) :
    List (List Slab × Nat × Nat) → Nat → Nat → List Slab
  | [], lastEnd, parentEnd => gapSlab t lastEnd parentEnd
  | (piece, cs, ce) :: rest, lastEnd, parentEnd =>
      gapSlab t lastEnd cs ++ piece ++ assembleChildren t rest ce parentEnd

/-- `CodeChunker::collect_leafs`: a node that fits is one atomic chunk; an
oversized node with children is decomposed child by child with gap chunks;
an oversized leaf falls back to zero-overlap recursive text chunking of the
leaf's slice, its sub-chunks relocated by the leaf's start (`none`
propagates the recursive chunker's construction assert and divergence,
both reachable from here). -/
def collectLeafs (c : CodeChunker) (t : List Char) : TSTree → Option (List Slab)
  | .node s e children =>
    if e - s ≤ c.maxChunkSize then
      some [⟨byteSlice t s e, s, e, 0⟩]
    else
      match children with
      | [] =>
          match RecursiveChunker.new c.maxChunkSize
              [['\n', '\n'], ['\n'], [' '], []] with
          | none => none
          | some rc =>
              match (rc.withOverlap 0).chunk (byteSlice t s e) with
              | none => none
              | some subs =>
                  some (subs.map (fun sl =>
                    ⟨sl.text, s + sl.start, s + sl.stop, 0⟩))
      | ch :: chs =>
          match (ch :: chs).attach.mapM
              (fun child => collectLeafs c t child.1) with
          | none => none
          | some pieces =>
              some (assembleChildren t
                (pieces.zip ((ch :: chs).map
                  (fun child => (child.startByte, child.stopByte)))) s e)
decreasing_by
  simp only [TSTree.node.sizeOf_spec, List.cons.sizeOf_spec]
  have h := List.sizeOf_lt_of_mem child.2
  simp only [List.cons.sizeOf_spec] at h
  omega

/-- Stable insertion of a chunk after every chunk starting at or before it;
`sortByStart` is then a model of the stable `sort_by_key(|c| c.start)`. -/
def insertSlab : List Slab → Slab → List Slab
  | [], a => [a]
  | b :: bs, a =>
      if b.start ≤ a.start then b :: insertSlab bs a else a :: b :: bs

def sortByStart (l : List Slab) : List Slab := l.foldl insertSlab []

/-- The backwards walk of the overlap logic in `CodeChunker::chunk`: over
the already processed atomic chunks in reverse order, collect (in forward
order) the trailing chunks that fit in the overlap budget, taking the most
recent chunk even when it alone exceeds the budget. -/
def overlapWalk (ov : Nat) : List Slab → Nat → Nat → List Slab → List Slab
  | [], _, _, acc => acc
  | p :: ps, nextStart, size, acc =>
      if ov < size + utf8Len p.text + (nextStart - p.stop) then
        (if acc = [] then [p] else acc)
      else
        overlapWalk ov ps p.start
          (size + utf8Len p.text + (nextStart - p.stop)) (p :: acc)

/-- The overlap-logic re-seeding of `current_text`/`current_start`/
`current_end` after a slab is emitted: walk the processed chunks
backwards, and when the walk is non-empty restart the accumulator with
the source text from the first overlap chunk's start to the last overlap
chunk's end. -/
def emitReseed (c : CodeChunker) (t : List Char) (prev : List Slab)
    (aStart curEnd : Nat) : List Char × Nat × Nat :=
  if 0 < c.chunkOverlap then
    match overlapWalk c.chunkOverlap prev aStart 0 [] with
    | [] => (([] : List Char), aStart, curEnd)
    | f :: ovr =>
        let l := (f :: ovr).getLast (by simp)
        (byteSlice t f.start l.stop, f.start, l.stop)
  else (([] : List Char), aStart, curEnd)

/-- The merge loop of `CodeChunker::chunk` over the sorted atomic chunks:
accumulate `current_text` (gap-filled from the source), emit a slab when
the next atomic chunk would overflow `max_chunk_size`, and re-seed the
accumulator from the overlap walk.  `prev` holds the already processed
atomic chunks, most recent first. -/
def mergeGo (c : CodeChunker) (t : List Char) :
    List Slab → List Slab → List Slab → List Char → Nat → Nat → List Slab
  | [], _, slabs, curText, curStart, curEnd =>
      if curText = [] then slabs
      else slabs ++ [⟨curText, curStart, curEnd, slabs.length⟩]
  | a :: rest, prev, slabs, curText, curStart, curEnd =>
      let gap := if curEnd < a.start then byteSlice t curEnd a.start else []
      let added := utf8Len gap + utf8Len a.text
      if curText ≠ [] ∧ c.maxChunkSize < utf8Len curText + added then
        let slabs2 := slabs ++ [⟨curText, curStart, curEnd, slabs.length⟩]
        let st := emitReseed c t prev a.start curEnd
        let cs2 := if st.1 = [] then a.start else st.2.1
        let ct2 := (if st.1 = [] then st.1 else st.1 ++ gap) ++ a.text
        mergeGo c t rest (a :: prev) slabs2 ct2 cs2 a.stop
      else
        let cs2 := if curText = [] then a.start else curStart
        let ct2 := (if curText = [] then curText else curText ++ gap) ++ a.text
        mergeGo c t rest (a :: prev) slabs ct2 cs2 a.stop

/-- `CodeChunker::chunk` (`<CodeChunker as Chunker>::chunk`), with the
parse tree supplied as the external capability.  The initial
`current_start` reads the first atomic chunk before the sort, as the
source does. -/
def CodeChunker.chunk (c : CodeChunker) (t : List Char) (tree : TSTree) :
    Option (List Slab) :=
  match collectLeafs c t tree with
  | none => none
  | some atoms =>
      let cs0 := ((atoms.head?).map (fun a => a.start)).getD 0
      some (mergeGo c t (sortByStart atoms) [] [] [] cs0 cs0)

/-- Well-formedness of a parse tree over `t`: every node's span is a valid
boundary pair within the document and each node's children lie inside the
node, in order and pairwise disjoint.  Tree-sitter trees over valid UTF-8
satisfy this (the source's `&code[start_byte..end_byte]` would panic
otherwise). -/
inductive TSTree.WF (t : List Char) : TSTree → Prop where
  | node (s e : Nat) (children : List TSTree) :
      isBoundary t s = true → isBoundary t e = true → s ≤ e → e ≤ utf8Len t →
      (∀ p ∈ children.head?, s ≤ TSTree.startByte p) →
      List.Chain' (fun x y => TSTree.stopByte x ≤ TSTree.startByte y) children →
      (∀ p ∈ children.getLast?, TSTree.stopByte p ≤ e) →
      (∀ ch ∈ children, TSTree.WF t ch) →
      TSTree.WF t (.node s e children)

theorem TSTree.WF.facts {t : List Char} {tree : TSTree} (h : TSTree.WF t tree) :
    isBoundary t tree.startByte = true ∧ isBoundary t tree.stopByte = true ∧
    tree.startByte ≤ tree.stopByte ∧ tree.stopByte ≤ utf8Len t := by
  cases h with
  | node s e children hbs hbe hse hel _ _ _ _ => exact ⟨hbs, hbe, hse, hel⟩

/-- `Option`-monadic `mapM` succeeds exactly pointwise. -/
theorem mapM_some_forall2 {α β : Type} (f : α → Option β) :
    ∀ (l : List α) (r : List β), l.mapM f = some r →
      List.Forall₂ (fun a b => f a = some b) l r := by
  intro l
  induction l with
  | nil =>
      intro r h
      rw [List.mapM_nil] at h
      simp only [pure, Option.some.injEq] at h
      subst h
      exact List.Forall₂.nil
  | cons a l2 ih =>
      intro r h
      rw [List.mapM_cons] at h
      cases hfa : f a with
      | none => rw [hfa] at h; exact absurd h (by simp)
      | some b =>
          rw [hfa] at h
          cases hrec : l2.mapM f with
          | none => rw [hrec] at h; exact absurd h (by simp)
          | some bs =>
              rw [hrec] at h
              have h2 : some (b :: bs) = some r := h
              simp only [Option.some.injEq] at h2
              subst h2
              exact List.Forall₂.cons hfa (ih bs hrec)

theorem forall2_imp_mem {α β : Type} {R S : α → β → Prop} :
    ∀ {l : List α} {r : List β}, List.Forall₂ R l r →
      (∀ a ∈ l, ∀ b, R a b → S a b) → List.Forall₂ S l r := by
  intro l r h
  induction h with
  | nil => intro _; exact List.Forall₂.nil
  | cons hab _ ih =>
      intro himp
      refine List.Forall₂.cons
        (himp _ (List.mem_cons_self _ _) _ hab) (ih ?_)
      intro a ha b hr
      exact himp a (List.mem_cons_of_mem _ ha) b hr

/-- Every element of an in-order, disjoint child list ends at or before a
bound that the last child respects. -/
theorem chain_all_le {L : List TSTree}
    (hm : ∀ x ∈ L, TSTree.startByte x ≤ TSTree.stopByte x)
    (hc : List.Chain' (fun x y => TSTree.stopByte x ≤ TSTree.startByte y) L)
    {B : Nat} (hlast : ∀ p ∈ L.getLast?, TSTree.stopByte p ≤ B) :
    ∀ p ∈ L, TSTree.stopByte p ≤ B := by
  induction L with
  | nil => intro p hp; simp at hp
  | cons x rest ih =>
      intro p hp
      cases rest with
      | nil =>
          rcases List.mem_cons.mp hp with h1 | h1
          · subst h1
            exact hlast p (by simp)
          · simp at h1
      | cons r rs =>
          have hc2 : List.Chain'
              (fun x y => TSTree.stopByte x ≤ TSTree.startByte y) (r :: rs) :=
            (List.chain'_cons'.mp hc).2
          have hrec := ih (fun y hy => hm y (List.mem_cons_of_mem x hy)) hc2
            (by rw [← List.getLast?_cons_cons (l := rs)]; exact hlast)
          rcases List.mem_cons.mp hp with h1 | h1
          · subst h1
            have hxr : TSTree.stopByte p ≤ TSTree.startByte r :=
              (List.chain'_cons'.mp hc).1 r rfl
            have hr1 := hm r (by simp)
            have hr2 := hrec r (by simp)
            omega
          · exact hrec p h1

/-- In a disjoint-descending processed list, every start is at or before
the most recent element's start. -/
theorem desc_all_le {prev : List Slab}
    (hm : ∀ x ∈ prev, x.start ≤ x.stop)
    (hc : List.Chain' (fun x y => y.stop ≤ x.start) prev) :
    ∀ x ∈ prev, ∀ h0 ∈ prev.head?, x.start ≤ h0.start := by
  induction prev with
  | nil => intro x hx; simp at hx
  | cons p ps ih =>
      intro x hx h0 hh0
      simp only [List.head?_cons, Option.mem_def, Option.some.injEq] at hh0
      subst hh0
      rcases List.mem_cons.mp hx with h1 | h1
      · subst h1; exact Nat.le_refl _
      · cases ps with
        | nil => simp at h1
        | cons q qs =>
            have hqp : q.stop ≤ p.start := (List.chain'_cons'.mp hc).1 q rfl
            have hx2 := ih (fun y hy => hm y (List.mem_cons_of_mem p hy))
              (List.chain'_cons'.mp hc).2 x h1 q (by simp)
            have := hm q (by simp)
            omega

/-- Validity of the child loop of `collect_leafs`: each piece valid and
contained in its child's span, children in order inside
`[lastEnd, parentEnd]` — then the interleaved result is valid, disjoint
and contained in `[lastEnd, parentEnd]`. -/
theorem assemble_valid (t : List Char) :
    ∀ {children : List TSTree} {pieces : List (List Slab)},
      List.Forall₂ (fun (child : TSTree) (piece : List Slab) =>
        (∀ a ∈ piece, ValidSlab t a) ∧
        List.Chain' (fun a b => a.stop ≤ b.start) piece ∧
        (∀ a ∈ piece, child.startByte ≤ a.start ∧ a.stop ≤ child.stopByte))
        children pieces →
      ∀ (lastEnd parentEnd : Nat),
      (∀ ch ∈ children, isBoundary t ch.startByte = true ∧
        isBoundary t ch.stopByte = true ∧
        TSTree.startByte ch ≤ TSTree.stopByte ch ∧
        TSTree.stopByte ch ≤ parentEnd) →
      (∀ p ∈ children.head?, lastEnd ≤ TSTree.startByte p) →
      List.Chain' (fun x y => TSTree.stopByte x ≤ TSTree.startByte y) children →
      isBoundary t lastEnd = true → isBoundary t parentEnd = true →
      parentEnd ≤ utf8Len t → lastEnd ≤ parentEnd →
      (∀ a ∈ assembleChildren t
          (pieces.zip (children.map
            (fun ch => (TSTree.startByte ch, TSTree.stopByte ch))))
          lastEnd parentEnd,
        ValidSlab t a ∧ lastEnd ≤ a.start ∧ a.stop ≤ parentEnd) ∧
      List.Chain' (fun a b => a.stop ≤ b.start)
        (assembleChildren t
          (pieces.zip (children.map
            (fun ch => (TSTree.startByte ch, TSTree.stopByte ch))))
          lastEnd parentEnd) := by
  intro children pieces hf2
  induction hf2 with
  | nil =>
      intro lastEnd parentEnd _ _ _ hbl hbp hpl hle
      rw [show (([] : List (List Slab)).zip
        (([] : List TSTree).map
          (fun ch => (TSTree.startByte ch, TSTree.stopByte ch)))) =
        ([] : List (List Slab × Nat × Nat)) from rfl]
      rw [show assembleChildren t [] lastEnd parentEnd =
        gapSlab t lastEnd parentEnd from rfl]
      unfold gapSlab
      split
      · rename_i hcond
        constructor
        · intro a ha
          simp only [List.mem_singleton] at ha
          subst ha
          exact ⟨⟨rfl, hbl, hbp, Nat.le_of_lt hcond.1, hpl⟩,
            Nat.le_refl _, Nat.le_refl _⟩
        · simp
      · constructor
        · intro a ha; simp at ha
        · simp
  | cons hcp htail ih =>
      rename_i child piece children2 pieces2
      intro lastEnd parentEnd hch hhead hchain hbl hbp hpl hle
      obtain ⟨hpv, hpc, hpb⟩ := hcp
      obtain ⟨hcb1, hcb2, hcse, hcpe⟩ := hch child (List.mem_cons_self _ _)
      have hlcs : lastEnd ≤ TSTree.startByte child := hhead child rfl
      have hch2 := fun x hx => hch x (List.mem_cons_of_mem child hx)
      have hhead2 : ∀ p ∈ children2.head?,
          TSTree.stopByte child ≤ TSTree.startByte p :=
        (List.chain'_cons'.mp hchain).1
      have hchain2 := (List.chain'_cons'.mp hchain).2
      have hstep : ((piece :: pieces2).zip ((child :: children2).map
          (fun ch => (TSTree.startByte ch, TSTree.stopByte ch)))) =
          (piece, TSTree.startByte child, TSTree.stopByte child) ::
            (pieces2.zip (children2.map
              (fun ch => (TSTree.startByte ch, TSTree.stopByte ch)))) := rfl
      rw [hstep]
      rw [show assembleChildren t
          ((piece, TSTree.startByte child, TSTree.stopByte child) ::
            (pieces2.zip (children2.map
              (fun ch => (TSTree.startByte ch, TSTree.stopByte ch)))))
          lastEnd parentEnd =
        gapSlab t lastEnd (TSTree.startByte child) ++ piece ++
          assembleChildren t
            (pieces2.zip (children2.map
              (fun ch => (TSTree.startByte ch, TSTree.stopByte ch))))
            (TSTree.stopByte child) parentEnd from rfl]
      obtain ⟨ihm, ihc⟩ := ih (TSTree.stopByte child) parentEnd hch2 hhead2
        hchain2 hcb2 hbp hpl hcpe
      -- facts about each of the three parts
      have hgapm : ∀ a ∈ gapSlab t lastEnd (TSTree.startByte child),
          ValidSlab t a ∧ lastEnd ≤ a.start ∧
          a.stop ≤ TSTree.startByte child := by
        intro a ha
        unfold gapSlab at ha
        split at ha
        · rename_i hcond
          simp only [List.mem_singleton] at ha
          subst ha
          have hcsl : TSTree.startByte child ≤ utf8Len t := by omega
          exact ⟨⟨rfl, hbl, hcb1, Nat.le_of_lt hcond.1, hcsl⟩,
            Nat.le_refl _, Nat.le_refl _⟩
        · simp at ha
      have hpm : ∀ a ∈ piece, ValidSlab t a ∧
          TSTree.startByte child ≤ a.start ∧
          a.stop ≤ TSTree.stopByte child := by
        intro a ha
        exact ⟨hpv a ha, (hpb a ha).1, (hpb a ha).2⟩
      constructor
      · intro a ha
        rw [List.append_assoc] at ha
        rcases List.mem_append.mp ha with h1 | h23
        · obtain ⟨hv, hl, hr⟩ := hgapm a h1
          exact ⟨hv, hl, by omega⟩
        · rcases List.mem_append.mp h23 with h2 | h3
          · obtain ⟨hv, hl, hr⟩ := hpm a h2
            exact ⟨hv, by omega, by omega⟩
          · obtain ⟨hv, hl, hr⟩ := ihm a h3
            exact ⟨hv, by omega, hr⟩
      · -- chain across the three parts
        have hgc : List.Chain' (fun a b => a.stop ≤ b.start)
            (gapSlab t lastEnd (TSTree.startByte child)) := by
          unfold gapSlab
          split
          · simp
          · simp
        refine List.Chain'.append (List.Chain'.append hgc hpc ?_) ihc ?_
        · intro x hx y hy
          have hxm := hgapm x (mem_of_getLast_opt hx)
          have hym := hpm y (List.mem_of_mem_head? hy)
          omega
        · intro x hx y hy
          rcases List.mem_append.mp (mem_of_getLast_opt hx) with h1 | h2
          · have hxm := hgapm x h1
            have hym := ihm y (List.mem_of_mem_head? hy)
            omega
          · have hxm := hpm x h2
            have hym := ihm y (List.mem_of_mem_head? hy)
            omega

/-- Validity of `collect_leafs` on a well-formed tree: the atomic chunks
are valid slabs, pairwise disjoint in order, and contained in the node's
span. -/
theorem collectLeafs_valid (c : CodeChunker) (t : List Char) :
    ∀ {tree : TSTree}, TSTree.WF t tree →
      ∀ {atoms : List Slab}, collectLeafs c t tree = some atoms →
        (∀ a ∈ atoms, ValidSlab t a ∧
          tree.startByte ≤ a.start ∧ a.stop ≤ tree.stopByte) ∧
        List.Chain' (fun a b => a.stop ≤ b.start) atoms := by
  intro tree hwf
  induction hwf with
  | node s e children hbs hbe hse hel hhead hchain hlast hall ih =>
      intro atoms h
      unfold collectLeafs at h
      by_cases hfit : e - s ≤ c.maxChunkSize
      · rw [if_pos hfit] at h
        simp only [Option.some.injEq] at h
        subst h
        constructor
        · intro a ha
          simp only [List.mem_singleton] at ha
          subst ha
          exact ⟨⟨rfl, hbs, hbe, hse, hel⟩, Nat.le_refl _, Nat.le_refl _⟩
        · simp
      · rw [if_neg hfit] at h
        cases children with
        | nil =>
            have h2 : (match RecursiveChunker.new c.maxChunkSize
                [['\n', '\n'], ['\n'], [' '], []] with
              | none => none
              | some rc =>
                  match (rc.withOverlap 0).chunk (byteSlice t s e) with
                  | none => none
                  | some subs =>
                      some (subs.map (fun sl =>
                        (⟨sl.text, s + sl.start, s + sl.stop, 0⟩ : Slab)))) =
                some atoms := h
            cases hnew : RecursiveChunker.new c.maxChunkSize
                [['\n', '\n'], ['\n'], [' '], []] with
            | none => rw [hnew] at h2; exact absurd h2 (by simp)
            | some rc =>
                rw [hnew] at h2
                have h3 : (match (rc.withOverlap 0).chunk (byteSlice t s e) with
                  | none => none
                  | some subs =>
                      some (subs.map (fun sl =>
                        (⟨sl.text, s + sl.start, s + sl.stop, 0⟩ : Slab)))) =
                    some atoms := h2
                cases hck : (rc.withOverlap 0).chunk (byteSlice t s e) with
                | none => rw [hck] at h3; exact absurd h3 (by simp)
                | some subs =>
                    rw [hck] at h3
                    simp only [Option.some.injEq] at h3
                    subst h3
                    have hvr := recursive_chunk_valid hck
                    have hadj := recursive_chunk_adjacent rfl hck
                    obtain ⟨x, w, v, hdec, hx, hwlen, hslice, _, _⟩ :=
                      slice_decomp hbs hbe hse
                    rw [hslice] at hvr
                    constructor
                    · intro a ha
                      obtain ⟨sub, hsub, hmap⟩ := List.mem_map.mp ha
                      subst hmap
                      obtain ⟨⟨htx, hsb1, hsb2, hso, hsl⟩, _⟩ := hvr sub hsub
                      have hlen : utf8Len t =
                          utf8Len x + utf8Len w + utf8Len v := by
                        rw [hdec]
                        simp only [utf8Len_append]
                      refine ⟨⟨?_, ?_, ?_, ?_, ?_⟩, ?_, ?_⟩
                      · show sub.text =
                          byteSlice t (s + sub.start) (s + sub.stop)
                        rw [htx, hdec, show s + sub.start =
                          utf8Len x + sub.start from by omega,
                          show s + sub.stop = utf8Len x + sub.stop from by
                            omega]
                        exact (byteSlice_shift x v hsb1 hsb2 hso).symm
                      · show isBoundary t (s + sub.start) = true
                        rw [hdec, show s + sub.start =
                          utf8Len x + sub.start from by omega]
                        exact isBoundary_shift x v hsb1
                      · show isBoundary t (s + sub.stop) = true
                        rw [hdec, show s + sub.stop =
                          utf8Len x + sub.stop from by omega]
                        exact isBoundary_shift x v hsb2
                      · show s + sub.start ≤ s + sub.stop
                        omega
                      · show s + sub.stop ≤ utf8Len t
                        omega
                      · show s ≤ s + sub.start
                        omega
                      · show s + sub.stop ≤ e
                        omega
                    · rw [List.chain'_map]
                      refine List.Chain'.imp ?_ hadj.1
                      intro a b hab
                      show s + a.stop ≤ s + b.start
                      omega
        | cons ch chs =>
            have h2 : (match (ch :: chs).attach.mapM
                (fun child => collectLeafs c t child.1) with
              | none => none
              | some pieces =>
                  some (assembleChildren t
                    (pieces.zip ((ch :: chs).map
                      (fun child => (child.startByte, child.stopByte)))) s e)) =
                some atoms := h
            cases hm : (ch :: chs).attach.mapM
                (fun child => collectLeafs c t child.1) with
            | none => rw [hm] at h2; exact absurd h2 (by simp)
            | some pieces =>
                rw [hm] at h2
                simp only [Option.some.injEq] at h2
                subst h2
                have hf2 := mapM_some_forall2 _ _ _ hm
                have hf3 : List.Forall₂
                    (fun (a : TSTree) b => collectLeafs c t a = some b)
                    (ch :: chs) pieces := by
                  have hmapped : List.Forall₂
                      (fun (a : TSTree) b => collectLeafs c t a = some b)
                      ((ch :: chs).attach.map Subtype.val) pieces :=
                    List.forall₂_map_left_iff.mpr hf2
                  rwa [List.attach_map_subtype_val] at hmapped
                have hbundle : List.Forall₂
                    (fun (child : TSTree) (piece : List Slab) =>
                      (∀ a ∈ piece, ValidSlab t a) ∧
                      List.Chain' (fun a b => a.stop ≤ b.start) piece ∧
                      (∀ a ∈ piece, child.startByte ≤ a.start ∧
                        a.stop ≤ child.stopByte)) (ch :: chs) pieces := by
                  refine forall2_imp_mem hf3 ?_
                  intro child hchild piece hcp
                  obtain ⟨hm1, hm2⟩ := ih child hchild hcp
                  exact ⟨fun a ha => (hm1 a ha).1, hm2,
                    fun a ha => ⟨(hm1 a ha).2.1, (hm1 a ha).2.2⟩⟩
                have hchfacts : ∀ x ∈ ch :: chs,
                    isBoundary t x.startByte = true ∧
                    isBoundary t x.stopByte = true ∧
                    TSTree.startByte x ≤ TSTree.stopByte x ∧
                    TSTree.stopByte x ≤ e := by
                  intro x hx
                  obtain ⟨hb1, hb2, hb3, _⟩ := (hall x hx).facts
                  refine ⟨hb1, hb2, hb3, ?_⟩
                  exact chain_all_le
                    (fun y hy => ((hall y hy).facts).2.2.1) hchain hlast x hx
                exact assemble_valid t hbundle s e hchfacts hhead hchain
                  hbs hbe hel hse

/-- Chained disjointness plus per-chunk ordering gives pairwise
disjointness. -/
theorem chain_disj_pairwise {l : List Slab}
    (hm : ∀ x ∈ l, x.start ≤ x.stop)
    (hc : List.Chain' (fun a b => a.stop ≤ b.start) l) :
    List.Pairwise (fun a b => a.stop ≤ b.start) l := by
  induction l with
  | nil => exact List.Pairwise.nil
  | cons x rest ih =>
      have hrest := ih (fun y hy => hm y (List.mem_cons_of_mem x hy))
        (List.chain'_cons'.mp hc).2
      refine List.Pairwise.cons ?_ hrest
      intro y hy
      -- x.stop ≤ start of rest's head ≤ ... ≤ y.start
      cases rest with
      | nil => simp at hy
      | cons r rs =>
          have hxr : x.stop ≤ r.start := (List.chain'_cons'.mp hc).1 r rfl
          rcases List.mem_cons.mp hy with h1 | h1
          · subst h1; exact hxr
          · have hr := hm r (by simp)
            have hpair := List.pairwise_cons.mp hrest
            have := hpair.1 y h1
            omega

theorem insertSlab_append :
    ∀ (acc : List Slab) (a : Slab), (∀ b ∈ acc, b.start ≤ a.start) →
      insertSlab acc a = acc ++ [a] := by
  intro acc
  induction acc with
  | nil => intro a _; rfl
  | cons b bs ih =>
      intro a h
      show (if b.start ≤ a.start then b :: insertSlab bs a
        else a :: b :: bs) = (b :: bs) ++ [a]
      rw [if_pos (h b (List.mem_cons_self _ _))]
      rw [ih a (fun x hx => h x (List.mem_cons_of_mem b hx))]
      rfl

/-- The stable sort leaves an already sorted list unchanged. -/
theorem sortByStart_sorted {l : List Slab}
    (h : List.Pairwise (fun a b => a.start ≤ b.start) l) :
    sortByStart l = l := by
  have haux : ∀ (l2 : List Slab) (acc : List Slab),
      (∀ b ∈ acc, ∀ x ∈ l2, b.start ≤ x.start) →
      List.Pairwise (fun a b => a.start ≤ b.start) l2 →
      l2.foldl insertSlab acc = acc ++ l2 := by
    intro l2
    induction l2 with
    | nil => intro acc _ _; simp
    | cons x xs ih =>
        intro acc hacc hp
        rw [List.foldl_cons]
        rw [insertSlab_append acc x
          (fun b hb => hacc b hb x (List.mem_cons_self _ _))]
        rw [ih (acc ++ [x]) ?_ (List.pairwise_cons.mp hp).2]
        · simp
        · intro b hb y hy
          rcases List.mem_append.mp hb with h1 | h2
          · exact hacc b h1 y (List.mem_cons_of_mem x hy)
          · simp only [List.mem_singleton] at h2
            subst h2
            exact (List.pairwise_cons.mp hp).1 y hy
  exact haux l [] (by intro b hb; simp at hb) h

theorem overlapWalk_mem (ov : Nat) :
    ∀ (prev : List Slab) (ns size : Nat) (acc : List Slab) (x : Slab),
      x ∈ overlapWalk ov prev ns size acc → x ∈ prev ∨ x ∈ acc := by
  intro prev
  induction prev with
  | nil => intro ns size acc x hx; exact Or.inr hx
  | cons p ps ih =>
      intro ns size acc x hx
      rw [show overlapWalk ov (p :: ps) ns size acc =
        (if ov < size + utf8Len p.text + (ns - p.stop) then
          (if acc = [] then [p] else acc)
        else overlapWalk ov ps p.start
          (size + utf8Len p.text + (ns - p.stop)) (p :: acc)) from rfl] at hx
      split at hx
      · split at hx
        · simp only [List.mem_singleton] at hx
          subst hx
          exact Or.inl (List.mem_cons_self _ _)
        · exact Or.inr hx
      · rcases ih _ _ _ x hx with h1 | h2
        · exact Or.inl (List.mem_cons_of_mem p h1)
        · rcases List.mem_cons.mp h2 with h3 | h4
          · subst h3; exact Or.inl (List.mem_cons_self _ _)
          · exact Or.inr h4

theorem overlapWalk_getLast_acc (ov : Nat) :
    ∀ (prev : List Slab) (ns size : Nat) (acc : List Slab), acc ≠ [] →
      (overlapWalk ov prev ns size acc).getLast? = acc.getLast? := by
  intro prev
  induction prev with
  | nil => intro ns size acc _; rfl
  | cons p ps ih =>
      intro ns size acc hacc
      rw [show overlapWalk ov (p :: ps) ns size acc =
        (if ov < size + utf8Len p.text + (ns - p.stop) then
          (if acc = [] then [p] else acc)
        else overlapWalk ov ps p.start
          (size + utf8Len p.text + (ns - p.stop)) (p :: acc)) from rfl]
      split
      · rfl
      · rw [ih _ _ (p :: acc) (by simp)]
        cases acc with
        | nil => exact absurd rfl hacc
        | cons y ys => exact List.getLast?_cons_cons

/-- Started with an empty accumulator on a non-empty processed list, the
walk's last element is the most recent processed chunk. -/
theorem overlapWalk_getLast_nil (ov : Nat) (p : Slab) (ps : List Slab)
    (ns size : Nat) :
    (overlapWalk ov (p :: ps) ns size []).getLast? = some p := by
  rw [show overlapWalk ov (p :: ps) ns size [] =
    (if ov < size + utf8Len p.text + (ns - p.stop) then
      (if ([] : List Slab) = [] then [p] else [])
    else overlapWalk ov ps p.start
      (size + utf8Len p.text + (ns - p.stop)) [p]) from rfl]
  split
  · rw [if_pos rfl]
    rfl
  · rw [overlapWalk_getLast_acc ov ps p.start _ [p] (by simp)]
    rfl

/-- What the re-seeding step guarantees: either the accumulator restarts
empty at the next atomic chunk, or it restarts as the source slice from
some processed chunk's start up to the old `current_end`. -/
theorem emitReseed_spec (c : CodeChunker) (t : List Char) (prev : List Slab)
    (aStart curEnd : Nat)
    (hpv : ∀ p ∈ prev, ValidSlab t p)
    (hpc : List.Chain' (fun x y => y.stop ≤ x.start) prev)
    (hph : ∀ p ∈ prev.head?, p.stop = curEnd) :
    emitReseed c t prev aStart curEnd = ([], aStart, curEnd) ∨
    ∃ f, f ∈ prev ∧
      emitReseed c t prev aStart curEnd =
        (byteSlice t f.start curEnd, f.start, curEnd) ∧
      f.start ≤ curEnd ∧ isBoundary t f.start = true := by
  unfold emitReseed
  by_cases hov : 0 < c.chunkOverlap
  · rw [if_pos hov]
    cases hwalk : overlapWalk c.chunkOverlap prev aStart 0 [] with
    | nil => exact Or.inl rfl
    | cons f ovr =>
        cases prev with
        | nil =>
            rw [show overlapWalk c.chunkOverlap [] aStart 0 [] =
              [] from rfl] at hwalk
            exact absurd hwalk (by simp)
        | cons p ps =>
            have hlast := overlapWalk_getLast_nil c.chunkOverlap p ps aStart 0
            rw [hwalk] at hlast
            have hstop2 : ∀ (hne : (f :: ovr) ≠ []),
                ((f :: ovr).getLast hne).stop = curEnd := by
              intro hne
              rw [List.getLast?_eq_getLast (f :: ovr) hne] at hlast
              simp only [Option.some.injEq] at hlast
              rw [hlast]
              exact hph p rfl
            have hf : f ∈ p :: ps := by
              rcases overlapWalk_mem c.chunkOverlap (p :: ps) aStart 0 [] f
                (by rw [hwalk]; exact List.mem_cons_self _ _) with h1 | h2
              · exact h1
              · simp at h2
            refine Or.inr ⟨f, hf, ?_, ?_, ((hpv f hf).2.1)⟩
            · show (byteSlice t f.start ((f :: ovr).getLast (by simp)).stop,
                f.start, ((f :: ovr).getLast (by simp)).stop) =
                (byteSlice t f.start curEnd, f.start, curEnd)
              rw [hstop2]
            · have hfp : f.start ≤ p.start :=
                desc_all_le (fun x hx => (hpv x hx).2.2.2.1) hpc f hf p rfl
              have h1 := (hpv p (List.mem_cons_self _ _)).2.2.2.1
              have h2 : p.stop = curEnd := hph p rfl
              omega
  · rw [if_neg hov]
    exact Or.inl rfl

/-- The merge loop preserves validity: with valid, in-order, pairwise
disjoint atomic chunks and a valid accumulator state, every slab it
returns is a valid slab of `t`. -/
theorem mergeGo_valid (c : CodeChunker) (t : List Char) :
    ∀ (atoms prev slabs : List Slab) (curText : List Char)
      (curStart curEnd : Nat),
      (∀ a ∈ atoms, ValidSlab t a) →
      List.Chain' (fun a b => a.stop ≤ b.start) atoms →
      (∀ a ∈ atoms.head?, curEnd ≤ a.start) →
      curText = byteSlice t curStart curEnd →
      isBoundary t curStart = true → isBoundary t curEnd = true →
      curStart ≤ curEnd → curEnd ≤ utf8Len t →
      (∀ p ∈ prev, ValidSlab t p) →
      List.Chain' (fun x y => y.stop ≤ x.start) prev →
      (∀ p ∈ prev.head?, p.stop = curEnd) →
      (∀ s2 ∈ slabs, ValidSlab t s2) →
      ∀ s2 ∈ mergeGo c t atoms prev slabs curText curStart curEnd,
        ValidSlab t s2 := by
  intro atoms
  induction atoms with
  | nil =>
      intro prev slabs curText curStart curEnd _ _ _ hct hb1 hb2 hce hle
        _ _ _ hsv s2 hs2
      rw [show mergeGo c t [] prev slabs curText curStart curEnd =
        (if curText = [] then slabs
         else slabs ++ [⟨curText, curStart, curEnd, slabs.length⟩]) from
        rfl] at hs2
      split at hs2
      · exact hsv s2 hs2
      · rcases List.mem_append.mp hs2 with h1 | h2
        · exact hsv s2 h1
        · simp only [List.mem_singleton] at h2
          subst h2
          exact ⟨hct, hb1, hb2, hce, hle⟩
  | cons a rest ih =>
      intro prev slabs curText curStart curEnd hav hac hlow hct hb1 hb2 hce
        hle hpv hpc hph hsv s2 hs2
      obtain ⟨hA, hAb1, hAb2, hAse, hAsl⟩ := hav a (List.mem_cons_self _ _)
      have hlow1 : curEnd ≤ a.start := hlow a rfl
      have hgap : (if curEnd < a.start then byteSlice t curEnd a.start
          else []) = byteSlice t curEnd a.start := by
        split
        · rfl
        · rename_i hcnd
          have hEq : a.start = curEnd := by omega
          rw [hEq]
          exact (byteSlice_self_le (Nat.le_refl _)).symm
      have hav2 := fun x hx => hav x (List.mem_cons_of_mem a hx)
      have hac2 := (List.chain'_cons'.mp hac).2
      have hlow2 : ∀ b ∈ rest.head?, a.stop ≤ b.start :=
        (List.chain'_cons'.mp hac).1
      have hpv2 : ∀ p ∈ a :: prev, ValidSlab t p := by
        intro p hp
        rcases List.mem_cons.mp hp with h1 | h2
        · subst h1; exact ⟨hA, hAb1, hAb2, hAse, hAsl⟩
        · exact hpv p h2
      have hpc2 : List.Chain' (fun x y => y.stop ≤ x.start) (a :: prev) := by
        rw [List.chain'_cons']
        refine ⟨?_, hpc⟩
        intro y hy
        have := hph y hy
        omega
      have hph2 : ∀ p ∈ (a :: prev).head?, p.stop = a.stop := by
        intro p hp
        simp only [List.head?_cons, Option.mem_def, Option.some.injEq] at hp
        subst hp
        rfl
      have hsplice : ∀ f0 : Nat, isBoundary t f0 = true → f0 ≤ curEnd →
          byteSlice t f0 curEnd ++ byteSlice t curEnd a.start ++ a.text =
            byteSlice t f0 a.stop := by
        intro f0 hbf hfe
        rw [hA, List.append_assoc,
          byteSlice_append_byteSlice hb2 hAb1 hlow1 hAse,
          byteSlice_append_byteSlice hbf hb2 hfe (by omega)]
      have hnewslabs : ∀ x ∈ slabs ++
          [(⟨curText, curStart, curEnd, slabs.length⟩ : Slab)],
          ValidSlab t x := by
        intro x hx
        rcases List.mem_append.mp hx with h1 | h2
        · exact hsv x h1
        · simp only [List.mem_singleton] at h2
          subst h2
          exact ⟨hct, hb1, hb2, hce, hle⟩
      rw [show mergeGo c t (a :: rest) prev slabs curText curStart curEnd =
        (if curText ≠ [] ∧ c.maxChunkSize < utf8Len curText +
            (utf8Len (if curEnd < a.start then byteSlice t curEnd a.start
              else []) + utf8Len a.text) then
          mergeGo c t rest (a :: prev)
            (slabs ++ [⟨curText, curStart, curEnd, slabs.length⟩])
            ((if (emitReseed c t prev a.start curEnd).1 = []
              then (emitReseed c t prev a.start curEnd).1
              else (emitReseed c t prev a.start curEnd).1 ++
                (if curEnd < a.start then byteSlice t curEnd a.start
                  else [])) ++ a.text)
            (if (emitReseed c t prev a.start curEnd).1 = [] then a.start
             else (emitReseed c t prev a.start curEnd).2.1)
            a.stop
        else
          mergeGo c t rest (a :: prev) slabs
            ((if curText = [] then curText else curText ++
              (if curEnd < a.start then byteSlice t curEnd a.start
                else [])) ++ a.text)
            (if curText = [] then a.start else curStart)
            a.stop) from rfl] at hs2
      rw [hgap] at hs2
      split at hs2
      · -- emit, then re-seed
        rcases emitReseed_spec c t prev a.start curEnd hpv hpc hph with
          hres | ⟨f, hfmem, hres, hfle, hfb⟩
        · rw [hres] at hs2
          have hs3 : s2 ∈ mergeGo c t rest (a :: prev)
              (slabs ++ [⟨curText, curStart, curEnd, slabs.length⟩])
              a.text a.start a.stop := hs2
          exact ih (a :: prev) _ a.text a.start a.stop hav2 hac2 hlow2 hA
            hAb1 hAb2 hAse hAsl hpv2 hpc2 hph2 hnewslabs s2 hs3
        · rw [hres] at hs2
          have hs3 : s2 ∈ mergeGo c t rest (a :: prev)
              (slabs ++ [⟨curText, curStart, curEnd, slabs.length⟩])
              ((if byteSlice t f.start curEnd = []
                then byteSlice t f.start curEnd
                else byteSlice t f.start curEnd ++
                  byteSlice t curEnd a.start) ++ a.text)
              (if byteSlice t f.start curEnd = [] then a.start else f.start)
              a.stop := hs2
          by_cases hnil : byteSlice t f.start curEnd = []
          · rw [if_pos hnil, if_pos hnil, hnil, List.nil_append] at hs3
            exact ih (a :: prev) _ a.text a.start a.stop hav2 hac2 hlow2 hA
              hAb1 hAb2 hAse hAsl hpv2 hpc2 hph2 hnewslabs s2 hs3
          · rw [if_neg hnil, if_neg hnil] at hs3
            refine ih (a :: prev) _ _ f.start a.stop hav2 hac2 hlow2 ?_
              hfb hAb2 (by omega) hAsl hpv2 hpc2 hph2 hnewslabs s2 hs3
            rw [List.append_assoc]
            rw [← hsplice f.start hfb hfle]
            simp [List.append_assoc]
      · -- keep accumulating
        have hs3 : s2 ∈ mergeGo c t rest (a :: prev) slabs
            ((if curText = [] then curText else curText ++
              byteSlice t curEnd a.start) ++ a.text)
            (if curText = [] then a.start else curStart)
            a.stop := hs2
        by_cases hctn : curText = []
        · rw [if_pos hctn, if_pos hctn, hctn, List.nil_append] at hs3
          exact ih (a :: prev) _ a.text a.start a.stop hav2 hac2 hlow2 hA
            hAb1 hAb2 hAse hAsl hpv2 hpc2 hph2 hsv s2 hs3
        · rw [if_neg hctn, if_neg hctn] at hs3
          refine ih (a :: prev) _ _ curStart a.stop hav2 hac2 hlow2 ?_
            hb1 hAb2 (by omega) hAsl hpv2 hpc2 hph2 hsv s2 hs3
          rw [hct, List.append_assoc]
          rw [← hsplice curStart hb1 hce]
          simp [List.append_assoc]

/-- Validity of every chunk `CodeChunker::chunk` returns on a well-formed
parse tree: the spans are boundary pairs within the document and the
stored text is the source slice. -/
theorem code_chunk_valid (c : CodeChunker) (t : List Char) (tree : TSTree)
    (hwf : TSTree.WF t tree) {slabs : List Slab}
    (h : CodeChunker.chunk c t tree = some slabs) :
    ∀ sl ∈ slabs, ValidSlab t sl := by
  unfold CodeChunker.chunk at h
  cases hc : collectLeafs c t tree with
  | none => rw [hc] at h; exact absurd h (by simp)
  | some atoms =>
      rw [hc] at h
      simp only [Option.some.injEq] at h
      subst h
      obtain ⟨hmem, hchain⟩ := collectLeafs_valid c t hwf hc
      have hvalid : ∀ a ∈ atoms, ValidSlab t a := fun a ha => (hmem a ha).1
      have hsorted : sortByStart atoms = atoms := by
        apply sortByStart_sorted
        refine List.Pairwise.imp_of_mem ?_
          (chain_disj_pairwise (fun x hx => (hvalid x hx).2.2.2.1) hchain)
        intro x y hx hy hr
        have := (hvalid x hx).2.2.2.1
        omega
      rw [hsorted]
      intro sl hsl
      cases atoms with
      | nil =>
          have hnil : sl ∈ ([] : List Slab) := hsl
          simp at hnil
      | cons a0 as =>
          have hb0 : isBoundary t a0.start = true :=
            (hvalid a0 (List.mem_cons_self _ _)).2.1
          have hl0 : a0.start ≤ utf8Len t := by
            have h1 := (hvalid a0 (List.mem_cons_self _ _)).2.2.2.1
            have h2 := (hvalid a0 (List.mem_cons_self _ _)).2.2.2.2
            omega
          refine mergeGo_valid c t (a0 :: as) [] [] [] a0.start a0.start
            hvalid hchain ?_ ?_ hb0 hb0 (Nat.le_refl _) hl0 ?_ ?_ ?_ ?_ sl hsl
          · intro b hb
            simp only [List.head?_cons, Option.mem_def, Option.some.injEq] at hb
            subst hb
            exact Nat.le_refl _
          · exact (byteSlice_self_le (Nat.le_refl _)).symm
          · intro p hp; simp at hp
          · simp
          · intro p hp; simp at hp
          · intro x hx; simp at hx

/- ### The fixed splitter with zero overlap on arbitrary (multi-byte)
text: the windows stay in order, disjoint and within size -/

theorem fixedGo_disjoint (c : FixedChunker) (t : List Char)
    (hz : c.overlap = 0) :
    ∀ (fuel start index : Nat) (slabs : List Slab),
      isBoundary t start = true →
      fixedGo c t fuel start index = some slabs →
      (∀ sl ∈ slabs, start ≤ sl.start ∧ utf8Len sl.text ≤ c.size) ∧
      List.Chain' (fun a b => a.stop ≤ b.start) slabs := by
  have hstep : c.step = c.size := by
    unfold FixedChunker.step
    omega
  intro fuel
  induction fuel with
  | zero => intro start index slabs _ h; simp [fixedGo] at h
  | succ f ih =>
      intro start index slabs hb h
      simp only [fixedGo] at h
      by_cases h1 : start < utf8Len t
      · rw [if_pos h1] at h
        have hbe : isBoundary t
            (snapDown t (min (start + c.size) (utf8Len t))) = true :=
          isBoundary_snapDown t _
        have hemax : snapDown t (min (start + c.size) (utf8Len t)) ≤
            start + c.size := by
          have := snapDown_le t (min (start + c.size) (utf8Len t))
          omega
        have hone : ∀ sl ∈ (if start < snapDown t
              (min (start + c.size) (utf8Len t))
            then [Slab.mk (byteSlice t start
                (snapDown t (min (start + c.size) (utf8Len t))))
              start (snapDown t (min (start + c.size) (utf8Len t))) index]
            else []),
            start ≤ sl.start ∧ utf8Len sl.text ≤ c.size ∧
            sl.start = start ∧
            sl.stop = snapDown t (min (start + c.size) (utf8Len t)) := by
          split
          · rename_i hse
            intro sl hsl
            simp only [List.mem_singleton] at hsl
            subst hsl
            have hlen : utf8Len (byteSlice t start
                (snapDown t (min (start + c.size) (utf8Len t)))) =
                snapDown t (min (start + c.size) (utf8Len t)) - start :=
              utf8Len_byteSlice_of_boundaries hb hbe (by omega)
            refine ⟨Nat.le_refl _, ?_, rfl, rfl⟩
            show utf8Len (byteSlice t start
              (snapDown t (min (start + c.size) (utf8Len t)))) ≤ c.size
            omega
          · intro sl hsl
            simp at hsl
        split at h
        · simp only [Option.some.injEq] at h
          subst h
          constructor
          · intro sl hsl
            exact ⟨(hone sl hsl).1, (hone sl hsl).2.1⟩
          · split
            · simp
            · simp
        · rename_i hcont
          cases hrec : fixedGo c t f (snapUp t (start + c.step))
              (if start < snapDown t (min (start + c.size) (utf8Len t))
               then index + 1 else index) with
          | none => rw [hrec] at h; exact absurd h (by simp)
          | some slabs2 =>
              rw [hrec] at h
              simp only [Option.map_some', Option.some.injEq] at h
              subst h
              have hnslen : start + c.step ≤ utf8Len t := by
                push_neg at hcont
                omega
              have hbns : isBoundary t (snapUp t (start + c.step)) = true :=
                isBoundary_snapUp t _ hnslen
              have hnsge : start + c.size ≤ snapUp t (start + c.step) := by
                have := snapUp_ge t (start + c.step)
                omega
              obtain ⟨ih1, ih2⟩ := ih (snapUp t (start + c.step)) _ slabs2
                hbns hrec
              constructor
              · intro sl hsl
                rcases List.mem_append.mp hsl with h2 | h3
                · exact ⟨(hone sl h2).1, (hone sl h2).2.1⟩
                · have := (ih1 sl h3).1
                  exact ⟨by omega, (ih1 sl h3).2⟩
              · refine List.Chain'.append ?_ ih2 ?_
                · split
                  · simp
                  · simp
                · intro x hx y hy
                  have hx2 := hone x (mem_of_getLast_opt hx)
                  have hy2 := (ih1 y (List.mem_of_mem_head? hy)).1
                  omega
      · rw [if_neg h1] at h
        simp only [Option.some.injEq] at h
        subst h
        exact ⟨by intro sl hsl; simp at hsl, by simp⟩

/- ### Claim theorems C2 and C3 -/

/-- C2 amended: with `overlap = 0` and `size > 0`, the fixed splitter's
chunks are always pairwise disjoint in order and at most `size` bytes
each; and on non-empty text in which every character is one byte wide (so
neither boundary snap can fire), they are exactly adjacent, start at `0`,
end at the document byte length, and their byte lengths sum to the
document byte length — the full claimed property.  On multi-byte text the
adjacency, coverage and sum clauses fail: a character that straddles a
window boundary is silently skipped (see the counterexample; the
repository's own property tests restrict these assertions to ASCII). -/
theorem fixed_zero_overlap_amended (c : FixedChunker) (t : List Char)
    (hz : c.overlap = 0) (hs : 0 < c.size) :
    (∀ slabs, FixedChunker.chunk c t = some slabs →
      (∀ sl ∈ slabs, utf8Len sl.text ≤ c.size) ∧
      List.Chain' (fun a b => a.stop ≤ b.start) slabs) ∧
    ((∀ ch ∈ t, ch.utf8Size = 1) → t ≠ [] →
      ∃ slabs,
        FixedChunker.chunk c t = some slabs ∧
        (∀ p ∈ slabs.head?, p.start = 0) ∧
        List.Chain' (fun a b => a.stop = b.start) slabs ∧
        (∀ p ∈ slabs.getLast?, p.stop = utf8Len t) ∧
        (slabs.map (fun sl => utf8Len sl.text)).sum = utf8Len t ∧
        slabs ≠ []) := by
  constructor
  · intro slabs h
    unfold FixedChunker.chunk at h
    split at h
    · simp only [Option.some.injEq] at h
      subst h
      exact ⟨by intro sl hsl; simp at hsl, by simp⟩
    · obtain ⟨h1, h2⟩ := fixedGo_disjoint c t hz (utf8Len t + 1) 0 0 slabs
        (isBoundary_zero t) h
      exact ⟨fun sl hsl => (h1 sl hsl).2, h2⟩
  · intro hascii ht
    exact fixed_zero_overlap_ascii c t hascii hz hs ht

/-- Witness for the amended C2 theorem at `size = 2`, `overlap = 0` on
`"abc"`. -/
theorem fixed_zero_overlap_amended_witness :
    (∀ slabs, FixedChunker.chunk ⟨2, 0⟩ ("abc".toList) = some slabs →
      (∀ sl ∈ slabs, utf8Len sl.text ≤ 2) ∧
      List.Chain' (fun a b => a.stop ≤ b.start) slabs) ∧
    ((∀ ch ∈ ("abc".toList), ch.utf8Size = 1) → "abc".toList ≠ [] →
      ∃ slabs,
        FixedChunker.chunk ⟨2, 0⟩ ("abc".toList) = some slabs ∧
        (∀ p ∈ slabs.head?, p.start = 0) ∧
        List.Chain' (fun a b => a.stop = b.start) slabs ∧
        (∀ p ∈ slabs.getLast?, p.stop = utf8Len ("abc".toList)) ∧
        (slabs.map (fun sl => utf8Len sl.text)).sum =
          utf8Len ("abc".toList) ∧
        slabs ≠ []) :=
  fixed_zero_overlap_amended ⟨2, 0⟩ ("abc".toList) (by decide) (by decide)

/-- C3 counterexample: the sentence splitter violates text fidelity on
segmenter output containing a whitespace-only segment (UAX #29 rule SB4
yields the bare `"\n"` segment in `"A.\n\nB."`): the two kept sentences
are windowed together, and the emitted slab spans `[0, 6)` but stores
`"A.\nB."`, not the source slice `"A.\n\nB."`. -/
theorem sentence_text_fidelity_counterexample :
    concatAll ["A.\n".toList, "\n".toList, "B.".toList] =
      "A.\n\nB.".toList ∧
    trimL ("\n".toList) = [] ∧
    SentenceChunker.chunk ⟨2⟩ ["A.\n".toList, "\n".toList, "B.".toList]
      ("A.\n\nB.".toList) = [⟨"A.\nB.".toList, 0, 6, 0⟩] ∧
    "A.\nB.".toList ≠ byteSlice ("A.\n\nB.".toList) 0 6 := by
  refine ⟨by decide, by decide, by decide, by decide⟩

/-- C3 amended: for every splitter — fixed, recursive, model-based, code,
sentence and semantic — every emitted span is a valid character-boundary
pair within the document, and the stored text equals the source slice for
the fixed, recursive, model-based and code splitters.  The semantic
splitter's joined multi-sentence text is the documented deviation from the
slice equality; the sentence splitter is a second, undocumented deviation:
its stored text equals the source slice only when the segmenter emits no
whitespace-only segment (last conjunct), and otherwise is the trimmed join
of the kept sentences (see the counterexample).  The segmenter's output is
assumed to concatenate to the input; the parse tree is assumed well-formed
(`TSTree.WF`), as tree-sitter guarantees on valid UTF-8. -/
theorem span_validity_amended :
    (∀ (c : FixedChunker) (t : List Char) (slabs : List Slab),
      FixedChunker.chunk c t = some slabs → ∀ sl ∈ slabs, ValidSlab t sl) ∧
    (∀ (c : RecursiveChunker) (t : List Char) (slabs : List Slab),
      RecursiveChunker.chunk c t = some slabs → ∀ sl ∈ slabs, ValidSlab t sl) ∧
    (∀ (t : List Char) (splits : List Nat) (slabs : List Slab),
      ModelChunker.chunk t splits = some slabs → ∀ sl ∈ slabs, ValidSlab t sl) ∧
    (∀ (c : CodeChunker) (t : List Char) (tree : TSTree) (slabs : List Slab),
      TSTree.WF t tree → CodeChunker.chunk c t tree = some slabs →
      ∀ sl ∈ slabs, ValidSlab t sl) ∧
    (∀ (c : SentenceChunker) (segs : List (List Char)) (t : List Char),
      concatAll segs = t →
      ∀ sl ∈ SentenceChunker.chunk c segs t, ValidSpan t sl) ∧
    (∀ (c : SemanticChunker) (t : List Char) (segs : List (List Char))
      (embedOk : Bool) (drops : List Bool) (slabs : List Slab),
      concatAll segs = t →
      SemanticChunker.chunk c t segs embedOk drops = some slabs →
      ∀ sl ∈ slabs, ValidSpan t sl) ∧
    (∀ (c : SentenceChunker) (segs : List (List Char)) (t : List Char),
      concatAll segs = t → (∀ s ∈ segs, trimL s ≠ []) →
      ∀ sl ∈ SentenceChunker.chunk c segs t, ValidSlab t sl) := by
  refine ⟨?_, ?_, ?_, ?_, ?_, ?_, ?_⟩
  · intro c t slabs h sl hsl
    exact (fixed_chunk_valid h sl hsl).1
  · intro c t slabs h sl hsl
    exact (recursive_chunk_valid h sl hsl).1
  · intro t splits slabs h sl hsl
    exact (model_chunk_valid h sl hsl).1
  · intro c t tree slabs hwf h sl hsl
    exact code_chunk_valid c t tree hwf h sl hsl
  · intro c segs t hjoin sl hsl
    exact sentence_chunk_span c segs t hjoin sl hsl
  · intro c t segs embedOk drops slabs hjoin h sl hsl
    exact semantic_chunk_valid c t segs embedOk drops slabs hjoin h sl hsl
  · intro c segs t hjoin hsegs sl hsl
    exact (sentence_chunk_valid c segs t hjoin hsegs sl hsl).1

/-- Witness for the amended C3 theorem at concrete inputs, one chunk per
splitter; the sentence-span part is exercised at the counterexample input,
where the span is valid although the text is not the slice. -/
theorem span_validity_amended_witness :
    ValidSlab ("ab".toList) ⟨"ab".toList, 0, 2, 0⟩ ∧
    ValidSlab ("ab cd ef".toList) ⟨"ab ".toList, 0, 3, 0⟩ ∧
    ValidSlab ("ab".toList) ⟨"a".toList, 0, 1, 0⟩ ∧
    ValidSlab ("ab".toList) ⟨"ab".toList, 0, 2, 0⟩ ∧
    ValidSpan ("A.\n\nB.".toList) ⟨"A.\nB.".toList, 0, 6, 0⟩ ∧
    ValidSpan ("Hi. Yo.".toList) ⟨"Hi. Yo.".toList, 0, 7, 0⟩ ∧
    ValidSlab ("Hi. Yo.".toList) ⟨"Hi. Yo.".toList, 0, 7, 0⟩ := by
  have hwf : TSTree.WF ("ab".toList) (.node 0 2 []) := by
    refine TSTree.WF.node 0 2 [] (by decide) (by decide) (by decide)
      (by decide) ?_ ?_ ?_ ?_
    · intro p hp; simp at hp
    · simp
    · intro p hp; simp at hp
    · intro ch hch; simp at hch
  have hcl : collectLeafs ⟨CodeLanguage.rust, 2, 0⟩ ("ab".toList)
      (.node 0 2 []) = some [⟨"ab".toList, 0, 2, 0⟩] := by
    rw [show collectLeafs ⟨CodeLanguage.rust, 2, 0⟩ ("ab".toList)
        (.node 0 2 []) =
      (if 2 - 0 ≤ (⟨CodeLanguage.rust, 2, 0⟩ : CodeChunker).maxChunkSize then
        some [⟨byteSlice ("ab".toList) 0 2, 0, 2, 0⟩]
      else
        match RecursiveChunker.new
            (⟨CodeLanguage.rust, 2, 0⟩ : CodeChunker).maxChunkSize
            [['\n', '\n'], ['\n'], [' '], []] with
        | none => none
        | some rc =>
            match (rc.withOverlap 0).chunk (byteSlice ("ab".toList) 0 2) with
            | none => none
            | some subs =>
                some (subs.map (fun sl =>
                  ⟨sl.text, 0 + sl.start, 0 + sl.stop, 0⟩))) from by
      rw [collectLeafs]]
    rw [if_pos (by decide)]
    decide
  have hck : CodeChunker.chunk ⟨CodeLanguage.rust, 2, 0⟩ ("ab".toList)
      (.node 0 2 []) = some [⟨"ab".toList, 0, 2, 0⟩] := by
    unfold CodeChunker.chunk
    rw [hcl]
    decide
  refine ⟨?_, ?_, ?_, ?_, ?_, ?_, ?_⟩
  · exact span_validity_amended.1 ⟨2, 0⟩ ("ab".toList)
      [⟨"ab".toList, 0, 2, 0⟩] (by decide) ⟨"ab".toList, 0, 2, 0⟩ (by decide)
  · exact span_validity_amended.2.1 ⟨5, 0, [[' ']]⟩ ("ab cd ef".toList)
      [⟨"ab ".toList, 0, 3, 0⟩, ⟨"cd ef".toList, 3, 8, 1⟩] (by decide)
      ⟨"ab ".toList, 0, 3, 0⟩ (by decide)
  · exact span_validity_amended.2.2.1 ("ab".toList) [1]
      [⟨"a".toList, 0, 1, 0⟩, ⟨"b".toList, 1, 2, 1⟩] (by decide)
      ⟨"a".toList, 0, 1, 0⟩ (by decide)
  · exact span_validity_amended.2.2.2.1 ⟨CodeLanguage.rust, 2, 0⟩
      ("ab".toList) (.node 0 2 []) [⟨"ab".toList, 0, 2, 0⟩] hwf hck
      ⟨"ab".toList, 0, 2, 0⟩ (by decide)
  · exact span_validity_amended.2.2.2.2.1 ⟨2⟩
      ["A.\n".toList, "\n".toList, "B.".toList] ("A.\n\nB.".toList)
      (by decide) ⟨"A.\nB.".toList, 0, 6, 0⟩ (by decide)
  · exact span_validity_amended.2.2.2.2.2.1 ⟨2⟩ ("Hi. Yo.".toList)
      ["Hi. ".toList, "Yo.".toList] true [false]
      [⟨"Hi. Yo.".toList, 0, 7, 0⟩] (by decide) (by decide)
      ⟨"Hi. Yo.".toList, 0, 7, 0⟩ (by decide)
  · exact span_validity_amended.2.2.2.2.2.2 ⟨2⟩
      ["Hi. ".toList, "Yo.".toList] ("Hi. Yo.".toList) (by decide)
      (by decide) ⟨"Hi. Yo.".toList, 0, 7, 0⟩ (by decide)

end Slabs
